import Mathlib

/-!
AddressPoolManager (base/allocator/partition_allocator/address_pool_manager.cc)

A shallow embedding of `AddressPoolManager` and `AddressPoolManager::Pool`.

* `size_t` and `uintptr_t` are 64-bit words (the file is compiled only under
  `ARCH_CPU_64_BITS`); they are natural numbers here and every operation that can leave
  the word range is reduced modulo `2 ^ 64`.
* `std::bitset<kMaxBits>` is a `List Bool` of length `kMaxBits`; `test`, `set(pos)` and
  `reset(pos)` with `pos` outside the bitset raise `std::out_of_range`, which ends the call.
* A call either returns (`Result.ok`) or is stopped (`Result.fatal`) by a failed `CHECK`,
  a failed `DCHECK`, `NOTREACHED()` or `std::out_of_range`.  The embedding is the one of
  the configuration with `DCHECK_IS_ON()`: the `#if DCHECK_IS_ON()` blocks are present
  and a failed `DCHECK` is fatal.
* The lock `lock_` is held for the whole of `FindChunk` and `FreeChunk`; the embedding is
  sequential and does not mention it.
* `round_up` is the rounding the specification speaks of, on natural numbers; the code
  rounds with `bits.Align` in `size_t`, and the two agree for a size with
  `size + kSuperPageSize - 1 < 2 ^ 64`.
* Loops are recursions on an iteration budget.  The two `for` loops get exactly their
  trip count; the `while (true)` loop of `FindChunk` gets `total_bits_ + 1` passes and
  `Result.div` stands for a budget that ran out.

StringFromMemBuffer and StringFromMemData (base/fuchsia/mem_buffer_util.cc)

* `std::string` and `std::vector<uint8_t>` are lists of bytes, a byte is a natural number
  below `2 ^ 8`, and `uint64_t` sizes are natural numbers.
* `fuchsia::mem::Data`, `fuchsia::mem::Buffer` and `zx::vmo` come from the Fuchsia SDK:
  the union is an inductive type with one constructor for each value of `Which()`, and a
  VMO is the function that `zx_vmo_read` computes on it.
* A call returns its value together with the reads of the VMO and the lines of the error
  log it made, in order.  Allocation of the string is taken to succeed.
-/

set_option linter.dupNamespace false

namespace base.internal

/-! ## Constants, words, results -/

/-- The compile-time constants the file takes from headers that are not part of the
sources: `kSuperPageShift` (partition_alloc_constants.h), `Pool::kMaxBits` and
`kNumPools` (address_pool_manager.h). -/
structure Config where
  kSuperPageShift : Nat
  kMaxBits : Nat
  kNumPools : Nat
deriving DecidableEq, Repr

/-- The constant `kSuperPageSize = 1 << kSuperPageShift`. -/
def Config.kSuperPageSize (cfg : Config) : Nat := 1 <<< cfg.kSuperPageShift

/-- The constant `kSuperPageOffsetMask = kSuperPageSize - 1`. -/
def Config.kSuperPageOffsetMask (cfg : Config) : Nat := cfg.kSuperPageSize - 1

/-- The super page is at least two bytes and its size fits a 64-bit word. -/
def Config.Valid (cfg : Config) : Prop :=
  0 < cfg.kSuperPageShift ∧ cfg.kSuperPageShift < 64

instance (cfg : Config) : Decidable cfg.Valid := by
  unfold Config.Valid; infer_instance

/-- Number of values of a `size_t` / `uintptr_t`. -/
def kWord : Nat := 2 ^ 64

/-- Reasons for which a call does not return. -/
inductive Fatal where
  | check
  | dcheck
  | notreached
  | out_of_range
deriving DecidableEq, Repr

/-- Outcome of a call: it returned `v`, it was stopped, or the loop budget of the
embedding ran out. -/
inductive Result (α : Type) where
  | ok (v : α)
  | fatal (f : Fatal)
  | div
deriving DecidableEq, Repr

/-- Modelled from the spec: `bits::Align` of base/bits.h, which is not part of the
sources.  It rounds `size` up to the next multiple of the power of two `alignment`, in
`size_t` arithmetic: `(size + alignment - 1) & ~(alignment - 1)`. -/
def bits.Align (size alignment : Nat) : Nat :=
  ((size + alignment - 1) % kWord) &&& ((kWord - 1) ^^^ (alignment - 1))

/-! ## std::bitset -/

/-- The member `bitset::test(pos)`. -/
def bitset.test (b : List Bool) (pos : Nat) : Result Bool :=
  if h : pos < b.length then .ok b[pos] else .fatal .out_of_range

/-- The member `bitset::set(pos)`. -/
def bitset.set (b : List Bool) (pos : Nat) : Result (List Bool) :=
  if pos < b.length then .ok (List.set b pos true) else .fatal .out_of_range

/-- The member `bitset::reset(pos)`. -/
def bitset.reset (b : List Bool) (pos : Nat) : Result (List Bool) :=
  if pos < b.length then .ok (List.set b pos false) else .fatal .out_of_range

/-- The member `bitset::reset()` on a bitset of `n` bits. -/
def bitset.resetAll (n : Nat) : List Bool := List.replicate n false

/-! ## AddressPoolManager::Pool -/

/-- The data members of `AddressPoolManager::Pool` (without `lock_`). -/
structure AddressPoolManager.Pool where
  alloc_bitset_ : List Bool
  total_bits_ : Nat
  address_begin_ : Nat
  address_end_ : Nat
deriving DecidableEq, Repr

/-- Which `return` of `Pool::FindChunk` was executed: `return 0;` (line 98) or
`return address;` (line 124). -/
inductive FindResult where
  | no_chunk
  | chunk (address : Nat)
deriving DecidableEq, Repr

/-- The `uintptr_t` the caller receives. -/
def FindResult.value : FindResult → Nat
  | .no_chunk => 0
  | .chunk address => address

namespace AddressPoolManager.Pool

/-- The constructor `Pool::Pool(ptr, length)`, lines 67-82. -/
def Pool (cfg : Config) (ptr length : Nat) : Result AddressPoolManager.Pool :=
  let total_bits_ := length / cfg.kSuperPageSize
  let address_begin_ := ptr
  let address_end_ := (ptr + length) % kWord
  if ¬ total_bits_ ≤ cfg.kMaxBits then .fatal .check
  else if ptr &&& cfg.kSuperPageOffsetMask ≠ 0 then .fatal .check
  else if length &&& cfg.kSuperPageOffsetMask ≠ 0 then .fatal .check
  else if ¬ address_begin_ < address_end_ then .fatal .dcheck
  else .ok
    { alloc_bitset_ := bitset.resetAll cfg.kMaxBits
      total_bits_ := total_bits_
      address_begin_ := address_begin_
      address_end_ := address_end_ }

/-- Lines 101-111, `for (; curr_bit < end_bit; ++curr_bit)`: the first argument is the
number of iterations left, the result is `(beg_bit, found)` after the loop.
`curr_bit + 1` stays a word because `curr_bit < end_bit`. -/
def FindChunk.scan (alloc_bitset_ : List Bool) :
    Nat → Nat → Nat → Bool → Result (Nat × Bool)
  | 0, _, beg_bit, found => .ok (beg_bit, found)
  | n + 1, curr_bit, beg_bit, found =>
    match bitset.test alloc_bitset_ curr_bit with
    | .ok true => FindChunk.scan alloc_bitset_ n (curr_bit + 1) (curr_bit + 1) false
    | .ok false => FindChunk.scan alloc_bitset_ n (curr_bit + 1) beg_bit found
    | .fatal f => .fatal f
    | .div => .div

/-- Lines 116-119, `for (size_t i = beg_bit; i < end_bit; ++i)`: the first argument is
the number of iterations left. -/
def FindChunk.mark : Nat → Nat → List Bool → Result (List Bool)
  | 0, _, alloc_bitset_ => .ok alloc_bitset_
  | n + 1, i, alloc_bitset_ =>
    match bitset.test alloc_bitset_ i with
    | .ok true => .fatal .dcheck
    | .ok false =>
      match bitset.set alloc_bitset_ i with
      | .ok b => FindChunk.mark n (i + 1) b
      | .fatal f => .fatal f
      | .div => .div
    | .fatal f => .fatal f
    | .div => .div

/-- Lines 93-126, the `while (true)` loop: the first argument is the number of passes
left, then `beg_bit` and `curr_bit` at the head of the pass. -/
def FindChunk.loop (cfg : Config) (p : AddressPoolManager.Pool)
    (required_size need_bits : Nat) :
    Nat → Nat → Nat → Result (FindResult × AddressPoolManager.Pool)
  | 0, _, _ => .div
  | fuel + 1, beg_bit, curr_bit =>
    let end_bit := (beg_bit + need_bits) % kWord
    if end_bit > p.total_bits_ then .ok (.no_chunk, p)
    else
      match FindChunk.scan p.alloc_bitset_ (end_bit - curr_bit) curr_bit beg_bit true with
      | .ok (beg_bit, true) =>
        match FindChunk.mark (end_bit - beg_bit) beg_bit p.alloc_bitset_ with
        | .ok b =>
          let address := (p.address_begin_ + beg_bit * cfg.kSuperPageSize) % kWord
          if ¬ (address + required_size) % kWord ≤ p.address_end_ then .fatal .dcheck
          else .ok (.chunk address, { p with alloc_bitset_ := b })
        | .fatal f => .fatal f
        | .div => .div
      | .ok (beg_bit, false) =>
        FindChunk.loop cfg p required_size need_bits fuel beg_bit
          (if curr_bit < end_bit then end_bit else curr_bit)
      | .fatal f => .fatal f
      | .div => .div

/-- The function `Pool::FindChunk(requested_size)`, lines 84-129. -/
def FindChunk (cfg : Config) (p : AddressPoolManager.Pool) (requested_size : Nat) :
    Result (FindResult × AddressPoolManager.Pool) :=
  let required_size := bits.Align requested_size cfg.kSuperPageSize
  let need_bits := required_size >>> cfg.kSuperPageShift
  FindChunk.loop cfg p required_size need_bits (p.total_bits_ + 1) 0 0

/-- Lines 144-147, `for (size_t i = beg_bit; i < end_bit; ++i)`: the first argument is
the number of iterations left. -/
def FreeChunk.clear : Nat → Nat → List Bool → Result (List Bool)
  | 0, _, alloc_bitset_ => .ok alloc_bitset_
  | n + 1, i, alloc_bitset_ =>
    match bitset.test alloc_bitset_ i with
    | .ok false => .fatal .dcheck
    | .ok true =>
      match bitset.reset alloc_bitset_ i with
      | .ok b => FreeChunk.clear n (i + 1) b
      | .fatal f => .fatal f
      | .div => .div
    | .fatal f => .fatal f
    | .div => .div

/-- The function `Pool::FreeChunk(address, free_size)`, lines 131-148. -/
def FreeChunk (cfg : Config) (p : AddressPoolManager.Pool) (address free_size : Nat) :
    Result AddressPoolManager.Pool :=
  if address &&& cfg.kSuperPageOffsetMask ≠ 0 then .fatal .dcheck
  else
    let size := bits.Align free_size cfg.kSuperPageSize
    if ¬ p.address_begin_ ≤ address then .fatal .dcheck
    else if ¬ (address + size) % kWord ≤ p.address_end_ then .fatal .dcheck
    else
      let beg_bit := ((address + kWord - p.address_begin_) % kWord) / cfg.kSuperPageSize
      let end_bit := (beg_bit + size / cfg.kSuperPageSize) % kWord
      match FreeChunk.clear (end_bit - beg_bit) beg_bit p.alloc_bitset_ with
      | .ok b => .ok { p with alloc_bitset_ := b }
      | .fatal f => .fatal f
      | .div => .div

end AddressPoolManager.Pool

/-! ## AddressPoolManager -/

/-- The table `std::unique_ptr<Pool> pools_[kNumPools]`; `none` is a null pointer. -/
structure AddressPoolManager where
  pools_ : List (Option AddressPoolManager.Pool)
deriving DecidableEq, Repr

namespace AddressPoolManager

/-- Lines 33-38, `for (pool_handle i = 0; i < base::size(pools_); ++i)`: the first
argument is the number of iterations left; after the loop comes `NOTREACHED()`. -/
def Add.loop (cfg : Config) (ptr length : Nat) (pools_ : List (Option Pool)) :
    Nat → Nat → Result (Nat × AddressPoolManager)
  | 0, _ => .fatal .notreached
  | n + 1, i =>
    match pools_[i]? with
    | some none =>
      match Pool.Pool cfg ptr length with
      | .ok pool => .ok (i + 1, { pools_ := pools_.set i (some pool) })
      | .fatal f => .fatal f
      | .div => .div
    | some (some _) => Add.loop cfg ptr length pools_ n (i + 1)
    | none => .fatal .out_of_range

/-- The function `AddressPoolManager::Add(ptr, length)`, lines 29-41. -/
def Add (cfg : Config) (m : AddressPoolManager) (ptr length : Nat) :
    Result (Nat × AddressPoolManager) :=
  if ptr &&& cfg.kSuperPageOffsetMask ≠ 0 then .fatal .dcheck
  else if ((ptr + length) % kWord) &&& cfg.kSuperPageOffsetMask ≠ 0 then .fatal .dcheck
  else Add.loop cfg ptr length m.pools_ m.pools_.length 0

/-- The function `AddressPoolManager::Alloc(handle, length)`, lines 53-58. -/
def Alloc (cfg : Config) (m : AddressPoolManager) (handle length : Nat) :
    Result (FindResult × AddressPoolManager) :=
  if ¬ (0 < handle ∧ handle ≤ cfg.kNumPools) then .fatal .dcheck
  else
    match m.pools_[handle - 1]? with
    | some (some pool) =>
      match pool.FindChunk cfg length with
      | .ok (r, pool) => .ok (r, { pools_ := m.pools_.set (handle - 1) (some pool) })
      | .fatal f => .fatal f
      | .div => .div
    | some none => .fatal .dcheck
    | none => .fatal .out_of_range

/-- The function `AddressPoolManager::Free(handle, ptr, length)`, lines 60-65. -/
def Free (cfg : Config) (m : AddressPoolManager) (handle ptr length : Nat) :
    Result AddressPoolManager :=
  if ¬ (0 < handle ∧ handle ≤ cfg.kNumPools) then .fatal .dcheck
  else
    match m.pools_[handle - 1]? with
    | some (some pool) =>
      match pool.FreeChunk cfg ptr length with
      | .ok pool => .ok { pools_ := m.pools_.set (handle - 1) (some pool) }
      | .fatal f => .fatal f
      | .div => .div
    | some none => .fatal .dcheck
    | none => .fatal .out_of_range

end AddressPoolManager

/-! ## Predicates used in the statements -/

/-- What the constructor establishes and no member function changes: the bitset has
`kMaxBits` bits, the region `[address_begin_, address_end_)` starts on a super page
boundary, does not wrap and has `total_bits_` super pages, at most `kMaxBits`. -/
def AddressPoolManager.Pool.WF (cfg : Config) (p : AddressPoolManager.Pool) : Prop :=
  p.alloc_bitset_.length = cfg.kMaxBits ∧
  p.total_bits_ ≤ cfg.kMaxBits ∧
  p.address_begin_ &&& cfg.kSuperPageOffsetMask = 0 ∧
  p.address_begin_ < p.address_end_ ∧
  p.address_end_ < kWord ∧
  p.address_end_ = p.address_begin_ + p.total_bits_ * cfg.kSuperPageSize

instance (cfg : Config) (p : AddressPoolManager.Pool) : Decidable (p.WF cfg) := by
  unfold AddressPoolManager.Pool.WF; infer_instance

/-- No bit at or above `total_bits_` is set. -/
def AddressPoolManager.Pool.TailClear (p : AddressPoolManager.Pool) : Prop :=
  ∀ i < p.alloc_bitset_.length, p.total_bits_ ≤ i → p.alloc_bitset_[i]? = some false

instance (p : AddressPoolManager.Pool) : Decidable p.TailClear := by
  unfold AddressPoolManager.Pool.TailClear; infer_instance

/-- Every slot of the pool is free. -/
def AddressPoolManager.Pool.AllFree (p : AddressPoolManager.Pool) : Prop :=
  ∀ i < p.alloc_bitset_.length, p.alloc_bitset_[i]? = some false

instance (p : AddressPoolManager.Pool) : Decidable p.AllFree := by
  unfold AddressPoolManager.Pool.AllFree; infer_instance

/-- Slots `b .. b + need - 1` lie below `total` and are all free in `bitmap`. -/
def FreeRun (bitmap : List Bool) (total need b : Nat) : Prop :=
  b + need ≤ total ∧ ∀ i, b ≤ i → i < b + need → bitmap[i]? = some false

/-- Slots `b .. b + n - 1` are all occupied in `bitmap`. -/
def UsedRun (bitmap : List Bool) (n b : Nat) : Prop :=
  ∀ i, b ≤ i → i < b + n → bitmap[i]? = some true

/-- The bitmap with the `n` bits from `i` on overwritten by `v`. -/
def fillRange (v : Bool) : Nat → Nat → List Bool → List Bool
  | 0, _, bitmap => bitmap
  | n + 1, i, bitmap => fillRange v n (i + 1) (bitmap.set i v)

/-- The number of super pages `FindChunk` and `FreeChunk` compute for a size:
`bits::Align(size, kSuperPageSize) >> kSuperPageShift`. -/
def Config.need_bits (cfg : Config) (size : Nat) : Nat :=
  bits.Align size cfg.kSuperPageSize >>> cfg.kSuperPageShift

/-- The table has `kNumPools` entries. -/
def AddressPoolManager.WF (cfg : Config) (m : AddressPoolManager) : Prop :=
  m.pools_.length = cfg.kNumPools

instance (cfg : Config) (m : AddressPoolManager) : Decidable (m.WF cfg) := by
  unfold AddressPoolManager.WF; infer_instance

/-! ## Concrete instances -/

/-- A configuration with 2 MiB super pages, two pools and bitsets of eight bits. -/
def exampleConfig : Config := { kSuperPageShift := 21, kMaxBits := 8, kNumPools := 2 }

/-- A pool of four super pages at `0x200000` with slots `[free, used, free, free]`. -/
def examplePool : AddressPoolManager.Pool :=
  { alloc_bitset_ := [false, true, false, false, false, false, false, false]
    total_bits_ := 4
    address_begin_ := 2097152
    address_end_ := 10485760 }

/-- The number of occupied slots of the pool. -/
def AddressPoolManager.Pool.usedCount (p : AddressPoolManager.Pool) : Nat :=
  p.alloc_bitset_.count true

/-- A manager with both table entries empty. -/
def exampleManager : AddressPoolManager := { pools_ := [none, none] }

/-! ## Sequences of calls and outstanding allocations -/

/-- A caller issuing `Alloc(handle, length)` for each `length` of a list, in order,
collecting what each call returned. -/
def AddressPoolManager.AllocSeq (cfg : Config) (handle : Nat) :
    AddressPoolManager → List Nat → Result (List FindResult × AddressPoolManager)
  | m, [] => .ok ([], m)
  | m, length :: rest =>
    match m.Alloc cfg handle length with
    | .ok (r, m') =>
      match AddressPoolManager.AllocSeq cfg handle m' rest with
      | .ok (rs, m'') => .ok (r :: rs, m'')
      | .fatal f => .fatal f
      | .div => .div
    | .fatal f => .fatal f
    | .div => .div

/-- A caller issuing `Free(handle, ptr, length)` for each `(ptr, length)` of a list, in
order. -/
def AddressPoolManager.FreeSeq (cfg : Config) (handle : Nat) :
    AddressPoolManager → List (Nat × Nat) → Result AddressPoolManager
  | m, [] => .ok m
  | m, (ptr, length) :: rest =>
    match m.Free cfg handle ptr length with
    | .ok m' => AddressPoolManager.FreeSeq cfg handle m' rest
    | .fatal f => .fatal f
    | .div => .div

/-- The slot of an address of a region that begins at `address_begin`. -/
def slotOf (cfg : Config) (address_begin address : Nat) : Nat :=
  (address - address_begin) / cfg.kSuperPageSize

/-- Slot `i` belongs to the run of the allocation `r = (address, size)`. -/
def Covers (cfg : Config) (address_begin : Nat) (r : Nat × Nat) (i : Nat) : Prop :=
  slotOf cfg address_begin r.1 ≤ i ∧
    i < slotOf cfg address_begin r.1 + cfg.need_bits r.2

/-- The allocations of `L` are the outstanding ones of a pool with this bitmap: each is
a run of slots below `total`, no two runs share a slot, and a bit is set exactly when a
run covers it. -/
def Outstanding (cfg : Config) (address_begin total : Nat) (bitmap : List Bool)
    (L : List (Nat × Nat)) : Prop :=
  (∀ r ∈ L, r.1 = address_begin + slotOf cfg address_begin r.1 * cfg.kSuperPageSize ∧
      slotOf cfg address_begin r.1 + cfg.need_bits r.2 ≤ total) ∧
    L.Pairwise (fun r s => ∀ i, ¬ (Covers cfg address_begin r i ∧ Covers cfg address_begin s i)) ∧
    ∀ i, i < bitmap.length →
      (bitmap[i]? = some true ↔ ∃ r ∈ L, Covers cfg address_begin r i)

/-! ## AddressPoolManager: Remove, ResetForTesting, the initial table -/

/-- The function `AddressPoolManager::Remove(handle)`, lines 48-51. -/
def AddressPoolManager.Remove (cfg : Config) (m : AddressPoolManager) (handle : Nat) :
    Result AddressPoolManager :=
  if ¬ (0 < handle ∧ handle ≤ cfg.kNumPools) then .fatal .dcheck
  else
    match m.pools_[handle - 1]? with
    | some _ => .ok { pools_ := m.pools_.set (handle - 1) none }
    | none => .fatal .out_of_range

/-- Lines 44-45, `for (pool_handle i = 0; i < base::size(pools_); ++i) pools_[i].reset();`:
the first argument is the number of iterations left. -/
def AddressPoolManager.ResetForTesting.loop :
    Nat → Nat → List (Option AddressPoolManager.Pool) → List (Option AddressPoolManager.Pool)
  | 0, _, pools_ => pools_
  | n + 1, i, pools_ => AddressPoolManager.ResetForTesting.loop n (i + 1) (pools_.set i none)

/-- The function `AddressPoolManager::ResetForTesting()`, lines 43-46. -/
def AddressPoolManager.ResetForTesting (m : AddressPoolManager) : AddressPoolManager :=
  { pools_ := AddressPoolManager.ResetForTesting.loop m.pools_.length 0 m.pools_ }

/-- The table after `AddressPoolManager::AddressPoolManager() = default`: `kNumPools`
null pointers. -/
def AddressPoolManager.init (cfg : Config) : AddressPoolManager :=
  { pools_ := List.replicate cfg.kNumPools none }

/-- Every entry of the table holds a pool. -/
def AddressPoolManager.Full (m : AddressPoolManager) : Prop :=
  ∀ i < m.pools_.length, ∃ q, m.pools_[i]? = some (some q)

/-- A caller issuing `Add(ptr, length)` for each `(ptr, length)` of a list, in order,
collecting the handles. -/
def AddressPoolManager.AddSeq (cfg : Config) :
    AddressPoolManager → List (Nat × Nat) → Result (List Nat × AddressPoolManager)
  | m, [] => .ok ([], m)
  | m, (ptr, length) :: rest =>
    match m.Add cfg ptr length with
    | .ok (h, m') =>
      match AddressPoolManager.AddSeq cfg m' rest with
      | .ok (hs, m'') => .ok (h :: hs, m'')
      | .fatal f => .fatal f
      | .div => .div
    | .fatal f => .fatal f
    | .div => .div

/-- A call of one of the member functions of the manager. -/
inductive Call where
  | Add (ptr length : Nat)
  | Remove (handle : Nat)
  | ResetForTesting
  | Alloc (handle length : Nat)
  | Free (handle ptr length : Nat)
deriving DecidableEq, Repr

/-- The table after a call that returned. -/
def AddressPoolManager.call (cfg : Config) (m : AddressPoolManager) :
    Call → Result AddressPoolManager
  | .Add ptr length =>
    match m.Add cfg ptr length with
    | .ok (_, m') => .ok m'
    | .fatal f => .fatal f
    | .div => .div
  | .Remove handle => m.Remove cfg handle
  | .ResetForTesting => .ok m.ResetForTesting
  | .Alloc handle length =>
    match m.Alloc cfg handle length with
    | .ok (_, m') => .ok m'
    | .fatal f => .fatal f
    | .div => .div
  | .Free handle ptr length => m.Free cfg handle ptr length

/-- The table after a list of calls that all returned. -/
def AddressPoolManager.calls (cfg : Config) :
    AddressPoolManager → List Call → Result AddressPoolManager
  | m, [] => .ok m
  | m, c :: rest =>
    match m.call cfg c with
    | .ok m' => AddressPoolManager.calls cfg m' rest
    | .fatal f => .fatal f
    | .div => .div

/-- The table states reachable from the initial table by calls that returned. -/
def AddressPoolManager.Reachable (cfg : Config) (m : AddressPoolManager) : Prop :=
  ∃ cs, AddressPoolManager.calls cfg (AddressPoolManager.init cfg) cs = .ok m

/-- The pool of a live handle is the same `Pool` object before and after: same region,
possibly another bitmap. -/
def AddressPoolManager.Pool.SameObject (p q : AddressPoolManager.Pool) : Prop :=
  q.total_bits_ = p.total_bits_ ∧ q.address_begin_ = p.address_begin_ ∧
    q.address_end_ = p.address_end_ ∧ q.alloc_bitset_.length = p.alloc_bitset_.length

/-- The pool the constructor builds for two super pages at `0x1000000`. -/
def examplePool2 : AddressPoolManager.Pool :=
  { alloc_bitset_ := bitset.resetAll 8
    total_bits_ := 2
    address_begin_ := 16777216
    address_end_ := 20971520 }

/-- The pool the constructor builds for four super pages at address `0`. -/
def examplePoolAtZero : AddressPoolManager.Pool :=
  { alloc_bitset_ := bitset.resetAll 8
    total_bits_ := 4
    address_begin_ := 0
    address_end_ := 8388608 }

/-- The four-slot pool at `0x200000` with every slot occupied. -/
def exampleFullPool : AddressPoolManager.Pool :=
  { alloc_bitset_ := [true, true, true, true, false, false, false, false]
    total_bits_ := 4
    address_begin_ := 2097152
    address_end_ := 10485760 }

/-! ## The naive first-fit search -/

/-- The naive inspection of a candidate start `b`: all `need` bits from `b` on are
looked at from scratch and must be free. -/
def naiveRunFree (bitmap : List Bool) (b need : Nat) : Bool :=
  (List.range' b need).all (fun i => bitmap[i]? == some false)

/-- The naive first-fit search: candidate starts `b`, `b + 1`, `b + 2`, ... are tried in
turn; a candidate that does not fit below `total` ends the search with a failure, a
candidate whose bits are all free is the result. The first argument bounds the number
of candidates tried. -/
def naiveSearch (bitmap : List Bool) (total need : Nat) : Nat → Nat → Option Nat
  | 0, _ => none
  | fuel + 1, b =>
    if b + need > total then none
    else if naiveRunFree bitmap b need then some b
    else naiveSearch bitmap total need fuel (b + 1)

/-- The naive implementation of `FindChunk`: search from candidate `0`, mark the run
found and return its address, or return `0`. -/
def naiveFindChunk (cfg : Config) (p : AddressPoolManager.Pool) (requested_size : Nat) :
    Result (FindResult × AddressPoolManager.Pool) :=
  let required_size := bits.Align requested_size cfg.kSuperPageSize
  let need_bits := required_size >>> cfg.kSuperPageShift
  match naiveSearch p.alloc_bitset_ p.total_bits_ need_bits (p.total_bits_ + 1) 0 with
  | none => .ok (.no_chunk, p)
  | some b =>
    .ok (.chunk (p.address_begin_ + b * cfg.kSuperPageSize),
      { p with alloc_bitset_ := fillRange true need_bits b p.alloc_bitset_ })

/-! ## One pass of the loop of FindChunk, with the bit indices it touches -/

/-- Lines 101-111 as `FindChunk.scan`, together with the list of the indices passed to
`alloc_bitset_.test`, in the order of the calls. -/
def AddressPoolManager.Pool.FindChunk.scanT (alloc_bitset_ : List Bool) :
    Nat → Nat → Nat → Bool → Result (Nat × Bool) × List Nat
  | 0, _, beg_bit, found => (.ok (beg_bit, found), [])
  | n + 1, curr_bit, beg_bit, found =>
    match bitset.test alloc_bitset_ curr_bit with
    | .ok true =>
      let r := AddressPoolManager.Pool.FindChunk.scanT alloc_bitset_ n (curr_bit + 1)
        (curr_bit + 1) false
      (r.1, curr_bit :: r.2)
    | .ok false =>
      let r := AddressPoolManager.Pool.FindChunk.scanT alloc_bitset_ n (curr_bit + 1)
        beg_bit found
      (r.1, curr_bit :: r.2)
    | .fatal f => (.fatal f, [curr_bit])
    | .div => (.div, [curr_bit])

/-- Lines 116-119 as `FindChunk.mark`, together with the list of the indices passed to
`alloc_bitset_.test` and `alloc_bitset_.set`, in the order of the iterations. -/
def AddressPoolManager.Pool.FindChunk.markT :
    Nat → Nat → List Bool → Result (List Bool) × List Nat
  | 0, _, alloc_bitset_ => (.ok alloc_bitset_, [])
  | n + 1, i, alloc_bitset_ =>
    match bitset.test alloc_bitset_ i with
    | .ok true => (.fatal .dcheck, [i])
    | .ok false =>
      match bitset.set alloc_bitset_ i with
      | .ok b =>
        let r := AddressPoolManager.Pool.FindChunk.markT n (i + 1) b
        (r.1, i :: r.2)
      | .fatal f => (.fatal f, [i])
      | .div => (.div, [i])
    | .fatal f => (.fatal f, [i])
    | .div => (.div, [i])

/-- How a pass of the `while (true)` loop ends: the function returns (or is stopped), or
the next pass starts with new `beg_bit` and `curr_bit`. -/
inductive PassResult where
  | returned (r : Result (FindResult × AddressPoolManager.Pool))
  | next (beg_bit curr_bit : Nat)
deriving DecidableEq, Repr

/-- A pass of the loop: how it ends, the indices its scan tested (line 102) and the
indices its marking loop tested and set (lines 117-118). -/
structure PassLog where
  result : PassResult
  tested : List Nat
  marked : List Nat
deriving DecidableEq, Repr

/-- One pass of the `while (true)` loop, lines 94-125, from `beg_bit` and `curr_bit` at
its head. -/
def AddressPoolManager.Pool.FindChunk.pass (cfg : Config) (p : AddressPoolManager.Pool)
    (required_size need_bits beg_bit curr_bit : Nat) : PassLog :=
  let end_bit := (beg_bit + need_bits) % kWord
  if end_bit > p.total_bits_ then
    { result := .returned (.ok (.no_chunk, p)), tested := [], marked := [] }
  else
    let s := AddressPoolManager.Pool.FindChunk.scanT p.alloc_bitset_ (end_bit - curr_bit)
      curr_bit beg_bit true
    match s.1 with
    | .ok (beg_bit, true) =>
      let m := AddressPoolManager.Pool.FindChunk.markT (end_bit - beg_bit) beg_bit
        p.alloc_bitset_
      match m.1 with
      | .ok b =>
        let address := (p.address_begin_ + beg_bit * cfg.kSuperPageSize) % kWord
        if ¬ (address + required_size) % kWord ≤ p.address_end_ then
          { result := .returned (.fatal .dcheck), tested := s.2, marked := m.2 }
        else
          { result := .returned (.ok (.chunk address, { p with alloc_bitset_ := b })),
            tested := s.2, marked := m.2 }
      | .fatal f => { result := .returned (.fatal f), tested := s.2, marked := m.2 }
      | .div => { result := .returned .div, tested := s.2, marked := m.2 }
    | .ok (beg_bit, false) =>
      { result := .next beg_bit (if curr_bit < end_bit then end_bit else curr_bit),
        tested := s.2, marked := [] }
    | .fatal f => { result := .returned (.fatal f), tested := s.2, marked := [] }
    | .div => { result := .returned .div, tested := s.2, marked := [] }

/-- The heads of the passes of a call of `FindChunk`: `Head k beg_bit curr_bit log` says
that after `k` passes that did not return, the next pass starts with `beg_bit` and
`curr_bit`, and `log` lists the indices the scans of these `k` passes tested, in order. -/
inductive AddressPoolManager.Pool.FindChunk.Head (cfg : Config)
    (p : AddressPoolManager.Pool) (required_size need_bits : Nat) :
    Nat → Nat → Nat → List Nat → Prop where
  | start : AddressPoolManager.Pool.FindChunk.Head cfg p required_size need_bits 0 0 0 []
  | step {k beg_bit curr_bit : Nat} {log : List Nat} {beg_bit' curr_bit' : Nat} :
    AddressPoolManager.Pool.FindChunk.Head cfg p required_size need_bits k beg_bit curr_bit
      log →
    (AddressPoolManager.Pool.FindChunk.pass cfg p required_size need_bits beg_bit
      curr_bit).result = .next beg_bit' curr_bit' →
    AddressPoolManager.Pool.FindChunk.Head cfg p required_size need_bits (k + 1) beg_bit'
      curr_bit'
      (log ++ (AddressPoolManager.Pool.FindChunk.pass cfg p required_size need_bits beg_bit
        curr_bit).tested)

/-! ## Sequences of calls on one pool -/

/-- A call of one of the two member functions of a pool. -/
inductive PoolCall where
  | FindChunk (requested_size : Nat)
  | FreeChunk (address free_size : Nat)
deriving DecidableEq, Repr

/-- The pool after a call that returned. -/
def AddressPoolManager.Pool.call (cfg : Config) (p : AddressPoolManager.Pool) :
    PoolCall → Result AddressPoolManager.Pool
  | .FindChunk requested_size =>
    match p.FindChunk cfg requested_size with
    | .ok (_, p') => .ok p'
    | .fatal f => .fatal f
    | .div => .div
  | .FreeChunk address free_size => p.FreeChunk cfg address free_size

/-- The pool after a list of calls that all returned. -/
def AddressPoolManager.Pool.calls (cfg : Config) :
    AddressPoolManager.Pool → List PoolCall → Result AddressPoolManager.Pool
  | p, [] => .ok p
  | p, c :: rest =>
    match p.call cfg c with
    | .ok p' => AddressPoolManager.Pool.calls cfg p' rest
    | .fatal f => .fatal f
    | .div => .div

/-- The pool states reachable from the pool constructed for `(ptr, length)` by calls of
`FindChunk` and `FreeChunk` that returned. -/
def AddressPoolManager.Pool.Reachable (cfg : Config) (ptr length : Nat)
    (p : AddressPoolManager.Pool) : Prop :=
  ∃ p0 cs, AddressPoolManager.Pool.Pool cfg ptr length = .ok p0 ∧
    AddressPoolManager.Pool.calls cfg p0 cs = .ok p

end base.internal

/-! ## fuchsia/mem_buffer_util.cc: the Fuchsia types -/

/-- The value `ZX_OK` of `zx_status_t`. -/
def ZX_OK : Int := 0

/-- The value `ZX_ERR_OUT_OF_RANGE` of `zx_status_t`. -/
def ZX_ERR_OUT_OF_RANGE : Int := -14

/-- A `zx::vmo` as far as `read` shows it: `read data offset len` is
`zx_vmo_read(handle, data, offset, len)`, where `data` is what the destination holds
before the call; the result is the status and what the destination holds after the call. -/
structure zx.vmo where
  read : List Nat → Nat → Nat → Int × List Nat

/-- The struct `fuchsia::mem::Buffer`: a VMO and the `uint64_t` number of bytes of it that
are the data. -/
structure fuchsia.mem.Buffer where
  vmo : zx.vmo
  size : Nat

/-- The union `fuchsia::mem::Data`, one constructor for each value of `Which()`: `kBytes`
with the `std::vector<uint8_t>` that `bytes()` gives, `kBuffer` with the buffer that
`buffer()` gives, `kUnknown` (a member the bindings do not know, with its ordinal and its
bytes) and `Invalid` (no member set). -/
inductive fuchsia.mem.Data where
  | kBytes (bytes : List Nat)
  | kBuffer (buffer : fuchsia.mem.Buffer)
  | kUnknown (ordinal : Nat) (unknown_bytes : List Nat)
  | Invalid

/-- The member function `std::string::resize(n)`: the first `n` bytes, filled up with
`char()`. -/
def std.string.resize (s : List Nat) (n : Nat) : List Nat :=
  s.take n ++ List.replicate (n - s.length) 0

/-- The constructor `std::string(first, last)` over a range of `uint8_t`: every element is
converted to `char`; a `char` is kept as its byte, so the conversion is the reduction
modulo `2 ^ 8`. -/
def std.string.ofRange (bytes : List Nat) : List Nat :=
  bytes.map (fun b => b % 2 ^ 8)

namespace base

/-! ## fuchsia/mem_buffer_util.cc: StringFromMemBuffer and StringFromMemData -/

/-- What a call does besides returning: `vmo_read offset len` is a call of `zx_vmo_read`
for `len` bytes at `offset`, `log_error status` is a line `ZX_LOG(ERROR, status)`. -/
inductive Effect where
  | vmo_read (offset len : Nat)
  | log_error (status : Int)
deriving DecidableEq, Repr

/-- The value a call returns and, in order, what it did besides. -/
structure Traced (α : Type) where
  value : α
  effects : List Effect
deriving DecidableEq, Repr

/-- The function `StringFromMemBuffer(buffer)`, lines 55-69; `none` is `absl::nullopt`. -/
def StringFromMemBuffer (buffer : fuchsia.mem.Buffer) : Traced (Option (List Nat)) :=
  let result : List Nat := []
  if buffer.size = 0 then { value := some result, effects := [] }
  else
    let result := std.string.resize result buffer.size
    let r := buffer.vmo.read result 0 buffer.size
    let status := r.1
    let result := r.2
    if status = ZX_OK then { value := some result, effects := [.vmo_read 0 buffer.size] }
    else { value := none, effects := [.vmo_read 0 buffer.size, .log_error status] }

/-- The function `StringFromMemData(data)`, lines 71-86; `none` is `absl::nullopt`. -/
def StringFromMemData (data : fuchsia.mem.Data) : Traced (Option (List Nat)) :=
  match data with
  | .kBytes bytes => { value := some (std.string.ofRange bytes), effects := [] }
  | .kBuffer buffer => StringFromMemBuffer buffer
  | .kUnknown _ _ => { value := none, effects := [] }
  | .Invalid => { value := none, effects := [] }

/-- A VMO that holds `content`: a read inside the content stores the bytes asked for and
gives `ZX_OK`, a read that leaves the content stores nothing and gives
`ZX_ERR_OUT_OF_RANGE`. -/
def exampleVmo (content : List Nat) : zx.vmo :=
  { read := fun data offset len =>
      if offset + len ≤ content.length then (ZX_OK, (content.drop offset).take len)
      else (ZX_ERR_OUT_OF_RANGE, data) }

end base

namespace base.internal

/-! ## The rounding of the specification -/

/-- The rounding the specification writes `round_up(size, alignment)`: the least multiple
of `alignment` that is not below `size`, as a natural number, with no wraparound.  The
code rounds with `bits.Align`, in `size_t`. -/
def round_up (size alignment : Nat) : Nat :=
  (size + alignment - 1) / alignment * alignment

/-! ## Arithmetic of super pages -/

theorem Config.kSuperPageSize_eq (cfg : Config) :
    cfg.kSuperPageSize = 2 ^ cfg.kSuperPageShift := by
  simp [Config.kSuperPageSize, Nat.one_shiftLeft]

theorem Config.kSuperPageSize_pos (cfg : Config) : 0 < cfg.kSuperPageSize := by
  rw [cfg.kSuperPageSize_eq]; exact Nat.two_pow_pos _

theorem Config.and_mask (cfg : Config) (x : Nat) :
    x &&& cfg.kSuperPageOffsetMask = x % cfg.kSuperPageSize := by
  rw [Config.kSuperPageOffsetMask, cfg.kSuperPageSize_eq]
  exact Nat.and_pow_two_sub_one_eq_mod x _

theorem bits.Align_pow (x k : Nat) (hk : k ≤ 64) :
    bits.Align x (2 ^ k) = ((x + 2 ^ k - 1) % kWord) / 2 ^ k * 2 ^ k := by
  apply Nat.eq_of_testBit_eq
  intro i
  rw [Nat.mul_comm _ (2 ^ k), Nat.testBit_mul_pow_two, ← Nat.shiftRight_eq_div_pow,
    Nat.testBit_shiftRight]
  simp only [bits.Align, kWord, Nat.testBit_and, Nat.testBit_xor, Nat.testBit_two_pow_sub_one,
    Nat.testBit_mod_two_pow]
  by_cases h1 : i < k
  · have h2 : i < 64 := by omega
    simp [h1, h2]
  · have h3 : k + (i - k) = i := by omega
    by_cases h2 : i < 64
    · simp [h1, h2, h3]; omega
    · simp [h1, h2, h3]

theorem Config.two_le_size (cfg : Config) (hv : cfg.Valid) : 2 ≤ cfg.kSuperPageSize := by
  rw [cfg.kSuperPageSize_eq]
  calc 2 = 2 ^ 1 := rfl
    _ ≤ 2 ^ cfg.kSuperPageShift := Nat.pow_le_pow_right (by decide) hv.1

theorem Config.kWord_eq (cfg : Config) (hv : cfg.Valid) :
    kWord = 2 ^ (64 - cfg.kSuperPageShift) * cfg.kSuperPageSize := by
  rw [cfg.kSuperPageSize_eq, ← Nat.pow_add, kWord]
  congr 1
  have := hv.2
  omega

theorem Config.align_eq (cfg : Config) (hv : cfg.Valid) (x : Nat) :
    bits.Align x cfg.kSuperPageSize =
      ((x + cfg.kSuperPageSize - 1) % kWord) / cfg.kSuperPageSize * cfg.kSuperPageSize := by
  rw [cfg.kSuperPageSize_eq]
  exact bits.Align_pow x _ (Nat.le_of_lt hv.2)

theorem Config.align_lt (cfg : Config) (hv : cfg.Valid) (x : Nat) :
    bits.Align x cfg.kSuperPageSize < kWord := by
  rw [cfg.align_eq hv]
  have h1 : (x + cfg.kSuperPageSize - 1) % kWord < kWord := Nat.mod_lt _ (by decide)
  have h2 := Nat.div_mul_le_self ((x + cfg.kSuperPageSize - 1) % kWord) cfg.kSuperPageSize
  omega

theorem Config.need_bits_mul (cfg : Config) (hv : cfg.Valid) (x : Nat) :
    cfg.need_bits x * cfg.kSuperPageSize = bits.Align x cfg.kSuperPageSize := by
  rw [Config.need_bits, Nat.shiftRight_eq_div_pow, ← cfg.kSuperPageSize_eq, cfg.align_eq hv,
    Nat.mul_div_cancel _ cfg.kSuperPageSize_pos]

theorem Config.align_div (cfg : Config) (hv : cfg.Valid) (x : Nat) :
    bits.Align x cfg.kSuperPageSize / cfg.kSuperPageSize = cfg.need_bits x := by
  rw [← cfg.need_bits_mul hv, Nat.mul_div_cancel _ cfg.kSuperPageSize_pos]

theorem Config.align_of_aligned (cfg : Config) (hv : cfg.Valid) (x : Nat) (hx : x < kWord)
    (h : x % cfg.kSuperPageSize = 0) : bits.Align x cfg.kSuperPageSize = x := by
  have hpos := cfg.kSuperPageSize_pos
  obtain ⟨q, rfl⟩ := Nat.dvd_of_mod_eq_zero h
  have hq : q < 2 ^ (64 - cfg.kSuperPageShift) := by
    rw [cfg.kWord_eq hv, Nat.mul_comm] at hx
    exact Nat.lt_of_mul_lt_mul_right hx
  have hle : cfg.kSuperPageSize * q + cfg.kSuperPageSize ≤ kWord := by
    rw [cfg.kWord_eq hv]
    calc cfg.kSuperPageSize * q + cfg.kSuperPageSize = (q + 1) * cfg.kSuperPageSize := by ring
      _ ≤ 2 ^ (64 - cfg.kSuperPageShift) * cfg.kSuperPageSize := Nat.mul_le_mul_right _ hq
  rw [cfg.align_eq hv, Nat.mod_eq_of_lt (by omega), Nat.add_sub_assoc hpos,
    Nat.mul_add_div hpos, Nat.div_eq_of_lt (by omega)]
  ring

/-! ## The bitset and the three `for` loops -/

theorem bitset.test_of_getElem? {b : List Bool} {i : Nat} {v : Bool} (h : b[i]? = some v) :
    bitset.test b i = .ok v := by
  obtain ⟨hi, hv⟩ := List.getElem?_eq_some_iff.mp h
  simp [bitset.test, hi, hv]

theorem bitset.test_out_of_range {b : List Bool} {i : Nat} (h : b.length ≤ i) :
    bitset.test b i = .fatal .out_of_range := by
  simp [bitset.test, Nat.not_lt.mpr h]

theorem bitset.getElem?_of_lt {b : List Bool} {i : Nat} (h : i < b.length) :
    b[i]? = some true ∨ b[i]? = some false := by
  rw [List.getElem?_eq_getElem h]
  cases b[i] <;> simp

theorem fillRange_length (v : Bool) (n i : Nat) (b : List Bool) :
    (fillRange v n i b).length = b.length := by
  induction n generalizing i b with
  | zero => rfl
  | succ n ih => simp [fillRange, ih]

theorem fillRange_getElem? (v : Bool) (n i : Nat) (b : List Bool) (j : Nat) :
    (fillRange v n i b)[j]? =
      if i ≤ j ∧ j < i + n ∧ j < b.length then some v else b[j]? := by
  induction n generalizing i b with
  | zero =>
    have h3 : ¬ (i ≤ j ∧ j < i + 0 ∧ j < b.length) := by omega
    rw [fillRange, if_neg h3]
  | succ n ih =>
    rw [fillRange, ih, List.length_set, List.getElem?_set]
    by_cases h1 : i = j
    · subst h1
      by_cases h2 : i < b.length
      · simp [h2]
      · simp [h2, List.getElem?_eq_none (Nat.not_lt.mp h2)]
    · by_cases h2 : i + 1 ≤ j ∧ j < i + 1 + n ∧ j < b.length
      · have h3 : i ≤ j ∧ j < i + (n + 1) ∧ j < b.length := by omega
        simp [h2, h3]
      · have h3 : ¬ (i ≤ j ∧ j < i + (n + 1) ∧ j < b.length) := by omega
        simp [h1, h2, h3]

theorem fillRange_undo (n i : Nat) (b : List Bool)
    (h : ∀ j, i ≤ j → j < i + n → b[j]? = some false) :
    fillRange false n i (fillRange true n i b) = b := by
  apply List.ext_getElem?
  intro j
  rw [fillRange_getElem?, fillRange_getElem?, fillRange_length]
  by_cases h1 : i ≤ j ∧ j < i + n ∧ j < b.length
  · simp [h1, h j h1.1 h1.2.1]
  · simp [h1]

theorem AddressPoolManager.Pool.FindChunk.scan_spec (b : List Bool) (n curr_bit beg_bit : Nat)
    (found : Bool) (h : curr_bit + n ≤ b.length) :
    ((∀ i, curr_bit ≤ i → i < curr_bit + n → b[i]? = some false) ∧
        FindChunk.scan b n curr_bit beg_bit found = .ok (beg_bit, found)) ∨
      ∃ j, curr_bit ≤ j ∧ j < curr_bit + n ∧ b[j]? = some true ∧
        (∀ i, j < i → i < curr_bit + n → b[i]? = some false) ∧
        FindChunk.scan b n curr_bit beg_bit found = .ok (j + 1, false) := by
  induction n generalizing curr_bit beg_bit found with
  | zero =>
    left
    exact ⟨fun i h1 h2 => by omega, rfl⟩
  | succ n ih =>
    have hlt : curr_bit < b.length := by omega
    rcases bitset.getElem?_of_lt hlt with hb | hb
    · rw [FindChunk.scan, bitset.test_of_getElem? hb]
      rcases ih (curr_bit + 1) (curr_bit + 1) false (by omega) with ⟨hfree, hres⟩ | ⟨j, h1, h2, h3, h4, h5⟩
      · right
        refine ⟨curr_bit, Nat.le_refl _, by omega, hb, ?_, hres⟩
        intro i hi1 hi2
        exact hfree i hi1 (by omega)
      · right
        refine ⟨j, by omega, by omega, h3, ?_, h5⟩
        intro i hi1 hi2
        exact h4 i hi1 (by omega)
    · rw [FindChunk.scan, bitset.test_of_getElem? hb]
      rcases ih (curr_bit + 1) beg_bit found (by omega) with ⟨hfree, hres⟩ | ⟨j, h1, h2, h3, h4, h5⟩
      · left
        refine ⟨?_, hres⟩
        intro i hi1 hi2
        rcases Nat.eq_or_lt_of_le hi1 with heq | hlt2
        · subst heq; exact hb
        · exact hfree i hlt2 (by omega)
      · right
        refine ⟨j, by omega, by omega, h3, ?_, h5⟩
        intro i hi1 hi2
        exact h4 i hi1 (by omega)

theorem AddressPoolManager.Pool.FindChunk.mark_spec (n i : Nat) (b : List Bool)
    (h : ∀ j, i ≤ j → j < i + n → b[j]? = some false) :
    FindChunk.mark n i b = .ok (fillRange true n i b) := by
  induction n generalizing i b with
  | zero => rfl
  | succ n ih =>
    have hb := h i (Nat.le_refl _) (by omega)
    have hlt : i < b.length := (List.getElem?_eq_some_iff.mp hb).1
    rw [FindChunk.mark, bitset.test_of_getElem? hb]
    simp only [bitset.set, hlt, if_true]
    rw [fillRange]
    apply ih
    intro j hj1 hj2
    rw [List.getElem?_set_ne (by omega)]
    exact h j (by omega) (by omega)

theorem AddressPoolManager.Pool.FreeChunk.clear_spec (n i : Nat) (b : List Bool)
    (h : ∀ j, i ≤ j → j < i + n → b[j]? = some true) :
    FreeChunk.clear n i b = .ok (fillRange false n i b) := by
  induction n generalizing i b with
  | zero => rfl
  | succ n ih =>
    have hb := h i (Nat.le_refl _) (by omega)
    have hlt : i < b.length := (List.getElem?_eq_some_iff.mp hb).1
    rw [FreeChunk.clear, bitset.test_of_getElem? hb]
    simp only [bitset.reset, hlt, if_true]
    rw [fillRange]
    apply ih
    intro j hj1 hj2
    rw [List.getElem?_set_ne (by omega)]
    exact h j (by omega) (by omega)

/-- The clearing loop is stopped as soon as it meets a bit that is not set. -/
theorem AddressPoolManager.Pool.FreeChunk.clear_fatal (n i : Nat) (b : List Bool) (j : Nat)
    (hj1 : i ≤ j) (hj2 : j < i + n) (hj : b[j]? ≠ some true) :
    ∃ f, FreeChunk.clear n i b = .fatal f := by
  induction n generalizing i b with
  | zero => omega
  | succ n ih =>
    by_cases hlt : i < b.length
    · rcases bitset.getElem?_of_lt hlt with hb | hb
      · rw [FreeChunk.clear, bitset.test_of_getElem? hb]
        simp only [bitset.reset, hlt, if_true]
        have hne : i ≠ j := by
          intro he; subst he; exact hj hb
        apply ih (i + 1) _ (by omega) (by omega)
        rw [List.getElem?_set_ne hne]
        exact hj
      · rw [FreeChunk.clear, bitset.test_of_getElem? hb]
        exact ⟨_, rfl⟩
    · rw [FreeChunk.clear, bitset.test_out_of_range (Nat.not_lt.mp hlt)]
      exact ⟨_, rfl⟩

/-! ## The first-fit search -/

theorem AddressPoolManager.Pool.WF.total_mul_lt {cfg : Config} {p : AddressPoolManager.Pool}
    (hwf : p.WF cfg) : p.total_bits_ * cfg.kSuperPageSize < kWord := by
  obtain ⟨_, _, _, _, h5, h6⟩ := hwf
  omega

/-- Invariant of the `while (true)` loop of `FindChunk`: with `beg_bit ≤ curr_bit`, the
bits of `[beg_bit, curr_bit)` free and no free run starting below `beg_bit`, the loop
either reports that no free run exists or allocates the lowest one. -/
theorem AddressPoolManager.Pool.FindChunk.loop_spec (cfg : Config) (hv : cfg.Valid)
    (p : AddressPoolManager.Pool) (hwf : p.WF cfg) (required_size need : Nat)
    (hreq : need * cfg.kSuperPageSize = required_size) (hlt : required_size < kWord)
    (fuel beg_bit curr_bit : Nat) (h1 : beg_bit ≤ curr_bit) (h2 : curr_bit ≤ p.total_bits_)
    (h3 : ∀ i, beg_bit ≤ i → i < curr_bit → p.alloc_bitset_[i]? = some false)
    (h4 : ∀ b, b < beg_bit → ¬ FreeRun p.alloc_bitset_ p.total_bits_ need b)
    (h5 : p.total_bits_ - curr_bit < fuel) :
    ((∀ b, ¬ FreeRun p.alloc_bitset_ p.total_bits_ need b) ∧
        FindChunk.loop cfg p required_size need fuel beg_bit curr_bit = .ok (.no_chunk, p)) ∨
      ∃ b, FreeRun p.alloc_bitset_ p.total_bits_ need b ∧
        (∀ b', b' < b → ¬ FreeRun p.alloc_bitset_ p.total_bits_ need b') ∧
        FindChunk.loop cfg p required_size need fuel beg_bit curr_bit =
          .ok (.chunk (p.address_begin_ + b * cfg.kSuperPageSize),
            { p with alloc_bitset_ := fillRange true need b p.alloc_bitset_ }) := by
  have hS := cfg.two_le_size hv
  have htot := hwf.total_mul_lt
  obtain ⟨hlen, hmax, _, _, hend_lt, hend⟩ := hwf
  have hne2 : need * 2 ≤ need * cfg.kSuperPageSize := Nat.mul_le_mul_left _ hS
  have htot2 : p.total_bits_ * 2 ≤ p.total_bits_ * cfg.kSuperPageSize :=
    Nat.mul_le_mul_left _ hS
  induction fuel generalizing beg_bit curr_bit with
  | zero => omega
  | succ fuel ih =>
    have hK : kWord = 2 ^ 64 := rfl
    have hmod : (beg_bit + need) % kWord = beg_bit + need := Nat.mod_eq_of_lt (by omega)
    rw [FindChunk.loop]
    simp only [hmod]
    by_cases hgt : beg_bit + need > p.total_bits_
    · left
      refine ⟨?_, by simp [hgt]⟩
      intro b hb
      by_cases hbb : b < beg_bit
      · exact h4 b hbb hb
      · have := hb.1
        omega
    · simp only [hgt, if_false]
      rcases FindChunk.scan_spec p.alloc_bitset_ (beg_bit + need - curr_bit) curr_bit beg_bit
          true (by omega) with ⟨hfree, hres⟩ | ⟨j, hj1, hj2, hj3, hj4, hres⟩
      · right
        have hrun : FreeRun p.alloc_bitset_ p.total_bits_ need beg_bit := by
          refine ⟨by omega, ?_⟩
          intro i hi1 hi2
          by_cases hic : i < curr_bit
          · exact h3 i hi1 hic
          · exact hfree i (by omega) (by omega)
        refine ⟨beg_bit, hrun, h4, ?_⟩
        have hsub : beg_bit + need - beg_bit = need := by omega
        have hmul : (beg_bit + need) * cfg.kSuperPageSize ≤
            p.total_bits_ * cfg.kSuperPageSize := Nat.mul_le_mul_right _ (by omega)
        rw [Nat.add_mul] at hmul
        have ha : (p.address_begin_ + beg_bit * cfg.kSuperPageSize) % kWord =
            p.address_begin_ + beg_bit * cfg.kSuperPageSize := Nat.mod_eq_of_lt (by omega)
        have hb : (p.address_begin_ + beg_bit * cfg.kSuperPageSize + required_size) % kWord =
            p.address_begin_ + beg_bit * cfg.kSuperPageSize + required_size :=
          Nat.mod_eq_of_lt (by omega)
        have hle : p.address_begin_ + beg_bit * cfg.kSuperPageSize + required_size ≤
            p.address_end_ := by omega
        simp only [hres, hsub, FindChunk.mark_spec need beg_bit p.alloc_bitset_ hrun.2, ha, hb,
          hle, not_true, if_false]
      · have hcl : curr_bit < beg_bit + need := by omega
        simp only [hres, hcl, if_true]
        apply ih (j + 1) (beg_bit + need) (by omega) (by omega)
        · intro i hi1 hi2
          exact hj4 i (by omega) (by omega)
        · intro b hb hrun
          by_cases hbb : b < beg_bit
          · exact h4 b hbb hrun
          · have := hrun.2 j (by omega) (by have := hrun.1; omega)
            rw [hj3] at this
            cases this
        · omega

/-- On a well-formed pool `FindChunk` always returns: either no free run of the needed
length exists and it returns `0` leaving the pool as it is, or it marks the lowest free
run and returns its address. -/
theorem AddressPoolManager.Pool.FindChunk_spec (cfg : Config) (hv : cfg.Valid)
    (p : AddressPoolManager.Pool) (hwf : p.WF cfg) (requested_size : Nat) :
    ((∀ b, ¬ FreeRun p.alloc_bitset_ p.total_bits_ (cfg.need_bits requested_size) b) ∧
        p.FindChunk cfg requested_size = .ok (.no_chunk, p)) ∨
      ∃ b, FreeRun p.alloc_bitset_ p.total_bits_ (cfg.need_bits requested_size) b ∧
        (∀ b', b' < b →
          ¬ FreeRun p.alloc_bitset_ p.total_bits_ (cfg.need_bits requested_size) b') ∧
        p.FindChunk cfg requested_size =
          .ok (.chunk (p.address_begin_ + b * cfg.kSuperPageSize),
            { p with alloc_bitset_ :=
                fillRange true (cfg.need_bits requested_size) b p.alloc_bitset_ }) := by
  have h := FindChunk.loop_spec cfg hv p hwf (bits.Align requested_size cfg.kSuperPageSize)
    (cfg.need_bits requested_size) (cfg.need_bits_mul hv requested_size)
    (cfg.align_lt hv requested_size) (p.total_bits_ + 1) 0 0 (Nat.le_refl _) (Nat.zero_le _)
    (fun i _ hi => absurd hi (Nat.not_lt_zero _)) (fun b hb => absurd hb (Nat.not_lt_zero _))
    (by omega)
  exact h

/-- What a successful `FindChunk` returned and did, read off its result. -/
theorem AddressPoolManager.Pool.FindChunk_chunk (cfg : Config) (hv : cfg.Valid)
    (p : AddressPoolManager.Pool) (hwf : p.WF cfg) (requested_size a : Nat)
    (p' : AddressPoolManager.Pool)
    (h : p.FindChunk cfg requested_size = .ok (.chunk a, p')) :
    ∃ b, FreeRun p.alloc_bitset_ p.total_bits_ (cfg.need_bits requested_size) b ∧
      (∀ b', b' < b →
        ¬ FreeRun p.alloc_bitset_ p.total_bits_ (cfg.need_bits requested_size) b') ∧
      a = p.address_begin_ + b * cfg.kSuperPageSize ∧
      p' = { p with alloc_bitset_ :=
              fillRange true (cfg.need_bits requested_size) b p.alloc_bitset_ } := by
  rcases FindChunk_spec cfg hv p hwf requested_size with ⟨_, hres⟩ | ⟨b, h1, h2, hres⟩
  · rw [hres] at h
    cases h
  · rw [hres] at h
    injection h with h
    injection h with ha hp
    injection ha with ha
    exact ⟨b, h1, h2, ha.symm, hp.symm⟩

/-! ## The rounding of the specification and the rounding of the code -/

/-- The rounding of the specification is the least multiple of the alignment that is not
below the size. -/
theorem round_up_least (size alignment : Nat) (h : 0 < alignment) :
    alignment ∣ round_up size alignment ∧ size ≤ round_up size alignment ∧
      ∀ m, alignment ∣ m → size ≤ m → round_up size alignment ≤ m := by
  refine ⟨Dvd.intro_left _ rfl, ?_, ?_⟩
  · have h1 := Nat.div_add_mod (size + alignment - 1) alignment
    have h2 := Nat.mod_lt (size + alignment - 1) h
    rw [Nat.mul_comm] at h1
    unfold round_up
    omega
  · rintro m ⟨k, rfl⟩ hle
    unfold round_up
    rw [Nat.mul_comm alignment k]
    apply Nat.mul_le_mul_right
    apply Nat.le_of_lt_succ
    rw [Nat.div_lt_iff_lt_mul h, Nat.succ_mul]
    rw [Nat.mul_comm] at hle
    omega

/-- An address that passes the alignment and range checks of `FreeChunk` is the address
of a slot `b`, and the run of the rounded size ends at or below `total_bits_`. -/
theorem AddressPoolManager.Pool.slot_of_address (cfg : Config) (hv : cfg.Valid)
    (p : AddressPoolManager.Pool) (hwf : p.WF cfg) (address free_size : Nat)
    (ha : address &&& cfg.kSuperPageOffsetMask = 0) (hb : p.address_begin_ ≤ address)
    (he : address + bits.Align free_size cfg.kSuperPageSize ≤ p.address_end_) :
    address = p.address_begin_ +
        (address - p.address_begin_) / cfg.kSuperPageSize * cfg.kSuperPageSize ∧
      (address - p.address_begin_) / cfg.kSuperPageSize + cfg.need_bits free_size ≤
        p.total_bits_ := by
  have hpos := cfg.kSuperPageSize_pos
  obtain ⟨_, _, hbeg, _, _, hend⟩ := hwf
  rw [cfg.and_mask] at ha hbeg
  have hd : (address - p.address_begin_) % cfg.kSuperPageSize = 0 :=
    Nat.sub_mod_eq_zero_of_mod_eq (by rw [ha, hbeg])
  have hdm := Nat.div_add_mod (address - p.address_begin_) cfg.kSuperPageSize
  rw [hd, Nat.add_zero, Nat.mul_comm] at hdm
  refine ⟨by omega, ?_⟩
  rw [← cfg.need_bits_mul hv] at he
  have h1 : ((address - p.address_begin_) / cfg.kSuperPageSize + cfg.need_bits free_size) *
      cfg.kSuperPageSize ≤ p.total_bits_ * cfg.kSuperPageSize := by
    rw [Nat.add_mul]; omega
  exact Nat.le_of_mul_le_mul_right h1 hpos

/-- Unfolding of `FreeChunk` at the address of slot `b`: once the alignment and range
checks are passed, the call is the clearing loop over the `need_bits free_size` slots
from `b` on. -/
theorem AddressPoolManager.Pool.FreeChunk_unfold (cfg : Config) (hv : cfg.Valid)
    (p : AddressPoolManager.Pool) (hwf : p.WF cfg) (b free_size : Nat)
    (haddr : p.address_begin_ + b * cfg.kSuperPageSize < kWord)
    (hrange : (p.address_begin_ + b * cfg.kSuperPageSize +
      bits.Align free_size cfg.kSuperPageSize) % kWord ≤ p.address_end_) :
    p.FreeChunk cfg (p.address_begin_ + b * cfg.kSuperPageSize) free_size =
      match FreeChunk.clear (cfg.need_bits free_size) b p.alloc_bitset_ with
      | .ok bitmap => .ok { p with alloc_bitset_ := bitmap }
      | .fatal f => .fatal f
      | .div => .div := by
  have hS := cfg.two_le_size hv
  have hpos := cfg.kSuperPageSize_pos
  obtain ⟨hlen, hmax, hbeg, _, hend_lt, hend⟩ := hwf
  have hsize := cfg.need_bits_mul hv free_size
  have hsize_lt := cfg.align_lt hv free_size
  have hb2 : b * 2 ≤ b * cfg.kSuperPageSize := Nat.mul_le_mul_left _ hS
  have hn2 : cfg.need_bits free_size * 2 ≤ cfg.need_bits free_size * cfg.kSuperPageSize :=
    Nat.mul_le_mul_left _ hS
  have hK : kWord = 2 ^ 64 := rfl
  have h1 : (p.address_begin_ + b * cfg.kSuperPageSize) &&& cfg.kSuperPageOffsetMask = 0 := by
    rw [cfg.and_mask] at hbeg ⊢
    rw [Nat.add_mul_mod_self_right, hbeg]
  have h2 : p.address_begin_ ≤ p.address_begin_ + b * cfg.kSuperPageSize := Nat.le_add_right _ _
  have h4 : (p.address_begin_ + b * cfg.kSuperPageSize + kWord - p.address_begin_) % kWord /
      cfg.kSuperPageSize = b := by
    have : p.address_begin_ + b * cfg.kSuperPageSize + kWord - p.address_begin_ =
        b * cfg.kSuperPageSize + kWord := by omega
    rw [this, Nat.add_mod_right, Nat.mod_eq_of_lt (by omega), Nat.mul_div_cancel _ hpos]
  have h5 : (b + bits.Align free_size cfg.kSuperPageSize / cfg.kSuperPageSize) % kWord =
      b + cfg.need_bits free_size := by
    rw [cfg.align_div hv, Nat.mod_eq_of_lt (by omega)]
  have h6 : b + cfg.need_bits free_size - b = cfg.need_bits free_size := by omega
  unfold AddressPoolManager.Pool.FreeChunk
  simp only [h1, h2, hrange, h4, h5, h6, ne_eq, not_true, if_false]

/-- The range check of `FreeChunk` passes for a run that ends at or below `total_bits_`. -/
theorem AddressPoolManager.Pool.WF.range_ok {cfg : Config} {p : AddressPoolManager.Pool}
    (hwf : p.WF cfg) (hv : cfg.Valid) (b free_size : Nat)
    (hle : b + cfg.need_bits free_size ≤ p.total_bits_) :
    p.address_begin_ + b * cfg.kSuperPageSize < kWord ∧
      (p.address_begin_ + b * cfg.kSuperPageSize +
        bits.Align free_size cfg.kSuperPageSize) % kWord ≤ p.address_end_ := by
  obtain ⟨_, _, _, _, hend_lt, hend⟩ := hwf
  have hmul : (b + cfg.need_bits free_size) * cfg.kSuperPageSize ≤
      p.total_bits_ * cfg.kSuperPageSize := Nat.mul_le_mul_right _ hle
  rw [Nat.add_mul, cfg.need_bits_mul hv] at hmul
  refine ⟨by omega, ?_⟩
  rw [Nat.mod_eq_of_lt (by omega)]
  omega

/-- Calling `FreeChunk` for the run of `need_bits free_size` slots at slot `b`, all occupied and
below `total_bits_`, returns and clears exactly that run. -/
theorem AddressPoolManager.Pool.FreeChunk_run (cfg : Config) (hv : cfg.Valid)
    (p : AddressPoolManager.Pool) (hwf : p.WF cfg) (b free_size : Nat)
    (hle : b + cfg.need_bits free_size ≤ p.total_bits_)
    (hused : UsedRun p.alloc_bitset_ (cfg.need_bits free_size) b) :
    p.FreeChunk cfg (p.address_begin_ + b * cfg.kSuperPageSize) free_size =
      .ok { p with alloc_bitset_ :=
              fillRange false (cfg.need_bits free_size) b p.alloc_bitset_ } := by
  obtain ⟨h1, h2⟩ := hwf.range_ok hv b free_size hle
  rw [AddressPoolManager.Pool.FreeChunk_unfold cfg hv p hwf b free_size h1 h2,
    FreeChunk.clear_spec _ _ _ hused]

/-! ## C3, C6, C7: what a successful FindChunk did -/

theorem fillRange_count_true (n i : Nat) (b : List Bool)
    (h : ∀ j, i ≤ j → j < i + n → b[j]? = some false) :
    (fillRange true n i b).count true = b.count true + n := by
  induction n generalizing i b with
  | zero => rfl
  | succ n ih =>
    have hb := h i (Nat.le_refl _) (by omega)
    obtain ⟨hlt, hv⟩ := List.getElem?_eq_some_iff.mp hb
    rw [fillRange, ih]
    · rw [List.count_set _ _ _ _ hlt, hv]
      simp
      omega
    · intro j hj1 hj2
      rw [List.getElem?_set_ne (by omega)]
      exact h j (by omega) (by omega)

theorem AddressPoolManager.Pool.WF.with_bitset {cfg : Config} {p : AddressPoolManager.Pool}
    (hwf : p.WF cfg) (b : List Bool) (hb : b.length = p.alloc_bitset_.length) :
    AddressPoolManager.Pool.WF cfg { p with alloc_bitset_ := b } := by
  obtain ⟨h1, h2⟩ := hwf
  exact ⟨hb.trans h1, h2⟩

/-- C3 (allocate and free are inverses): on a well-formed pool with bitmap `B`, when
`FindChunk(requested_size)` returns address `a` through `return address`, the following
`FreeChunk(a, requested_size)` passes every check and returns, and the pool after it,
bitmap included, is the pool before the `FindChunk`. -/
theorem FindChunk_FreeChunk_inverse (cfg : Config) (hv : cfg.Valid)
    (p : AddressPoolManager.Pool) (hwf : p.WF cfg) (requested_size a : Nat)
    (p' : AddressPoolManager.Pool)
    (h : p.FindChunk cfg requested_size = .ok (.chunk a, p')) :
    p'.FreeChunk cfg a requested_size = .ok p ∧
      ∀ p'', p'.FreeChunk cfg a requested_size = .ok p'' →
        p''.alloc_bitset_ = p.alloc_bitset_ := by
  obtain ⟨b, h1, _, h3, h4⟩ := AddressPoolManager.Pool.FindChunk_chunk cfg hv p hwf _ a p' h
  have hlen := hwf.1
  have hmax := hwf.2.1
  have hwf' := hwf.with_bitset (fillRange true (cfg.need_bits requested_size) b p.alloc_bitset_)
    (fillRange_length _ _ _ _)
  have hused : UsedRun (fillRange true (cfg.need_bits requested_size) b p.alloc_bitset_)
      (cfg.need_bits requested_size) b := by
    intro j hj1 hj2
    rw [fillRange_getElem?, if_pos ⟨hj1, hj2, by have := h1.1; omega⟩]
  have hfree := AddressPoolManager.Pool.FreeChunk_run cfg hv _ hwf' b requested_size h1.1 hused
  simp only [fillRange_undo _ _ _ h1.2] at hfree
  subst h3 h4
  refine ⟨hfree, ?_⟩
  intro p'' hp''
  rw [hfree] at hp''
  injection hp'' with hp''
  rw [← hp'']

/-- C3 at the 4-slot pool `[free, used, free, free]` and a request of two slots. -/
theorem FindChunk_FreeChunk_inverse_witness :
    exampleConfig.Valid ∧ examplePool.WF exampleConfig ∧
      examplePool.FindChunk exampleConfig 4194304 =
        .ok (.chunk 6291456,
          { examplePool with
            alloc_bitset_ := [false, true, true, true, false, false, false, false] }) ∧
      AddressPoolManager.Pool.FreeChunk exampleConfig
          { examplePool with
            alloc_bitset_ := [false, true, true, true, false, false, false, false] }
          6291456 4194304 = .ok examplePool :=
  ⟨by decide, by decide, by decide,
    (FindChunk_FreeChunk_inverse exampleConfig (by decide) examplePool (by decide) 4194304
      6291456 _ (by decide)).1⟩

/-- C6 (frame of a successful FindChunk): on a well-formed pool, when `FindChunk` returns
address `a` through `return address`, there is a run start `b` with
`a = address_begin_ + b * kSuperPageSize` such that, with
`need = Align(requested_size, kSuperPageSize) >> kSuperPageShift`, the bits
`b .. b + need - 1` were free and are set after the call, every other bit has its value
from before the call, the number of set bits grew by exactly `need`, and the other
members of the pool are unchanged. -/
theorem FindChunk_frame (cfg : Config) (hv : cfg.Valid) (p : AddressPoolManager.Pool)
    (hwf : p.WF cfg) (requested_size a : Nat) (p' : AddressPoolManager.Pool)
    (h : p.FindChunk cfg requested_size = .ok (.chunk a, p')) :
    ∃ b, a = p.address_begin_ + b * cfg.kSuperPageSize ∧
      b + cfg.need_bits requested_size ≤ p.total_bits_ ∧
      (∀ i, b ≤ i → i < b + cfg.need_bits requested_size →
        p.alloc_bitset_[i]? = some false ∧ p'.alloc_bitset_[i]? = some true) ∧
      (∀ i, ¬ (b ≤ i ∧ i < b + cfg.need_bits requested_size) →
        p'.alloc_bitset_[i]? = p.alloc_bitset_[i]?) ∧
      p'.alloc_bitset_.length = p.alloc_bitset_.length ∧
      p'.usedCount = p.usedCount + cfg.need_bits requested_size ∧
      p'.total_bits_ = p.total_bits_ ∧ p'.address_begin_ = p.address_begin_ ∧
      p'.address_end_ = p.address_end_ := by
  obtain ⟨b, h1, _, h3, h4⟩ := AddressPoolManager.Pool.FindChunk_chunk cfg hv p hwf _ a p' h
  have hlen := hwf.1
  have hmax := hwf.2.1
  subst h4
  refine ⟨b, h3, h1.1, ?_, ?_, fillRange_length _ _ _ _,
    fillRange_count_true _ _ _ h1.2, rfl, rfl, rfl⟩
  · intro i hi1 hi2
    refine ⟨h1.2 i hi1 hi2, ?_⟩
    show (fillRange true _ b p.alloc_bitset_)[i]? = some true
    rw [fillRange_getElem?, if_pos ⟨hi1, hi2, by have := h1.1; omega⟩]
  · intro i hi
    show (fillRange true _ b p.alloc_bitset_)[i]? = _
    rw [fillRange_getElem?, if_neg (fun hc => hi ⟨hc.1, hc.2.1⟩)]

/-- C6 at the 4-slot pool `[free, used, free, free]` and a request of two slots. -/
theorem FindChunk_frame_witness :
    exampleConfig.Valid ∧ examplePool.WF exampleConfig ∧
      ∃ b, 6291456 = examplePool.address_begin_ + b * exampleConfig.kSuperPageSize ∧
        b + exampleConfig.need_bits 4194304 ≤ examplePool.total_bits_ ∧
        (∀ i, b ≤ i → i < b + exampleConfig.need_bits 4194304 →
          examplePool.alloc_bitset_[i]? = some false ∧
            [false, true, true, true, false, false, false, false][i]? = some true) ∧
        (∀ i, ¬ (b ≤ i ∧ i < b + exampleConfig.need_bits 4194304) →
          [false, true, true, true, false, false, false, false][i]? =
            examplePool.alloc_bitset_[i]?) ∧
        [false, true, true, true, false, false, false, false].length =
          examplePool.alloc_bitset_.length ∧
        AddressPoolManager.Pool.usedCount
            { examplePool with
              alloc_bitset_ := [false, true, true, true, false, false, false, false] } =
          examplePool.usedCount + exampleConfig.need_bits 4194304 ∧
        examplePool.total_bits_ = examplePool.total_bits_ ∧
        examplePool.address_begin_ = examplePool.address_begin_ ∧
        examplePool.address_end_ = examplePool.address_end_ :=
  ⟨by decide, by decide,
    FindChunk_frame exampleConfig (by decide) examplePool (by decide) 4194304 6291456
      { examplePool with
        alloc_bitset_ := [false, true, true, true, false, false, false, false] }
      (by decide)⟩

/-- What `Pool::Pool(ptr, length)` leaves behind when it passes its checks. -/
theorem AddressPoolManager.Pool.Pool_ok (cfg : Config) (ptr length : Nat) (hptr : ptr < kWord)
    (hlength : length < kWord) (p : AddressPoolManager.Pool)
    (h : AddressPoolManager.Pool.Pool cfg ptr length = .ok p) :
    p.WF cfg ∧ p.alloc_bitset_ = bitset.resetAll cfg.kMaxBits ∧
      p.total_bits_ = length / cfg.kSuperPageSize ∧ p.address_begin_ = ptr ∧
      p.address_end_ = ptr + length ∧ 0 < length ∧ length % cfg.kSuperPageSize = 0 := by
  unfold AddressPoolManager.Pool.Pool at h
  simp only [ne_eq] at h
  split at h
  · cases h
  · rename_i h1
    split at h
    · cases h
    · rename_i h2
      split at h
      · cases h
      · rename_i h3
        split at h
        · cases h
        · rename_i h4
          injection h with h
          subst h
          have h1' := Decidable.not_not.mp h1
          have h2' := Decidable.not_not.mp h2
          have h3' := Decidable.not_not.mp h3
          have h4' := Decidable.not_not.mp h4
          have hK : kWord = 2 ^ 64 := rfl
          have hnowrap : ptr + length < kWord := by
            by_contra hc
            have : (ptr + length) % kWord = ptr + length - kWord := by
              rw [Nat.mod_eq_sub_mod (by omega), Nat.mod_eq_of_lt (by omega)]
            omega
          have hmod : (ptr + length) % kWord = ptr + length := Nat.mod_eq_of_lt hnowrap
          rw [cfg.and_mask] at h3'
          have hdm := Nat.div_add_mod length cfg.kSuperPageSize
          rw [h3', Nat.add_zero, Nat.mul_comm] at hdm
          rw [hmod] at h4'
          refine ⟨⟨by simp [bitset.resetAll], h1', h2', ?_, ?_, ?_⟩, rfl, rfl, rfl, hmod,
            by omega, h3'⟩
          · show ptr < (ptr + length) % kWord
            omega
          · show (ptr + length) % kWord < kWord
            omega
          · show (ptr + length) % kWord = ptr + length / cfg.kSuperPageSize * cfg.kSuperPageSize
            omega

theorem AddressPoolManager.Pool.WF.address_eq_slot {cfg : Config}
    {p : AddressPoolManager.Pool} (hwf : p.WF cfg) (address : Nat)
    (ha : address &&& cfg.kSuperPageOffsetMask = 0) (hb : p.address_begin_ ≤ address) :
    address = p.address_begin_ +
      (address - p.address_begin_) / cfg.kSuperPageSize * cfg.kSuperPageSize := by
  have hbeg := hwf.2.2.1
  rw [cfg.and_mask] at ha hbeg
  have hd : (address - p.address_begin_) % cfg.kSuperPageSize = 0 :=
    Nat.sub_mod_eq_zero_of_mod_eq (by rw [ha, hbeg])
  have hdm := Nat.div_add_mod (address - p.address_begin_) cfg.kSuperPageSize
  rw [hd, Nat.add_zero, Nat.mul_comm] at hdm
  omega

/-- Inside the bitset the clearing loop is stopped by its `DCHECK` at the first free bit. -/
theorem AddressPoolManager.Pool.FreeChunk.clear_dcheck (n i : Nat) (b : List Bool) (j : Nat)
    (hj1 : i ≤ j) (hj2 : j < i + n) (hlen : i + n ≤ b.length) (hj : b[j]? = some false) :
    FreeChunk.clear n i b = .fatal .dcheck := by
  induction n generalizing i b with
  | zero => omega
  | succ n ih =>
    have hlt : i < b.length := by omega
    rcases bitset.getElem?_of_lt hlt with hb | hb
    · rw [FreeChunk.clear, bitset.test_of_getElem? hb]
      simp only [bitset.reset, hlt, if_true]
      have hne : i ≠ j := by
        intro he
        subst he
        rw [hb] at hj
        cases hj
      apply ih (i + 1) _ (by omega) (by omega)
      · rw [List.length_set]; omega
      · rw [List.getElem?_set_ne hne]
        exact hj
    · rw [FreeChunk.clear, bitset.test_of_getElem? hb]

/-- C8 (double free): on a well-formed pool, for `(address, free_size)` that pass the
alignment and range checks (`address` a multiple of `kSuperPageSize`,
`address_begin_ ≤ address`, `address + Align(free_size, kSuperPageSize) ≤ address_end_`),
when some slot `i` of the run that starts at `(address - address_begin_) / kSuperPageSize`
and has `Align(free_size, kSuperPageSize) / kSuperPageSize` slots is already free,
`FreeChunk` does not return: it is stopped by `DCHECK(alloc_bitset_.test(i))`. -/
theorem FreeChunk_double_free (cfg : Config) (hv : cfg.Valid) (p : AddressPoolManager.Pool)
    (hwf : p.WF cfg) (address free_size : Nat)
    (ha : address &&& cfg.kSuperPageOffsetMask = 0) (hb : p.address_begin_ ≤ address)
    (he : address + bits.Align free_size cfg.kSuperPageSize ≤ p.address_end_) (i : Nat)
    (hi1 : (address - p.address_begin_) / cfg.kSuperPageSize ≤ i)
    (hi2 : i < (address - p.address_begin_) / cfg.kSuperPageSize +
      bits.Align free_size cfg.kSuperPageSize / cfg.kSuperPageSize)
    (hfree : p.alloc_bitset_[i]? = some false) :
    p.FreeChunk cfg address free_size = .fatal .dcheck := by
  obtain ⟨h1, h2⟩ :=
    AddressPoolManager.Pool.slot_of_address cfg hv p hwf address free_size ha hb he
  obtain ⟨h3, h4⟩ := hwf.range_ok hv _ free_size h2
  rw [cfg.align_div hv] at hi2
  have hlen := hwf.1
  have hmax := hwf.2.1
  rw [h1, AddressPoolManager.Pool.FreeChunk_unfold cfg hv p hwf _ free_size h3 h4,
    AddressPoolManager.Pool.FreeChunk.clear_dcheck _ _ _ i hi1 hi2 (by omega) hfree]

/-- C8 after allocating two slots of a fresh 4-slot pool and freeing the first of them:
freeing the first slot a second time is stopped by the `DCHECK`. -/
theorem FreeChunk_double_free_witness :
    AddressPoolManager.Pool.FindChunk exampleConfig
        { examplePool with alloc_bitset_ := bitset.resetAll 8 } 4194304 =
      .ok (.chunk 2097152,
        { examplePool with
          alloc_bitset_ := [true, true, false, false, false, false, false, false] }) ∧
    AddressPoolManager.Pool.FreeChunk exampleConfig
        { examplePool with
          alloc_bitset_ := [true, true, false, false, false, false, false, false] }
        2097152 2097152 =
      .ok { examplePool with
          alloc_bitset_ := [false, true, false, false, false, false, false, false] } ∧
    AddressPoolManager.Pool.FreeChunk exampleConfig
        { examplePool with
          alloc_bitset_ := [false, true, false, false, false, false, false, false] }
        2097152 2097152 = .fatal .dcheck :=
  ⟨by decide, by decide,
    FreeChunk_double_free exampleConfig (by decide)
      { examplePool with
        alloc_bitset_ := [false, true, false, false, false, false, false, false] }
      (by decide) 2097152 2097152 (by decide) (by decide) (by decide) 0 (by decide)
      (by decide) (by decide)⟩

/-- C9 (frame of FreeChunk): on a well-formed pool, for `(address, free_size)` that pass
the alignment and range checks and whose run `begin .. end - 1`, with
`begin = (address - address_begin_) / kSuperPageSize` and
`end = begin + Align(free_size, kSuperPageSize) / kSuperPageSize`, is entirely occupied,
`FreeChunk` returns, the bits of the run are clear after it, every other bit has its
value from before the call, and the other members of the pool are unchanged. -/
theorem FreeChunk_frame (cfg : Config) (hv : cfg.Valid) (p : AddressPoolManager.Pool)
    (hwf : p.WF cfg) (address free_size : Nat)
    (ha : address &&& cfg.kSuperPageOffsetMask = 0) (hb : p.address_begin_ ≤ address)
    (he : address + bits.Align free_size cfg.kSuperPageSize ≤ p.address_end_)
    (hused : UsedRun p.alloc_bitset_
      (bits.Align free_size cfg.kSuperPageSize / cfg.kSuperPageSize)
      ((address - p.address_begin_) / cfg.kSuperPageSize)) :
    ∃ p', p.FreeChunk cfg address free_size = .ok p' ∧
      (∀ i, (address - p.address_begin_) / cfg.kSuperPageSize ≤ i →
        i < (address - p.address_begin_) / cfg.kSuperPageSize +
          bits.Align free_size cfg.kSuperPageSize / cfg.kSuperPageSize →
        p'.alloc_bitset_[i]? = some false) ∧
      (∀ i, ¬ ((address - p.address_begin_) / cfg.kSuperPageSize ≤ i ∧
          i < (address - p.address_begin_) / cfg.kSuperPageSize +
            bits.Align free_size cfg.kSuperPageSize / cfg.kSuperPageSize) →
        p'.alloc_bitset_[i]? = p.alloc_bitset_[i]?) ∧
      p'.alloc_bitset_.length = p.alloc_bitset_.length ∧
      p'.total_bits_ = p.total_bits_ ∧ p'.address_begin_ = p.address_begin_ ∧
      p'.address_end_ = p.address_end_ := by
  obtain ⟨h1, h2⟩ :=
    AddressPoolManager.Pool.slot_of_address cfg hv p hwf address free_size ha hb he
  rw [cfg.align_div hv] at hused ⊢
  have hlen := hwf.1
  have hmax := hwf.2.1
  have hres := AddressPoolManager.Pool.FreeChunk_run cfg hv p hwf _ free_size h2 hused
  rw [← h1] at hres
  refine ⟨_, hres, ?_, ?_, fillRange_length _ _ _ _, rfl, rfl, rfl⟩
  · intro i hi1 hi2
    show (fillRange false _ _ p.alloc_bitset_)[i]? = some false
    rw [fillRange_getElem?, if_pos ⟨hi1, hi2, by omega⟩]
  · intro i hi
    show (fillRange false _ _ p.alloc_bitset_)[i]? = _
    rw [fillRange_getElem?, if_neg (fun hc => hi ⟨hc.1, hc.2.1⟩)]

/-- C9 at the pool `[used, used, used, free]`, freeing the one slot at `0x400000`. -/
theorem FreeChunk_frame_witness :
    ∃ p', AddressPoolManager.Pool.FreeChunk exampleConfig
        { examplePool with
          alloc_bitset_ := [true, true, true, false, false, false, false, false] }
        4194304 2097152 = .ok p' ∧
      (∀ i, (4194304 - 2097152) / exampleConfig.kSuperPageSize ≤ i →
        i < (4194304 - 2097152) / exampleConfig.kSuperPageSize +
          bits.Align 2097152 exampleConfig.kSuperPageSize / exampleConfig.kSuperPageSize →
        p'.alloc_bitset_[i]? = some false) ∧
      (∀ i, ¬ ((4194304 - 2097152) / exampleConfig.kSuperPageSize ≤ i ∧
          i < (4194304 - 2097152) / exampleConfig.kSuperPageSize +
            bits.Align 2097152 exampleConfig.kSuperPageSize / exampleConfig.kSuperPageSize) →
        p'.alloc_bitset_[i]? =
          [true, true, true, false, false, false, false, false][i]?) ∧
      p'.alloc_bitset_.length = 8 ∧
      p'.total_bits_ = 4 ∧ p'.address_begin_ = 2097152 ∧ p'.address_end_ = 10485760 :=
  FreeChunk_frame exampleConfig (by decide)
    { examplePool with
      alloc_bitset_ := [true, true, true, false, false, false, false, false] }
    (by decide) 4194304 2097152 (by decide) (by decide) (by decide)
    (by
      have hn : bits.Align 2097152 exampleConfig.kSuperPageSize /
          exampleConfig.kSuperPageSize = 1 := by decide
      have hb : (4194304 - examplePool.address_begin_) / exampleConfig.kSuperPageSize = 1 := by
        decide
      show UsedRun _ (bits.Align 2097152 exampleConfig.kSuperPageSize /
          exampleConfig.kSuperPageSize)
        ((4194304 - examplePool.address_begin_) / exampleConfig.kSuperPageSize)
      rw [hn, hb]
      intro i hi1 hi2
      have : i = 1 := by omega
      subst this
      rfl)

/-- A call of `FreeChunk` that violates a precondition is stopped by a fatal check. -/
theorem AddressPoolManager.Pool.FreeChunk_violation (cfg : Config) (hv : cfg.Valid)
    (p : AddressPoolManager.Pool) (hwf : p.WF cfg) (htail : p.TailClear)
    (address free_size : Nat) (haddr : address < kWord)
    (hviol : address &&& cfg.kSuperPageOffsetMask ≠ 0 ∨ address < p.address_begin_ ∨
      address + bits.Align free_size cfg.kSuperPageSize > p.address_end_) :
    ∃ f, p.FreeChunk cfg address free_size = .fatal f := by
  by_cases h1 : address &&& cfg.kSuperPageOffsetMask ≠ 0
  · refine ⟨.dcheck, ?_⟩
    simp only [AddressPoolManager.Pool.FreeChunk]
    rw [if_pos h1]
  by_cases h2 : p.address_begin_ ≤ address
  swap
  · refine ⟨.dcheck, ?_⟩
    simp only [AddressPoolManager.Pool.FreeChunk]
    rw [if_neg h1, if_pos h2]
  by_cases h3 : (address + bits.Align free_size cfg.kSuperPageSize) % kWord ≤ p.address_end_
  swap
  · refine ⟨.dcheck, ?_⟩
    simp only [AddressPoolManager.Pool.FreeChunk]
    rw [if_neg h1, if_neg (not_not_intro h2), if_pos h3]
  have h1' : address &&& cfg.kSuperPageOffsetMask = 0 := Decidable.not_not.mp h1
  have hgt : address + bits.Align free_size cfg.kSuperPageSize > p.address_end_ := by
    rcases hviol with h | h | h
    · exact absurd h h1
    · omega
    · exact h
  have hwrap : kWord ≤ address + bits.Align free_size cfg.kSuperPageSize := by
    by_contra hc
    rw [Nat.mod_eq_of_lt (Nat.lt_of_not_le hc)] at h3
    omega
  have hslot := hwf.address_eq_slot address h1' h2
  have hpos := cfg.kSuperPageSize_pos
  have hsize := cfg.need_bits_mul hv free_size
  obtain ⟨hlen, hmax, _, _, hend_lt, hend⟩ := hwf
  generalize hbdef : (address - p.address_begin_) / cfg.kSuperPageSize = b at hslot
  have hrun : p.total_bits_ < b + cfg.need_bits free_size := by
    have : p.total_bits_ * cfg.kSuperPageSize <
        (b + cfg.need_bits free_size) * cfg.kSuperPageSize := by
      rw [Nat.add_mul]; omega
    exact Nat.lt_of_mul_lt_mul_right this
  have hneed : 0 < cfg.need_bits free_size := by
    rcases Nat.eq_zero_or_pos (cfg.need_bits free_size) with h0 | h0
    · rw [h0, Nat.zero_mul] at hsize
      omega
    · exact h0
  have hj : p.alloc_bitset_[max b p.total_bits_]? ≠ some true := by
    by_cases hin : max b p.total_bits_ < p.alloc_bitset_.length
    · rw [htail _ hin (Nat.le_max_right _ _)]
      simp
    · rw [List.getElem?_eq_none (Nat.not_lt.mp hin)]
      simp
  obtain ⟨f, hf⟩ := AddressPoolManager.Pool.FreeChunk.clear_fatal (cfg.need_bits free_size) b
    p.alloc_bitset_ (max b p.total_bits_) (Nat.le_max_left _ _) (by omega) hj
  refine ⟨f, ?_⟩
  have hwf : p.WF cfg := ⟨hlen, hmax, by assumption, by assumption, hend_lt, hend⟩
  rw [hslot, AddressPoolManager.Pool.FreeChunk_unfold cfg hv p hwf b free_size
    (by rw [← hslot]; exact haddr) (by rw [← hslot]; exact h3), hf]

theorem AddressPoolManager.Alloc_eq (cfg : Config) (m : AddressPoolManager) (handle length : Nat)
    (hh : 0 < handle ∧ handle ≤ cfg.kNumPools) (p : AddressPoolManager.Pool)
    (hp : m.pools_[handle - 1]? = some (some p)) :
    m.Alloc cfg handle length =
      match p.FindChunk cfg length with
      | .ok (r, pool) => .ok (r, { pools_ := m.pools_.set (handle - 1) (some pool) })
      | .fatal f => .fatal f
      | .div => .div := by
  simp only [AddressPoolManager.Alloc, hh, hp, and_self, not_true, if_false]

theorem AddressPoolManager.Free_eq (cfg : Config) (m : AddressPoolManager)
    (handle ptr length : Nat) (hh : 0 < handle ∧ handle ≤ cfg.kNumPools)
    (p : AddressPoolManager.Pool) (hp : m.pools_[handle - 1]? = some (some p)) :
    m.Free cfg handle ptr length =
      match p.FreeChunk cfg ptr length with
      | .ok pool => .ok { pools_ := m.pools_.set (handle - 1) (some pool) }
      | .fatal f => .fatal f
      | .div => .div := by
  simp only [AddressPoolManager.Free, hh, hp, and_self, not_true, if_false]

/-- The loop of `Add` stops at the first empty entry at or after `i`. -/
theorem AddressPoolManager.Add.loop_first_empty (cfg : Config) (ptr length : Nat)
    (pools_ : List (Option AddressPoolManager.Pool)) (pool : AddressPoolManager.Pool)
    (hctor : AddressPoolManager.Pool.Pool cfg ptr length = .ok pool) (n i : Nat)
    (hn : i + n = pools_.length) (hempty : ∃ j, i ≤ j ∧ pools_[j]? = some none) :
    ∃ j, i ≤ j ∧ j < pools_.length ∧ pools_[j]? = some none ∧
      (∀ k, i ≤ k → k < j → ∃ q, pools_[k]? = some (some q)) ∧
      Add.loop cfg ptr length pools_ n i = .ok (j + 1, { pools_ := pools_.set j (some pool) }) := by
  induction n generalizing i with
  | zero =>
    obtain ⟨j, hj1, hj2⟩ := hempty
    have := (List.getElem?_eq_some_iff.mp hj2).1
    omega
  | succ n ih =>
    have hlt : i < pools_.length := by omega
    rw [Add.loop]
    rcases hcase : pools_[i]? with _ | (_ | q)
    · rw [List.getElem?_eq_none_iff] at hcase
      omega
    · refine ⟨i, Nat.le_refl _, hlt, hcase, fun k h1 h2 => by omega, ?_⟩
      simp only [hctor]
    · obtain ⟨j, hj1, hj2⟩ := hempty
      have hne : i ≠ j := by
        intro he
        subst he
        rw [hcase] at hj2
        cases hj2
      obtain ⟨j', h1, h2, h3, h4, h5⟩ := ih (i + 1) (by omega) ⟨j, by omega, hj2⟩
      refine ⟨j', by omega, h2, h3, ?_, h5⟩
      intro k hk1 hk2
      rcases Nat.eq_or_lt_of_le hk1 with he | hl
      · subst he
        exact ⟨q, hcase⟩
      · exact h4 k hl hk2

/-- A returned `Add` constructed its pool and stored it in the entry of its handle. -/
theorem AddressPoolManager.Add.loop_ok (cfg : Config) (ptr length : Nat)
    (pools_ : List (Option AddressPoolManager.Pool)) (n i : Nat) (hn : i + n = pools_.length)
    (handle : Nat) (m' : AddressPoolManager)
    (h : Add.loop cfg ptr length pools_ n i = .ok (handle, m')) :
    ∃ pool, AddressPoolManager.Pool.Pool cfg ptr length = .ok pool ∧ 0 < handle ∧
      handle ≤ pools_.length ∧ pools_[handle - 1]? = some none ∧
      m' = { pools_ := pools_.set (handle - 1) (some pool) } := by
  induction n generalizing i with
  | zero =>
    rw [Add.loop] at h
    cases h
  | succ n ih =>
    rw [Add.loop] at h
    rcases hcase : pools_[i]? with _ | (_ | q)
    · rw [hcase] at h
      cases h
    · rw [hcase] at h
      rcases hctor : AddressPoolManager.Pool.Pool cfg ptr length with pool | f | _
      · rw [hctor] at h
        injection h with h
        injection h with h1 h2
        subst h1
        exact ⟨pool, rfl, by omega, by omega, by simpa using hcase, by simpa using h2.symm⟩
      · rw [hctor] at h
        cases h
      · rw [hctor] at h
        cases h
    · rw [hcase] at h
      exact ih (i + 1) (by omega) h

theorem AddressPoolManager.Add_ok (cfg : Config) (m : AddressPoolManager) (ptr length : Nat)
    (handle : Nat) (m' : AddressPoolManager) (h : m.Add cfg ptr length = .ok (handle, m')) :
    ∃ pool, AddressPoolManager.Pool.Pool cfg ptr length = .ok pool ∧ 0 < handle ∧
      handle ≤ m.pools_.length ∧ m.pools_[handle - 1]? = some none ∧
      m' = { pools_ := m.pools_.set (handle - 1) (some pool) } := by
  unfold AddressPoolManager.Add at h
  split at h
  · cases h
  · split at h
    · cases h
    · exact AddressPoolManager.Add.loop_ok cfg ptr length m.pools_ _ 0 (by omega) handle m' h

/-! ## C5: the whole region, once -/

theorem AddressPoolManager.Pool.FindChunk_whole (cfg : Config) (hv : cfg.Valid)
    (p : AddressPoolManager.Pool) (hwf : p.WF cfg) (hfree : p.AllFree) (length : Nat)
    (hneed : cfg.need_bits length = p.total_bits_) :
    p.FindChunk cfg length =
      .ok (.chunk p.address_begin_,
        { p with alloc_bitset_ := fillRange true p.total_bits_ 0 p.alloc_bitset_ }) := by
  have hlen := hwf.1
  have hmax := hwf.2.1
  have hrun : FreeRun p.alloc_bitset_ p.total_bits_ (cfg.need_bits length) 0 := by
    rw [hneed]
    exact ⟨by omega, fun i _ hi => hfree i (by omega)⟩
  rcases FindChunk_spec cfg hv p hwf length with ⟨hno, _⟩ | ⟨b, _, h2, hres⟩
  · exact absurd hrun (hno 0)
  · have hb : b = 0 := by
      rcases Nat.eq_zero_or_pos b with h0 | h0
      · exact h0
      · exact absurd hrun (h2 0 h0)
    subst hb
    rw [hres, hneed, Nat.zero_mul, Nat.add_zero]

theorem AddressPoolManager.Pool.FindChunk_full (cfg : Config) (hv : cfg.Valid)
    (p : AddressPoolManager.Pool) (hwf : p.WF cfg) (hused : p.alloc_bitset_[0]? = some true)
    (length : Nat) (hneed : cfg.need_bits length = p.total_bits_) (hpos : 0 < p.total_bits_) :
    p.FindChunk cfg length = .ok (.no_chunk, p) := by
  rcases FindChunk_spec cfg hv p hwf length with ⟨_, hres⟩ | ⟨b, h1, _, _⟩
  · exact hres
  · have := h1.1
    have h0 := h1.2 0 (by omega) (by omega)
    rw [hused] at h0
    cases h0

theorem Config.need_bits_of_aligned (cfg : Config) (hv : cfg.Valid) (length : Nat)
    (hlength : length < kWord) (h : length % cfg.kSuperPageSize = 0) :
    cfg.need_bits length = length / cfg.kSuperPageSize := by
  rw [← cfg.align_div hv, cfg.align_of_aligned hv length hlength h]

/-- C5 (the whole region, exactly once): for `(ptr, length)` within the word range that
satisfy the preconditions of the Pool constructor (both multiples of `kSuperPageSize`,
`length / kSuperPageSize ≤ kMaxBits`, `ptr < ptr + length` in `uintptr_t`) and a manager
whose table has an empty entry, `Add(ptr, length)` returns a handle `h`, the first
`Alloc(h, length)` returns `ptr` through `return address`, and a second
`Alloc(h, length)` returns through `return 0` (value `0`) and changes nothing. -/
theorem Add_Alloc_whole_region (cfg : Config) (hv : cfg.Valid) (m : AddressPoolManager)
    (hm : m.WF cfg) (hempty : ∃ i : Nat, m.pools_[i]? = some none) (ptr length : Nat)
    (hptr : ptr < kWord) (hlength : length < kWord)
    (h1 : ptr &&& cfg.kSuperPageOffsetMask = 0) (h2 : length &&& cfg.kSuperPageOffsetMask = 0)
    (h3 : length / cfg.kSuperPageSize ≤ cfg.kMaxBits) (h4 : ptr < (ptr + length) % kWord) :
    ∃ h m1 m2, m.Add cfg ptr length = .ok (h, m1) ∧
      m1.Alloc cfg h length = .ok (.chunk ptr, m2) ∧
      m2.Alloc cfg h length = .ok (.no_chunk, m2) ∧ FindResult.no_chunk.value = 0 := by
  have hK : kWord = 2 ^ 64 := rfl
  have hnowrap : ptr + length < kWord := by
    by_contra hc
    have : (ptr + length) % kWord = ptr + length - kWord := by
      rw [Nat.mod_eq_sub_mod (by omega), Nat.mod_eq_of_lt (by omega)]
    omega
  have hctor : ∃ p0, AddressPoolManager.Pool.Pool cfg ptr length = .ok p0 := by
    simp only [AddressPoolManager.Pool.Pool, h1, h2, h3, h4, ne_eq, not_true, if_false]
    exact ⟨_, rfl⟩
  obtain ⟨p0, hctor⟩ := hctor
  obtain ⟨hwf0, hbits0, htot0, hbeg0, hend0, hlpos, hlmod⟩ :=
    AddressPoolManager.Pool.Pool_ok cfg ptr length hptr hlength p0 hctor
  have hsum : ((ptr + length) % kWord) &&& cfg.kSuperPageOffsetMask = 0 := by
    have h1' := h1
    rw [cfg.and_mask] at h1'
    rw [Nat.mod_eq_of_lt hnowrap, cfg.and_mask, Nat.add_mod, hlmod, h1']
    simp
  obtain ⟨i, hi⟩ := hempty
  obtain ⟨j, _, hj2, hj3, _, hloop⟩ := AddressPoolManager.Add.loop_first_empty cfg ptr length
    m.pools_ p0 hctor m.pools_.length 0 (by omega) ⟨i, Nat.zero_le _, hi⟩
  have hadd : m.Add cfg ptr length = .ok (j + 1, { pools_ := m.pools_.set j (some p0) }) := by
    simp only [AddressPoolManager.Add, h1, hsum, ne_eq, not_true, if_false, hloop]
  have hh : 0 < j + 1 ∧ j + 1 ≤ cfg.kNumPools := ⟨by omega, by rw [← hm]; omega⟩
  have hfree0 : p0.AllFree := by
    intro k hk
    rw [hbits0, bitset.resetAll] at hk ⊢
    rw [List.length_replicate] at hk
    simp [hk]
  have hneed : cfg.need_bits length = p0.total_bits_ := by
    rw [htot0, cfg.need_bits_of_aligned hv length hlength hlmod]
  have hpos := cfg.kSuperPageSize_pos
  have htpos : 0 < p0.total_bits_ := by
    rw [htot0]
    exact Nat.div_pos (Nat.le_of_dvd hlpos (Nat.dvd_of_mod_eq_zero hlmod)) hpos
  have hlen0 := hwf0.1
  have hmax0 := hwf0.2.1
  refine ⟨j + 1, _, AddressPoolManager.mk ((m.pools_.set j (some p0)).set j
    (some { p0 with alloc_bitset_ := fillRange true p0.total_bits_ 0 p0.alloc_bitset_ })),
    hadd, ?_, ?_, rfl⟩
  · rw [AddressPoolManager.Alloc_eq cfg _ (j + 1) length hh p0
        (by simp [List.getElem?_set_self hj2]),
      AddressPoolManager.Pool.FindChunk_whole cfg hv p0 hwf0 hfree0 length hneed, hbeg0]
    rfl
  · rw [AddressPoolManager.Alloc_eq cfg _ (j + 1) length hh
        { p0 with alloc_bitset_ := fillRange true p0.total_bits_ 0 p0.alloc_bitset_ }
        (by simp [List.getElem?_set_self hj2]),
      AddressPoolManager.Pool.FindChunk_full cfg hv _
        (hwf0.with_bitset _ (fillRange_length _ _ _ _))
        (by
          show (fillRange true p0.total_bits_ 0 p0.alloc_bitset_)[0]? = some true
          rw [fillRange_getElem?, if_pos ⟨Nat.le_refl _, by omega, by omega⟩])
        length hneed htpos]
    simp

/-- C5 at the empty two-entry table and the region `(0x200000, 4 * 0x200000)`. -/
theorem Add_Alloc_whole_region_witness :
    exampleManager.Add exampleConfig 2097152 8388608 =
        .ok (1, { pools_ := [some { examplePool with alloc_bitset_ := bitset.resetAll 8 },
          none] }) ∧
      ∃ h m1 m2, exampleManager.Add exampleConfig 2097152 8388608 = .ok (h, m1) ∧
        m1.Alloc exampleConfig h 8388608 = .ok (.chunk 2097152, m2) ∧
        m2.Alloc exampleConfig h 8388608 = .ok (.no_chunk, m2) ∧
        FindResult.no_chunk.value = 0 :=
  ⟨by decide,
    Add_Alloc_whole_region exampleConfig (by decide) exampleManager (by decide)
      ⟨0, by decide⟩ 2097152 8388608 (by decide) (by decide) (by decide) (by decide)
      (by decide) (by decide)⟩

/-! ## C4: allocations followed by their releases, in any order -/

theorem Outstanding.perm {cfg : Config} {address_begin total : Nat} {bitmap : List Bool}
    {L L' : List (Nat × Nat)} (h : Outstanding cfg address_begin total bitmap L)
    (hp : L.Perm L') : Outstanding cfg address_begin total bitmap L' := by
  obtain ⟨h1, h2, h3⟩ := h
  refine ⟨fun r hr => h1 r (hp.mem_iff.mpr hr), ?_, ?_⟩
  · refine (hp.pairwise_iff ?_).mp h2
    intro r s hrs i hi
    exact hrs i ⟨hi.2, hi.1⟩
  · intro i hi
    rw [h3 i hi]
    constructor
    · rintro ⟨r, hr, hc⟩
      exact ⟨r, hp.mem_iff.mp hr, hc⟩
    · rintro ⟨r, hr, hc⟩
      exact ⟨r, hp.mem_iff.mpr hr, hc⟩

theorem slotOf_address (cfg : Config) (address_begin b : Nat) :
    slotOf cfg address_begin (address_begin + b * cfg.kSuperPageSize) = b := by
  rw [slotOf, Nat.add_sub_cancel_left, Nat.mul_div_cancel _ cfg.kSuperPageSize_pos]

/-- A successful `FindChunk` adds its run to the outstanding allocations. -/
theorem Outstanding.alloc {cfg : Config} (hv : cfg.Valid) {p p' : AddressPoolManager.Pool}
    (hwf : p.WF cfg) {L : List (Nat × Nat)}
    (h : Outstanding cfg p.address_begin_ p.total_bits_ p.alloc_bitset_ L)
    {size a : Nat} (hfind : p.FindChunk cfg size = .ok (.chunk a, p')) :
    p'.WF cfg ∧ p'.total_bits_ = p.total_bits_ ∧ p'.address_begin_ = p.address_begin_ ∧
      p'.address_end_ = p.address_end_ ∧
      Outstanding cfg p.address_begin_ p.total_bits_ p'.alloc_bitset_ ((a, size) :: L) := by
  obtain ⟨b, hb1, _, hb3, hb4⟩ :=
    AddressPoolManager.Pool.FindChunk_chunk cfg hv p hwf size a p' hfind
  obtain ⟨h1, h2, h3⟩ := h
  have hlen := hwf.1
  have hmax := hwf.2.1
  subst hb3 hb4
  refine ⟨hwf.with_bitset _ (fillRange_length _ _ _ _), rfl, rfl, rfl, ?_, ?_, ?_⟩
  · intro r hr
    rcases List.mem_cons.mp hr with rfl | hr
    · simp only [slotOf_address]
      exact ⟨trivial, hb1.1⟩
    · exact h1 r hr
  · refine List.pairwise_cons.mpr ⟨?_, h2⟩
    intro s hs i hi
    have hc := hi.1
    simp only [Covers, slotOf_address] at hc
    have hfree := hb1.2 i hc.1 hc.2
    have hset := (h3 i (by have := hb1.1; omega)).mpr ⟨s, hs, hi.2⟩
    rw [hfree] at hset
    cases hset
  · intro i hi
    show (fillRange true _ b p.alloc_bitset_)[i]? = some true ↔ _
    rw [fillRange_length] at hi
    rw [fillRange_getElem?]
    by_cases hin : b ≤ i ∧ i < b + cfg.need_bits size ∧ i < p.alloc_bitset_.length
    · rw [if_pos hin]
      refine ⟨fun _ => ⟨_, List.mem_cons_self _ _, ?_⟩, fun _ => rfl⟩
      simp only [Covers, slotOf_address]
      exact ⟨hin.1, hin.2.1⟩
    · rw [if_neg hin, h3 i hi]
      constructor
      · rintro ⟨r, hr, hc⟩
        exact ⟨r, List.mem_cons_of_mem _ hr, hc⟩
      · rintro ⟨r, hr, hc⟩
        rcases List.mem_cons.mp hr with rfl | hr
        · simp only [Covers, slotOf_address] at hc
          exact absurd ⟨hc.1, hc.2, hi⟩ hin
        · exact ⟨r, hr, hc⟩

/-- Calling `FreeChunk` for an outstanding allocation returns and removes its run. -/
theorem Outstanding.free {cfg : Config} (hv : cfg.Valid) {p : AddressPoolManager.Pool}
    (hwf : p.WF cfg) {r : Nat × Nat} {L : List (Nat × Nat)}
    (h : Outstanding cfg p.address_begin_ p.total_bits_ p.alloc_bitset_ (r :: L)) :
    ∃ p', p.FreeChunk cfg r.1 r.2 = .ok p' ∧ p'.WF cfg ∧ p'.total_bits_ = p.total_bits_ ∧
      p'.address_begin_ = p.address_begin_ ∧ p'.address_end_ = p.address_end_ ∧
      Outstanding cfg p.address_begin_ p.total_bits_ p'.alloc_bitset_ L := by
  obtain ⟨h1, h2, h3⟩ := h
  obtain ⟨hr1, hr2⟩ := h1 r (List.mem_cons_self _ _)
  obtain ⟨h2a, h2b⟩ := List.pairwise_cons.mp h2
  have hlen := hwf.1
  have hmax := hwf.2.1
  have hused : UsedRun p.alloc_bitset_ (cfg.need_bits r.2) (slotOf cfg p.address_begin_ r.1) := by
    intro j hj1 hj2
    exact (h3 j (by omega)).mpr ⟨r, List.mem_cons_self _ _, hj1, hj2⟩
  have hres := AddressPoolManager.Pool.FreeChunk_run cfg hv p hwf _ r.2 hr2 hused
  rw [← hr1] at hres
  refine ⟨_, hres, hwf.with_bitset _ (fillRange_length _ _ _ _), rfl, rfl, rfl,
    fun s hs => h1 s (List.mem_cons_of_mem _ hs), h2b, ?_⟩
  intro i hi
  show (fillRange false _ _ p.alloc_bitset_)[i]? = some true ↔ _
  rw [fillRange_length] at hi
  rw [fillRange_getElem?]
  by_cases hin : slotOf cfg p.address_begin_ r.1 ≤ i ∧
      i < slotOf cfg p.address_begin_ r.1 + cfg.need_bits r.2 ∧ i < p.alloc_bitset_.length
  · rw [if_pos hin]
    constructor
    · intro hc
      cases hc
    · rintro ⟨s, hs, hc⟩
      exact absurd ⟨⟨hin.1, hin.2.1⟩, hc⟩ (h2a s hs i)
  · rw [if_neg hin, h3 i hi]
    constructor
    · rintro ⟨s, hs, hc⟩
      rcases List.mem_cons.mp hs with rfl | hs
      · exact absurd ⟨hc.1, hc.2, hi⟩ hin
      · exact ⟨s, hs, hc⟩
    · rintro ⟨s, hs, hc⟩
      exact ⟨s, List.mem_cons_of_mem _ hs, hc⟩

theorem AddressPoolManager.AllocSeq_spec (cfg : Config) (hv : cfg.Valid) (handle : Nat)
    (hh : 0 < handle ∧ handle ≤ cfg.kNumPools) (sizes : List Nat) :
    ∀ (m : AddressPoolManager) (p : AddressPoolManager.Pool) (L : List (Nat × Nat))
      (addrs : List Nat) (m2 : AddressPoolManager),
      m.pools_[handle - 1]? = some (some p) → p.WF cfg →
      Outstanding cfg p.address_begin_ p.total_bits_ p.alloc_bitset_ L →
      m.AllocSeq cfg handle sizes = .ok (addrs.map .chunk, m2) →
      ∃ p2, m2.pools_[handle - 1]? = some (some p2) ∧ p2.WF cfg ∧
        p2.total_bits_ = p.total_bits_ ∧ p2.address_begin_ = p.address_begin_ ∧
        p2.address_end_ = p.address_end_ ∧
        Outstanding cfg p.address_begin_ p.total_bits_ p2.alloc_bitset_
          (addrs.zip sizes ++ L) := by
  induction sizes with
  | nil =>
    intro m p L addrs m2 hp hwf hout h
    rw [AddressPoolManager.AllocSeq] at h
    injection h with h
    injection h with h1 h2
    subst h2
    have : addrs = [] := by
      cases addrs with
      | nil => rfl
      | cons a t => cases h1
    subst this
    exact ⟨p, hp, hwf, rfl, rfl, rfl, hout⟩
  | cons size rest ih =>
    intro m p L addrs m2 hp hwf hout h
    rw [AddressPoolManager.AllocSeq, AddressPoolManager.Alloc_eq cfg m handle size hh p hp] at h
    rcases hfind : p.FindChunk cfg size with ⟨r, p'⟩ | f | _
    · rw [hfind] at h
      simp only at h
      rcases hrest : AddressPoolManager.AllocSeq cfg handle
          { pools_ := m.pools_.set (handle - 1) (some p') } rest with ⟨rs, m''⟩ | f | _
      · rw [hrest] at h
        simp only at h
        injection h with h
        injection h with h1 h2
        subst h2
        cases addrs with
        | nil => cases h1
        | cons a addrs' =>
          rw [List.map_cons] at h1
          injection h1 with h1a h1b
          subst h1a h1b
          obtain ⟨hwf', ht, hb, he, hout'⟩ := hout.alloc hv hwf hfind
          have hlt : handle - 1 < m.pools_.length := (List.getElem?_eq_some_iff.mp hp).1
          have hp' : (AddressPoolManager.mk (m.pools_.set (handle - 1) (some p'))).pools_[
              handle - 1]? = some (some p') := by
            simp [List.getElem?_set_self hlt]
          rw [← ht, ← hb] at hout'
          obtain ⟨p2, hp2, hwf2, ht2, hb2, he2, hout2⟩ :=
            ih _ p' ((a, size) :: L) addrs' m'' hp' hwf' hout' hrest
          rw [ht, hb] at hout2
          refine ⟨p2, hp2, hwf2, ht2.trans ht, hb2.trans hb, he2.trans he, ?_⟩
          rw [List.zip_cons_cons, List.cons_append]
          exact hout2.perm List.perm_middle
      · rw [hrest] at h
        cases h
      · rw [hrest] at h
        cases h
    · rw [hfind] at h
      cases h
    · rw [hfind] at h
      cases h

theorem AddressPoolManager.FreeSeq_spec (cfg : Config) (hv : cfg.Valid) (handle : Nat)
    (hh : 0 < handle ∧ handle ≤ cfg.kNumPools) (frees : List (Nat × Nat)) :
    ∀ (m : AddressPoolManager) (p : AddressPoolManager.Pool),
      m.pools_[handle - 1]? = some (some p) → p.WF cfg →
      Outstanding cfg p.address_begin_ p.total_bits_ p.alloc_bitset_ frees →
      ∃ m3 p3, m.FreeSeq cfg handle frees = .ok m3 ∧
        m3.pools_[handle - 1]? = some (some p3) ∧ p3.WF cfg ∧
        p3.total_bits_ = p.total_bits_ ∧ p3.address_begin_ = p.address_begin_ ∧
        p3.address_end_ = p.address_end_ ∧
        Outstanding cfg p.address_begin_ p.total_bits_ p3.alloc_bitset_ [] := by
  induction frees with
  | nil =>
    intro m p hp hwf hout
    exact ⟨m, p, rfl, hp, hwf, rfl, rfl, rfl, hout⟩
  | cons r rest ih =>
    intro m p hp hwf hout
    obtain ⟨p', hfree, hwf', ht, hb, he, hout'⟩ := hout.free hv hwf
    have hlt : handle - 1 < m.pools_.length := (List.getElem?_eq_some_iff.mp hp).1
    have hp' : (AddressPoolManager.mk (m.pools_.set (handle - 1) (some p'))).pools_[
        handle - 1]? = some (some p') := by
      simp [List.getElem?_set_self hlt]
    rw [← ht, ← hb] at hout'
    obtain ⟨m3, p3, hseq, hp3, hwf3, ht3, hb3, he3, hout3⟩ := ih _ p' hp' hwf' hout'
    rw [ht, hb] at hout3
    refine ⟨m3, p3, ?_, hp3, hwf3, ht3.trans ht, hb3.trans hb, he3.trans he, hout3⟩
    obtain ⟨ptr, length⟩ := r
    rw [AddressPoolManager.FreeSeq, AddressPoolManager.Free_eq cfg m handle ptr length hh p hp,
      hfree]
    exact hseq

/-- C4 (allocate, then release in any order): after `Add(ptr, length)` returned handle
`h` (a freshly registered pool, all slots free), for every list of `Alloc(h, size)` calls
that all returned through `return address`, followed by `Free(h, address, size)` for
exactly these `(address, size)` pairs in any permutation of their order, every `Free`
returns (no fatal check), the bitmap of the pool is all free at the end, and
`Alloc(h, length)` then returns `ptr` through `return address` again. -/
theorem Alloc_Free_any_order (cfg : Config) (hv : cfg.Valid) (m : AddressPoolManager)
    (hm : m.WF cfg) (ptr length : Nat) (hptr : ptr < kWord) (hlength : length < kWord)
    (h : Nat) (m1 : AddressPoolManager) (hadd : m.Add cfg ptr length = .ok (h, m1))
    (sizes addrs : List Nat) (m2 : AddressPoolManager)
    (halloc : m1.AllocSeq cfg h sizes = .ok (addrs.map .chunk, m2))
    (frees : List (Nat × Nat)) (hperm : frees.Perm (addrs.zip sizes)) :
    ∃ m3, m2.FreeSeq cfg h frees = .ok m3 ∧
      (∃ p, m3.pools_[h - 1]? = some (some p) ∧ p.AllFree) ∧
      ∃ m4, m3.Alloc cfg h length = .ok (.chunk ptr, m4) := by
  obtain ⟨p0, hctor, hh1, hh2, _, hm1⟩ := AddressPoolManager.Add_ok cfg m ptr length h m1 hadd
  obtain ⟨hwf0, hbits0, htot0, hbeg0, hend0, hlpos, hlmod⟩ :=
    AddressPoolManager.Pool.Pool_ok cfg ptr length hptr hlength p0 hctor
  have hh : 0 < h ∧ h ≤ cfg.kNumPools := ⟨hh1, by rw [← hm]; exact hh2⟩
  have hp0 : m1.pools_[h - 1]? = some (some p0) := by
    rw [hm1]
    simp [List.getElem?_set_self (show h - 1 < m.pools_.length by omega)]
  have hout0 : Outstanding cfg p0.address_begin_ p0.total_bits_ p0.alloc_bitset_ [] := by
    refine ⟨fun r hr => (by cases hr), List.Pairwise.nil, ?_⟩
    intro i hi
    rw [hbits0, bitset.resetAll] at hi ⊢
    rw [List.length_replicate] at hi
    simp [hi]
  obtain ⟨p2, hp2, hwf2, ht2, hb2, he2, hout2⟩ := AddressPoolManager.AllocSeq_spec cfg hv h hh
    sizes m1 p0 [] addrs m2 hp0 hwf0 hout0 halloc
  rw [List.append_nil, ← ht2, ← hb2] at hout2
  obtain ⟨m3, p3, hseq, hp3, hwf3, ht3, hb3, he3, hout3⟩ :=
    AddressPoolManager.FreeSeq_spec cfg hv h hh frees m2 p2 hp2 hwf2 (hout2.perm hperm.symm)
  have hfree3 : p3.AllFree := by
    intro i hi
    rcases bitset.getElem?_of_lt hi with hc | hc
    · obtain ⟨r, hr, _⟩ := (hout3.2.2 i hi).mp hc
      cases hr
    · exact hc
  have hneed : cfg.need_bits length = p3.total_bits_ := by
    rw [ht3, ht2, htot0, cfg.need_bits_of_aligned hv length hlength hlmod]
  have hfinal := AddressPoolManager.Alloc_eq cfg m3 h length hh p3 hp3
  rw [AddressPoolManager.Pool.FindChunk_whole cfg hv p3 hwf3 hfree3 length hneed, hb3, hb2,
    hbeg0] at hfinal
  exact ⟨m3, hseq, ⟨p3, hp3, hfree3⟩, _, hfinal⟩

/-- C4 on the empty two-entry table: register `(0x200000, 4 * 0x200000)`, allocate one
slot and then two slots, release the two slots first and the single slot after. -/
theorem Alloc_Free_any_order_witness :
    exampleManager.Add exampleConfig 2097152 8388608 =
        .ok (1, { pools_ := [some { examplePool with alloc_bitset_ := bitset.resetAll 8 },
          none] }) ∧
      AddressPoolManager.AllocSeq exampleConfig 1
          { pools_ := [some { examplePool with alloc_bitset_ := bitset.resetAll 8 }, none] }
          [2097152, 4194304] =
        .ok ([2097152, 4194304].map .chunk,
          { pools_ := [some { examplePool with
              alloc_bitset_ := [true, true, true, false, false, false, false, false] },
            none] }) ∧
      ∃ m3, AddressPoolManager.FreeSeq exampleConfig 1
          { pools_ := [some { examplePool with
              alloc_bitset_ := [true, true, true, false, false, false, false, false] },
            none] }
          [(4194304, 4194304), (2097152, 2097152)] = .ok m3 ∧
        (∃ p, m3.pools_[1 - 1]? = some (some p) ∧ p.AllFree) ∧
        ∃ m4, m3.Alloc exampleConfig 1 8388608 = .ok (.chunk 2097152, m4) :=
  ⟨by decide, by decide,
    Alloc_Free_any_order exampleConfig (by decide) exampleManager (by decide) 2097152 8388608
      (by decide) (by decide) 1
      { pools_ := [some { examplePool with alloc_bitset_ := bitset.resetAll 8 }, none] }
      (by decide) [2097152, 4194304] [2097152, 4194304]
      { pools_ := [some { examplePool with
          alloc_bitset_ := [true, true, true, false, false, false, false, false] }, none] }
      (by decide) [(4194304, 4194304), (2097152, 2097152)]
      (List.Perm.swap _ _ _)⟩

/-! ## C11: the Pool constructor -/

theorem lt_add_mod_iff (ptr length : Nat) (hptr : ptr < kWord) (hlength : length < kWord) :
    ptr < (ptr + length) % kWord ↔ ptr + length < kWord ∧ 0 < length := by
  have hK : kWord = 2 ^ 64 := rfl
  constructor
  · intro h
    have hnowrap : ptr + length < kWord := by
      by_contra hc
      have : (ptr + length) % kWord = ptr + length - kWord := by
        rw [Nat.mod_eq_sub_mod (by omega), Nat.mod_eq_of_lt (by omega)]
      omega
    rw [Nat.mod_eq_of_lt hnowrap] at h
    exact ⟨hnowrap, by omega⟩
  · rintro ⟨h1, h2⟩
    rw [Nat.mod_eq_of_lt h1]
    omega

/-- C11 (Pool construction): for words `ptr` and `length`, `Pool::Pool(ptr, length)`
passes all its checks exactly when `ptr` and `length` are multiples of `kSuperPageSize`,
`length / kSuperPageSize ≤ kMaxBits` and `ptr < ptr + length` in `uintptr_t` arithmetic
(which says that the sum does not wrap and `length > 0`); otherwise a fatal check stops
it; and when it completes, `total_bits_ = length / kSuperPageSize`,
`address_begin_ = ptr`, `address_end_ = ptr + length` and every bit of the `kMaxBits`
bits is free. -/
theorem Pool_constructor_iff (cfg : Config) (ptr length : Nat) (hptr : ptr < kWord)
    (hlength : length < kWord) :
    ((∃ p, AddressPoolManager.Pool.Pool cfg ptr length = .ok p) ↔
        (ptr % cfg.kSuperPageSize = 0 ∧ length % cfg.kSuperPageSize = 0 ∧
          length / cfg.kSuperPageSize ≤ cfg.kMaxBits ∧ ptr < (ptr + length) % kWord)) ∧
      ((¬ ∃ p, AddressPoolManager.Pool.Pool cfg ptr length = .ok p) →
        ∃ f, AddressPoolManager.Pool.Pool cfg ptr length = .fatal f) ∧
      (ptr < (ptr + length) % kWord ↔ ptr + length < kWord ∧ 0 < length) ∧
      ∀ p, AddressPoolManager.Pool.Pool cfg ptr length = .ok p →
        p.total_bits_ = length / cfg.kSuperPageSize ∧ p.address_begin_ = ptr ∧
          p.address_end_ = ptr + length ∧ p.alloc_bitset_.length = cfg.kMaxBits ∧
          p.AllFree := by
  refine ⟨?_, ?_, lt_add_mod_iff ptr length hptr hlength, ?_⟩
  · constructor
    · rintro ⟨p, hp⟩
      unfold AddressPoolManager.Pool.Pool at hp
      simp only [ne_eq, cfg.and_mask] at hp
      split at hp
      · cases hp
      · rename_i h1
        split at hp
        · cases hp
        · rename_i h2
          split at hp
          · cases hp
          · rename_i h3
            split at hp
            · cases hp
            · rename_i h4
              exact ⟨Decidable.not_not.mp h2, Decidable.not_not.mp h3,
                Decidable.not_not.mp h1, Decidable.not_not.mp h4⟩
    · rintro ⟨h1, h2, h3, h4⟩
      simp only [AddressPoolManager.Pool.Pool, cfg.and_mask, h1, h2, h3, h4, ne_eq, not_true,
        if_false]
      exact ⟨_, rfl⟩
  · intro hno
    unfold AddressPoolManager.Pool.Pool at hno ⊢
    simp only [ne_eq] at hno ⊢
    split
    · exact ⟨_, rfl⟩
    · split
      · exact ⟨_, rfl⟩
      · split
        · exact ⟨_, rfl⟩
        · split
          · exact ⟨_, rfl⟩
          · rename_i h1 h2 h3 h4
            exfalso
            apply hno
            rw [if_neg h1, if_neg h2, if_neg h3, if_neg h4]
            exact ⟨_, rfl⟩
  · intro p hp
    obtain ⟨hwf, hbits, htot, hbeg, hend, _, _⟩ :=
      AddressPoolManager.Pool.Pool_ok cfg ptr length hptr hlength p hp
    refine ⟨htot, hbeg, hend, hwf.1, ?_⟩
    intro k hk
    rw [hbits, bitset.resetAll] at hk ⊢
    rw [List.length_replicate] at hk
    simp [hk]

/-- C11 at `(0x200000, 4 * 0x200000)`, which the constructor accepts, with the pool it
builds. -/
theorem Pool_constructor_iff_witness :
    AddressPoolManager.Pool.Pool exampleConfig 2097152 8388608 =
        .ok { examplePool with alloc_bitset_ := bitset.resetAll 8 } ∧
      AddressPoolManager.Pool.Pool exampleConfig 2097152 8388609 = .fatal .check ∧
      AddressPoolManager.Pool.Pool exampleConfig 2097152 0 = .fatal .dcheck ∧
      AddressPoolManager.Pool.Pool exampleConfig 2097152 (9 * 2097152) = .fatal .check ∧
      ((∃ p, AddressPoolManager.Pool.Pool exampleConfig 2097152 8388608 = .ok p) ↔
        (2097152 % exampleConfig.kSuperPageSize = 0 ∧
          8388608 % exampleConfig.kSuperPageSize = 0 ∧
          8388608 / exampleConfig.kSuperPageSize ≤ exampleConfig.kMaxBits ∧
          2097152 < (2097152 + 8388608) % kWord)) :=
  ⟨by decide, by decide, by decide, by decide,
    (Pool_constructor_iff exampleConfig 2097152 8388608 (by decide) (by decide)).1⟩

/-! ## C12 - C15: the table of pools -/

/-- The alignment checks of `Add` pass for arguments the Pool constructor accepts. -/
theorem AddressPoolManager.Add_dchecks (cfg : Config) (ptr length : Nat) (hptr : ptr < kWord)
    (hlength : length < kWord) (pool : AddressPoolManager.Pool)
    (hctor : AddressPoolManager.Pool.Pool cfg ptr length = .ok pool) :
    ptr &&& cfg.kSuperPageOffsetMask = 0 ∧
      ((ptr + length) % kWord) &&& cfg.kSuperPageOffsetMask = 0 := by
  obtain ⟨hwf, _, _, hbeg, hend, _, hlmod⟩ :=
    AddressPoolManager.Pool.Pool_ok cfg ptr length hptr hlength pool hctor
  have h1 := hwf.2.2.1
  rw [hbeg] at h1
  have hlt := hwf.2.2.2.2.1
  rw [hend] at hlt
  refine ⟨h1, ?_⟩
  rw [cfg.and_mask] at h1
  rw [Nat.mod_eq_of_lt hlt, cfg.and_mask, Nat.add_mod, hlmod, h1]
  simp

/-- With an empty entry and arguments the Pool constructor accepts, `Add` stores the new
pool in the first empty entry `j` and returns `j + 1`. -/
theorem AddressPoolManager.Add_first (cfg : Config) (m : AddressPoolManager)
    (ptr length : Nat) (hptr : ptr < kWord) (hlength : length < kWord)
    (pool : AddressPoolManager.Pool)
    (hctor : AddressPoolManager.Pool.Pool cfg ptr length = .ok pool)
    (hempty : ∃ i : Nat, m.pools_[i]? = some none) :
    ∃ j, j < m.pools_.length ∧ m.pools_[j]? = some none ∧
      (∀ k, k < j → ∃ q, m.pools_[k]? = some (some q)) ∧
      m.Add cfg ptr length = .ok (j + 1, { pools_ := m.pools_.set j (some pool) }) := by
  obtain ⟨h1, h2⟩ := AddressPoolManager.Add_dchecks cfg ptr length hptr hlength pool hctor
  obtain ⟨i, hi⟩ := hempty
  obtain ⟨j, _, hj2, hj3, hj4, hloop⟩ := AddressPoolManager.Add.loop_first_empty cfg ptr length
    m.pools_ pool hctor m.pools_.length 0 (by omega) ⟨i, Nat.zero_le _, hi⟩
  refine ⟨j, hj2, hj3, fun k hk => hj4 k (Nat.zero_le _) hk, ?_⟩
  simp only [AddressPoolManager.Add, h1, h2, ne_eq, not_true, if_false, hloop]

/-- The loop of `Add` over entries that all hold a pool ends in `NOTREACHED()`. -/
theorem AddressPoolManager.Add.loop_full (cfg : Config) (ptr length : Nat)
    (pools_ : List (Option AddressPoolManager.Pool)) (n i : Nat) (hn : i + n = pools_.length)
    (hfull : ∀ k, i ≤ k → k < pools_.length → ∃ q, pools_[k]? = some (some q)) :
    Add.loop cfg ptr length pools_ n i = .fatal .notreached := by
  induction n generalizing i with
  | zero => rfl
  | succ n ih =>
    obtain ⟨q, hq⟩ := hfull i (Nat.le_refl _) (by omega)
    rw [Add.loop, hq]
    exact ih (i + 1) (by omega) (fun k hk1 hk2 => hfull k (by omega) hk2)

theorem AddressPoolManager.Add_full (cfg : Config) (m : AddressPoolManager) (hfull : m.Full)
    (ptr length : Nat) :
    (∃ f, m.Add cfg ptr length = .fatal f) ∧
      (ptr &&& cfg.kSuperPageOffsetMask = 0 →
        ((ptr + length) % kWord) &&& cfg.kSuperPageOffsetMask = 0 →
        m.Add cfg ptr length = .fatal .notreached) := by
  have hloop := AddressPoolManager.Add.loop_full cfg ptr length m.pools_ m.pools_.length 0
    (by omega) (fun k _ hk => hfull k hk)
  constructor
  · unfold AddressPoolManager.Add
    split
    · exact ⟨_, rfl⟩
    · split
      · exact ⟨_, rfl⟩
      · exact ⟨_, hloop⟩
  · intro h1 h2
    simp only [AddressPoolManager.Add, h1, h2, ne_eq, not_true, if_false, hloop]

theorem AddressPoolManager.Pool.Pool_allFree (cfg : Config) (ptr length : Nat)
    (hptr : ptr < kWord) (hlength : length < kWord) (p : AddressPoolManager.Pool)
    (h : AddressPoolManager.Pool.Pool cfg ptr length = .ok p) : p.AllFree := by
  obtain ⟨_, hbits, _⟩ := AddressPoolManager.Pool.Pool_ok cfg ptr length hptr hlength p h
  intro k hk
  rw [hbits, bitset.resetAll] at hk ⊢
  rw [List.length_replicate] at hk
  simp [hk]

/-- C12 (Add takes the first empty entry): for every table with an empty entry and
every `(ptr, length)` the Pool constructor accepts, `Add(ptr, length)` returns `i + 1`
for the smallest index `i` whose entry is empty, that entry then holds the freshly
constructed pool (all bits free, `address_begin_ = ptr`,
`total_bits_ = length / kSuperPageSize`), and every other entry, with the pool it
holds, is unchanged. -/
theorem Add_first_empty_slot (cfg : Config) (m : AddressPoolManager) (ptr length : Nat)
    (hptr : ptr < kWord) (hlength : length < kWord) (pool : AddressPoolManager.Pool)
    (hctor : AddressPoolManager.Pool.Pool cfg ptr length = .ok pool)
    (hempty : ∃ i : Nat, m.pools_[i]? = some none) :
    ∃ i m', m.Add cfg ptr length = .ok (i + 1, m') ∧
      m.pools_[i]? = some none ∧
      (∀ k, k < i → ∃ q, m.pools_[k]? = some (some q)) ∧
      m'.pools_[i]? = some (some pool) ∧
      pool.AllFree ∧ pool.address_begin_ = ptr ∧
      pool.total_bits_ = length / cfg.kSuperPageSize ∧
      m'.pools_.length = m.pools_.length ∧
      ∀ k, k ≠ i → m'.pools_[k]? = m.pools_[k]? := by
  obtain ⟨j, hj1, hj2, hj3, hadd⟩ :=
    AddressPoolManager.Add_first cfg m ptr length hptr hlength pool hctor hempty
  obtain ⟨_, _, htot, hbeg, _⟩ :=
    AddressPoolManager.Pool.Pool_ok cfg ptr length hptr hlength pool hctor
  have hfree := AddressPoolManager.Pool.Pool_allFree cfg ptr length hptr hlength pool hctor
  refine ⟨j, _, hadd, hj2, hj3, ?_, hfree, hbeg, htot, ?_, ?_⟩
  · simp [List.getElem?_set_self hj1]
  · simp
  · intro k hk
    simp [List.getElem?_set_ne (Ne.symm hk)]

/-- C12 at the table `[pool, empty]`: the new pool goes to entry 1 and the handle is 2. -/
theorem Add_first_empty_slot_witness :
    AddressPoolManager.Add exampleConfig { pools_ := [some examplePool, none] }
        16777216 4194304 =
      .ok (2, { pools_ := [some examplePool,
        some examplePool2] }) ∧
    ∃ i m', AddressPoolManager.Add exampleConfig { pools_ := [some examplePool, none] }
        16777216 4194304 = .ok (i + 1, m') ∧
      [some examplePool, none][i]? = some none ∧
      (∀ k, k < i → ∃ q, [some examplePool, none][k]? = some (some q)) ∧
      m'.pools_[i]? = some (some examplePool2) ∧
      AddressPoolManager.Pool.AllFree examplePool2 ∧
      examplePool2.address_begin_ = 16777216 ∧
      examplePool2.total_bits_ = 4194304 / exampleConfig.kSuperPageSize ∧
      m'.pools_.length = 2 ∧
      ∀ k, k ≠ i → m'.pools_[k]? = [some examplePool, none][k]? :=
  ⟨by decide,
    Add_first_empty_slot exampleConfig { pools_ := [some examplePool, none] } 16777216 4194304
      (by decide) (by decide)
      examplePool2
      (by decide) ⟨1, by decide⟩⟩

theorem AddressPoolManager.Remove_eq (cfg : Config) (m : AddressPoolManager) (hm : m.WF cfg)
    (handle : Nat) (hh : 0 < handle ∧ handle ≤ cfg.kNumPools) :
    m.Remove cfg handle = .ok { pools_ := m.pools_.set (handle - 1) none } := by
  have hlt : handle - 1 < m.pools_.length := by
    rw [hm]
    omega
  simp only [AddressPoolManager.Remove, hh, and_self, not_true, if_false,
    List.getElem?_eq_getElem hlt]

/-- The first empty entry is determined by the entries below it. -/
theorem first_empty_unique {pools_ : List (Option AddressPoolManager.Pool)} {i j : Nat}
    (hi : pools_[i]? = some none) (hi' : ∀ k, k < i → ∃ q, pools_[k]? = some (some q))
    (hj : pools_[j]? = some none) (hj' : ∀ k, k < j → ∃ q, pools_[k]? = some (some q)) :
    i = j := by
  rcases Nat.lt_trichotomy i j with h | h | h
  · obtain ⟨q, hq⟩ := hj' i h
    rw [hi] at hq
    cases hq
  · exact h
  · obtain ⟨q, hq⟩ := hi' j h
    rw [hj] at hq
    cases hq

/-- Registering regions one after the other into a table whose first `k` entries are
occupied and whose other entries are empty fills the entries in order. -/
theorem AddressPoolManager.AddSeq_prefix (cfg : Config) (regions : List (Nat × Nat)) :
    ∀ (m : AddressPoolManager) (k : Nat), m.pools_.length = cfg.kNumPools →
      (∀ i, i < k → ∃ q, m.pools_[i]? = some (some q)) →
      (∀ i, k ≤ i → i < cfg.kNumPools → m.pools_[i]? = some none) →
      k + regions.length ≤ cfg.kNumPools →
      (∀ r ∈ regions, r.1 < kWord ∧ r.2 < kWord ∧
        ∃ p, AddressPoolManager.Pool.Pool cfg r.1 r.2 = .ok p) →
      ∃ m', AddressPoolManager.AddSeq cfg m regions =
          .ok (List.range' (k + 1) regions.length, m') ∧
        m'.pools_.length = cfg.kNumPools ∧
        (∀ i, i < k + regions.length → ∃ q, m'.pools_[i]? = some (some q)) ∧
        (∀ i, k + regions.length ≤ i → i < cfg.kNumPools → m'.pools_[i]? = some none) := by
  induction regions with
  | nil =>
    intro m k hlen hocc hemp _ _
    exact ⟨m, rfl, hlen, hocc, hemp⟩
  | cons r rest ih =>
    intro m k hlen hocc hemp hk hvalid
    obtain ⟨ptr, length⟩ := r
    obtain ⟨hptr, hlength, pool, hctor⟩ := hvalid (ptr, length) (List.mem_cons_self _ _)
    rw [List.length_cons] at hk
    have hke := hemp k (Nat.le_refl _) (by omega)
    obtain ⟨j, hj1, hj2, hj3, hadd⟩ :=
      AddressPoolManager.Add_first cfg m ptr length hptr hlength pool hctor ⟨k, hke⟩
    have hjk : j = k := first_empty_unique hj2 hj3 hke hocc
    subst hjk
    obtain ⟨m', hseq, hlen', hocc', hemp'⟩ := ih { pools_ := m.pools_.set j (some pool) } (j + 1)
      (by simp [hlen])
      (by
        intro i hi
        rcases Nat.eq_or_lt_of_le (Nat.le_of_lt_succ hi) with he | hl
        · subst he
          exact ⟨pool, by simp [List.getElem?_set_self hj1]⟩
        · obtain ⟨q, hq⟩ := hocc i hl
          exact ⟨q, by simp [List.getElem?_set_ne (Nat.ne_of_gt hl), hq]⟩)
      (by
        intro i hi1 hi2
        simp only
        rw [List.getElem?_set_ne (by omega)]
        exact hemp i (by omega) hi2)
      (by omega)
      (fun r hr => hvalid r (List.mem_cons_of_mem _ hr))
    refine ⟨m', ?_, hlen', ?_, ?_⟩
    · rw [AddressPoolManager.AddSeq, hadd]
      simp only [hseq, List.length_cons, List.range'_succ]
    · intro i hi
      exact hocc' i (by rw [List.length_cons] at hi; omega)
    · intro i hi1 hi2
      exact hemp' i (by rw [List.length_cons] at hi1; omega) hi2

theorem AddressPoolManager.init_getElem? (cfg : Config) (i : Nat) (hi : i < cfg.kNumPools) :
    (AddressPoolManager.init cfg).pools_[i]? = some none := by
  simp [AddressPoolManager.init, hi]

/-- C13 (table capacity): when every entry of the table holds a pool, `Add(ptr, length)`
is stopped by a fatal check for any arguments (by `NOTREACHED()` when the arguments pass
the alignment checks of `Add`) and returns no handle; and registering `kNumPools`
regions the Pool constructor accepts into the initial table returns the handles
`1 .. kNumPools` in order and leaves a full table, on which one more `Add` is fatal. -/
theorem Add_table_full (cfg : Config) :
    (∀ m : AddressPoolManager, m.Full → ∀ ptr length,
      (∃ f, m.Add cfg ptr length = .fatal f) ∧
        (ptr &&& cfg.kSuperPageOffsetMask = 0 →
          ((ptr + length) % kWord) &&& cfg.kSuperPageOffsetMask = 0 →
          m.Add cfg ptr length = .fatal .notreached)) ∧
      ∀ regions : List (Nat × Nat), regions.length = cfg.kNumPools →
        (∀ r ∈ regions, r.1 < kWord ∧ r.2 < kWord ∧
          ∃ p, AddressPoolManager.Pool.Pool cfg r.1 r.2 = .ok p) →
        ∃ m', AddressPoolManager.AddSeq cfg (AddressPoolManager.init cfg) regions =
            .ok (List.range' 1 cfg.kNumPools, m') ∧
          m'.Full ∧ ∀ ptr length, ∃ f, m'.Add cfg ptr length = .fatal f := by
  refine ⟨fun m hfull ptr length => AddressPoolManager.Add_full cfg m hfull ptr length, ?_⟩
  intro regions hlen hvalid
  obtain ⟨m', hseq, hlen', hocc, _⟩ := AddressPoolManager.AddSeq_prefix cfg regions
    (AddressPoolManager.init cfg) 0 (by simp [AddressPoolManager.init])
    (fun i hi => absurd hi (Nat.not_lt_zero _))
    (fun i _ hi => AddressPoolManager.init_getElem? cfg i hi) (by omega) hvalid
  rw [Nat.zero_add, hlen] at hseq
  have hfull : m'.Full := by
    intro i hi
    exact hocc i (by omega)
  exact ⟨m', hseq, hfull, fun ptr length =>
    (AddressPoolManager.Add_full cfg m' hfull ptr length).1⟩

/-- C13 with two table entries: two regions get the handles 1 and 2, a third `Add` ends
in `NOTREACHED()`. -/
theorem Add_table_full_witness :
    AddressPoolManager.AddSeq exampleConfig (AddressPoolManager.init exampleConfig)
        [(2097152, 8388608), (16777216, 4194304)] =
      .ok ([1, 2], { pools_ := [some { examplePool with alloc_bitset_ := bitset.resetAll 8 },
        some examplePool2] }) ∧
    AddressPoolManager.Add exampleConfig
        { pools_ := [some { examplePool with alloc_bitset_ := bitset.resetAll 8 },
          some examplePool2] } 33554432 2097152 = .fatal .notreached ∧
    ∃ m', AddressPoolManager.AddSeq exampleConfig (AddressPoolManager.init exampleConfig)
          [(2097152, 8388608), (16777216, 4194304)] =
        .ok (List.range' 1 exampleConfig.kNumPools, m') ∧
      m'.Full ∧ ∀ ptr length, ∃ f, m'.Add exampleConfig ptr length = .fatal f :=
  ⟨by decide, by decide,
    (Add_table_full exampleConfig).2 [(2097152, 8388608), (16777216, 4194304)] rfl
      (by
        intro r hr
        rcases List.mem_cons.mp hr with rfl | hr
        · exact ⟨by decide, by decide,
            { examplePool with alloc_bitset_ := bitset.resetAll 8 }, by decide⟩
        · rcases List.mem_cons.mp hr with rfl | hr
          · exact ⟨by decide, by decide, examplePool2, by decide⟩
          · cases hr)⟩

/-- C14 (an entry is reused after Remove): for a table of `kNumPools` entries and a
handle `h` with `0 < h ≤ kNumPools`, `Remove(h)` returns, and the next `Add(ptr, length)`
with arguments the Pool constructor accepts returns `i + 1` for the smallest index `i`
whose entry is empty after the `Remove`, and stores the new pool there; when the table
was full before the `Remove`, the handle returned is `h`. -/
theorem Remove_then_Add (cfg : Config) (m : AddressPoolManager) (hm : m.WF cfg) (h : Nat)
    (hh : 0 < h ∧ h ≤ cfg.kNumPools) (ptr length : Nat) (hptr : ptr < kWord)
    (hlength : length < kWord) (pool : AddressPoolManager.Pool)
    (hctor : AddressPoolManager.Pool.Pool cfg ptr length = .ok pool) :
    ∃ m1, m.Remove cfg h = .ok m1 ∧
      ∃ i m2, m1.Add cfg ptr length = .ok (i + 1, m2) ∧
        m1.pools_[i]? = some none ∧
        (∀ k, k < i → ∃ q, m1.pools_[k]? = some (some q)) ∧
        m2.pools_[i]? = some (some pool) ∧
        (m.Full → i + 1 = h) := by
  have hlt : h - 1 < m.pools_.length := by
    rw [hm]
    omega
  have hrem := AddressPoolManager.Remove_eq cfg m hm h hh
  have hempty : (AddressPoolManager.mk (m.pools_.set (h - 1) none)).pools_[h - 1]? =
      some none := by
    simp [List.getElem?_set_self hlt]
  obtain ⟨j, hj1, hj2, hj3, hadd⟩ := AddressPoolManager.Add_first cfg
    { pools_ := m.pools_.set (h - 1) none } ptr length hptr hlength pool hctor ⟨h - 1, hempty⟩
  refine ⟨_, hrem, j, _, hadd, hj2, hj3, ?_, ?_⟩
  · simp only [List.length_set] at hj1
    simp [List.getElem?_set_self, hj1]
  · intro hfull
    have hbelow : ∀ k, k < h - 1 →
        ∃ q, (AddressPoolManager.mk (m.pools_.set (h - 1) none)).pools_[k]? =
          some (some q) := by
      intro k hk
      obtain ⟨q, hq⟩ := hfull k (by omega)
      exact ⟨q, by simp [List.getElem?_set_ne (Nat.ne_of_gt hk), hq]⟩
    have := first_empty_unique hj2 hj3 hempty hbelow
    omega

/-- C14 on the full table of two entries: after `Remove(1)` the next `Add` returns 1. -/
theorem Remove_then_Add_witness :
    AddressPoolManager.Remove exampleConfig
        { pools_ := [some examplePool, some examplePool2] } 1 =
      .ok { pools_ := [none, some examplePool2] } ∧
    AddressPoolManager.Add exampleConfig { pools_ := [none, some examplePool2] }
        2097152 8388608 =
      .ok (1, { pools_ := [some { examplePool with alloc_bitset_ := bitset.resetAll 8 },
        some examplePool2] }) ∧
    ∃ m1, AddressPoolManager.Remove exampleConfig
        { pools_ := [some examplePool, some examplePool2] } 1 = .ok m1 ∧
      ∃ i m2, m1.Add exampleConfig 2097152 8388608 = .ok (i + 1, m2) ∧
        m1.pools_[i]? = some none ∧
        (∀ k, k < i → ∃ q, m1.pools_[k]? = some (some q)) ∧
        m2.pools_[i]? = some (some { examplePool with alloc_bitset_ := bitset.resetAll 8 }) ∧
        (AddressPoolManager.Full { pools_ := [some examplePool, some examplePool2] } →
          i + 1 = 1) :=
  ⟨by decide, by decide,
    Remove_then_Add exampleConfig { pools_ := [some examplePool, some examplePool2] }
      (by decide) 1 (by decide) 2097152 8388608 (by decide) (by decide)
      { examplePool with alloc_bitset_ := bitset.resetAll 8 } (by decide)⟩

/-- C15 (frame of Remove): for a table of `kNumPools` entries and a handle `h` with
`0 < h ≤ kNumPools`, `Remove(h)` returns, leaves entry `h - 1` empty and leaves every
other entry, with the pool it holds and its bitmap, as it was. -/
theorem Remove_frame (cfg : Config) (m : AddressPoolManager) (hm : m.WF cfg) (h : Nat)
    (hh : 0 < h ∧ h ≤ cfg.kNumPools) :
    ∃ m', m.Remove cfg h = .ok m' ∧ m'.pools_[h - 1]? = some none ∧
      m'.pools_.length = m.pools_.length ∧
      ∀ k, k ≠ h - 1 → m'.pools_[k]? = m.pools_[k]? := by
  have hlt : h - 1 < m.pools_.length := by
    rw [hm]
    omega
  refine ⟨_, AddressPoolManager.Remove_eq cfg m hm h hh, ?_, ?_, ?_⟩
  · simp [List.getElem?_set_self hlt]
  · simp
  · intro k hk
    simp [List.getElem?_set_ne (Ne.symm hk)]

/-- C15 on the table `[pool, pool]` and handle 2. -/
theorem Remove_frame_witness :
    AddressPoolManager.Remove exampleConfig
        { pools_ := [some examplePool, some examplePool2] } 2 =
      .ok { pools_ := [some examplePool, none] } ∧
    ∃ m', AddressPoolManager.Remove exampleConfig
        { pools_ := [some examplePool, some examplePool2] } 2 = .ok m' ∧
      m'.pools_[2 - 1]? = some none ∧ m'.pools_.length = 2 ∧
      ∀ k, k ≠ 2 - 1 → m'.pools_[k]? = [some examplePool, some examplePool2][k]? :=
  ⟨by decide,
    Remove_frame exampleConfig { pools_ := [some examplePool, some examplePool2] }
      (by decide) 2 (by decide)⟩

/-! ## C16 - C19: handles -/

theorem AddressPoolManager.Pool.FindChunk.mark_length (n i : Nat) (b b' : List Bool)
    (h : FindChunk.mark n i b = .ok b') : b'.length = b.length := by
  induction n generalizing i b with
  | zero =>
    rw [FindChunk.mark] at h
    injection h with h
    rw [← h]
  | succ n ih =>
    rw [FindChunk.mark] at h
    rcases ht : bitset.test b i with (_ | _) | f | _
    · rw [ht] at h
      by_cases hlt : i < b.length
      · simp only [bitset.set, hlt, if_true] at h
        have := ih (i + 1) _ h
        rw [this, List.length_set]
      · simp only [bitset.set, hlt, if_false] at h
        cases h
    · rw [ht] at h
      cases h
    · rw [ht] at h
      cases h
    · rw [ht] at h
      cases h

theorem AddressPoolManager.Pool.FreeChunk.clear_length (n i : Nat) (b b' : List Bool)
    (h : FreeChunk.clear n i b = .ok b') : b'.length = b.length := by
  induction n generalizing i b with
  | zero =>
    rw [FreeChunk.clear] at h
    injection h with h
    rw [← h]
  | succ n ih =>
    rw [FreeChunk.clear] at h
    rcases ht : bitset.test b i with (_ | _) | f | _
    · rw [ht] at h
      cases h
    · rw [ht] at h
      by_cases hlt : i < b.length
      · simp only [bitset.reset, hlt, if_true] at h
        have := ih (i + 1) _ h
        rw [this, List.length_set]
      · simp only [bitset.reset, hlt, if_false] at h
        cases h
    · rw [ht] at h
      cases h
    · rw [ht] at h
      cases h

theorem AddressPoolManager.Pool.FindChunk.loop_sameObject (cfg : Config)
    (p : AddressPoolManager.Pool) (required_size need_bits fuel beg_bit curr_bit : Nat)
    (r : FindResult) (p' : AddressPoolManager.Pool)
    (h : FindChunk.loop cfg p required_size need_bits fuel beg_bit curr_bit = .ok (r, p')) :
    p.SameObject p' := by
  induction fuel generalizing beg_bit curr_bit with
  | zero =>
    rw [FindChunk.loop] at h
    cases h
  | succ fuel ih =>
    rw [FindChunk.loop] at h
    simp only at h
    split at h
    · injection h with h
      injection h with _ h
      subst h
      exact ⟨rfl, rfl, rfl, rfl⟩
    · split at h
      · split at h
        · rename_i b hb
          split at h
          · cases h
          · injection h with h
            injection h with _ h
            subst h
            exact ⟨rfl, rfl, rfl, FindChunk.mark_length _ _ _ _ hb⟩
        · cases h
        · cases h
      · exact ih _ _ h
      · cases h
      · cases h

theorem AddressPoolManager.Pool.FindChunk_sameObject (cfg : Config)
    (p : AddressPoolManager.Pool) (requested_size : Nat) (r : FindResult)
    (p' : AddressPoolManager.Pool) (h : p.FindChunk cfg requested_size = .ok (r, p')) :
    p.SameObject p' :=
  FindChunk.loop_sameObject cfg p _ _ _ _ _ r p' h

theorem AddressPoolManager.Pool.FreeChunk_sameObject (cfg : Config)
    (p : AddressPoolManager.Pool) (address free_size : Nat) (p' : AddressPoolManager.Pool)
    (h : p.FreeChunk cfg address free_size = .ok p') : p.SameObject p' := by
  unfold AddressPoolManager.Pool.FreeChunk at h
  simp only at h
  split at h
  · cases h
  · split at h
    · cases h
    · split at h
      · cases h
      · split at h
        · rename_i b hb
          injection h with h
          subst h
          exact ⟨rfl, rfl, rfl, FreeChunk.clear_length _ _ _ _ hb⟩
        · cases h
        · cases h

theorem AddressPoolManager.Alloc_ok (cfg : Config) (m : AddressPoolManager)
    (handle length : Nat) (r : FindResult) (m' : AddressPoolManager)
    (h : m.Alloc cfg handle length = .ok (r, m')) :
    (0 < handle ∧ handle ≤ cfg.kNumPools) ∧
      ∃ p p', m.pools_[handle - 1]? = some (some p) ∧ p.FindChunk cfg length = .ok (r, p') ∧
        m' = { pools_ := m.pools_.set (handle - 1) (some p') } := by
  unfold AddressPoolManager.Alloc at h
  split at h
  · cases h
  · rename_i hh
    refine ⟨Decidable.not_not.mp hh, ?_⟩
    split at h
    · rename_i p hp
      split at h
      · rename_i r' p' hfind
        injection h with h
        injection h with h1 h2
        subst h1 h2
        exact ⟨p, p', hp, hfind, rfl⟩
      · cases h
      · cases h
    · cases h
    · cases h

theorem AddressPoolManager.Free_ok (cfg : Config) (m : AddressPoolManager)
    (handle ptr length : Nat) (m' : AddressPoolManager)
    (h : m.Free cfg handle ptr length = .ok m') :
    (0 < handle ∧ handle ≤ cfg.kNumPools) ∧
      ∃ p p', m.pools_[handle - 1]? = some (some p) ∧ p.FreeChunk cfg ptr length = .ok p' ∧
        m' = { pools_ := m.pools_.set (handle - 1) (some p') } := by
  unfold AddressPoolManager.Free at h
  split at h
  · cases h
  · rename_i hh
    refine ⟨Decidable.not_not.mp hh, ?_⟩
    split at h
    · rename_i p hp
      split at h
      · rename_i p' hfree
        injection h with h
        subst h
        exact ⟨p, p', hp, hfree, rfl⟩
      · cases h
      · cases h
    · cases h
    · cases h

theorem AddressPoolManager.Remove_ok (cfg : Config) (m : AddressPoolManager) (handle : Nat)
    (m' : AddressPoolManager) (h : m.Remove cfg handle = .ok m') :
    (0 < handle ∧ handle ≤ cfg.kNumPools) ∧
      m' = { pools_ := m.pools_.set (handle - 1) none } := by
  unfold AddressPoolManager.Remove at h
  split at h
  · cases h
  · rename_i hh
    refine ⟨Decidable.not_not.mp hh, ?_⟩
    split at h
    · injection h with h
      exact h.symm
    · cases h

theorem AddressPoolManager.ResetForTesting.loop_getElem? (n i : Nat)
    (pools_ : List (Option AddressPoolManager.Pool)) (k : Nat) :
    (ResetForTesting.loop n i pools_)[k]? =
      if i ≤ k ∧ k < i + n ∧ k < pools_.length then some none else pools_[k]? := by
  induction n generalizing i pools_ with
  | zero =>
    have h3 : ¬ (i ≤ k ∧ k < i + 0 ∧ k < pools_.length) := by omega
    rw [ResetForTesting.loop, if_neg h3]
  | succ n ih =>
    rw [ResetForTesting.loop, ih, List.length_set, List.getElem?_set]
    by_cases h1 : i = k
    · subst h1
      by_cases h2 : i < pools_.length
      · simp [h2]
      · simp [h2, List.getElem?_eq_none (Nat.not_lt.mp h2)]
    · by_cases h2 : i + 1 ≤ k ∧ k < i + 1 + n ∧ k < pools_.length
      · have h3 : i ≤ k ∧ k < i + (n + 1) ∧ k < pools_.length := by omega
        simp [h2, h3]
      · have h3 : ¬ (i ≤ k ∧ k < i + (n + 1) ∧ k < pools_.length) := by omega
        simp [h1, h2, h3]

theorem AddressPoolManager.ResetForTesting_eq (m : AddressPoolManager) :
    m.ResetForTesting = { pools_ := List.replicate m.pools_.length none } := by
  unfold AddressPoolManager.ResetForTesting
  congr 1
  apply List.ext_getElem?
  intro k
  rw [ResetForTesting.loop_getElem?]
  by_cases hk : k < m.pools_.length
  · rw [if_pos ⟨Nat.zero_le _, by omega, hk⟩]
    simp [hk]
  · rw [if_neg (fun hc => hk hc.2.2), List.getElem?_eq_none (Nat.not_lt.mp hk)]
    simp [Nat.not_lt.mp hk]

theorem AddressPoolManager.call_length (cfg : Config) (m m' : AddressPoolManager) (c : Call)
    (h : m.call cfg c = .ok m') : m'.pools_.length = m.pools_.length := by
  cases c with
  | Add ptr length =>
    simp only [AddressPoolManager.call] at h
    split at h
    · rename_i hd m1 hadd
      injection h with h
      subst h
      obtain ⟨pool, _, _, _, _, hm1⟩ := AddressPoolManager.Add_ok cfg m ptr length _ _ hadd
      rw [hm1]
      simp
    · cases h
    · cases h
  | Remove handle =>
    obtain ⟨_, hm'⟩ := AddressPoolManager.Remove_ok cfg m handle m' h
    rw [hm']
    simp
  | ResetForTesting =>
    simp only [AddressPoolManager.call] at h
    injection h with h
    rw [← h, AddressPoolManager.ResetForTesting_eq]
    simp
  | Alloc handle length =>
    simp only [AddressPoolManager.call] at h
    split at h
    · rename_i r m1 halloc
      injection h with h
      subst h
      obtain ⟨_, p, p', _, _, hm1⟩ := AddressPoolManager.Alloc_ok cfg m handle length _ _ halloc
      rw [hm1]
      simp
    · cases h
    · cases h
  | Free handle ptr length =>
    obtain ⟨_, p, p', _, _, hm'⟩ := AddressPoolManager.Free_ok cfg m handle ptr length m' h
    rw [hm']
    simp

theorem AddressPoolManager.calls_length (cfg : Config) (cs : List Call) :
    ∀ (m m' : AddressPoolManager), AddressPoolManager.calls cfg m cs = .ok m' →
      m'.pools_.length = m.pools_.length := by
  induction cs with
  | nil =>
    intro m m' h
    rw [AddressPoolManager.calls] at h
    injection h with h
    rw [h]
  | cons c rest ih =>
    intro m m' h
    rw [AddressPoolManager.calls] at h
    split at h
    · rename_i m1 hc
      rw [ih m1 m' h, AddressPoolManager.call_length cfg m m1 c hc]
    · cases h
    · cases h

theorem AddressPoolManager.Reachable.wf {cfg : Config} {m : AddressPoolManager}
    (h : m.Reachable cfg) : m.WF cfg := by
  obtain ⟨cs, hcs⟩ := h
  have := AddressPoolManager.calls_length cfg cs _ _ hcs
  rw [AddressPoolManager.WF, this]
  simp [AddressPoolManager.init]

/-- C16 (handle invariant): in every table state reachable from the initial table by
calls of `Add`, `Remove`, `ResetForTesting`, `Alloc` and `Free` that returned, a handle
`h` returned by `Add` satisfies `1 ≤ h ≤ kNumPools` and differs from the handle `h'` of
every pool that is live at the call; and a live handle `h'` keeps resolving to its pool
across `Add`, across `Remove` of another handle, and across `Alloc` and `Free` (which on
`h'` itself change the bitmap of that same pool object and on another handle leave the
pool as it is). -/
theorem handle_invariant (cfg : Config) (m : AddressPoolManager) (hreach : m.Reachable cfg) :
    (∀ ptr length h m', m.Add cfg ptr length = .ok (h, m') →
      1 ≤ h ∧ h ≤ cfg.kNumPools ∧
        ∀ h' q, 0 < h' → m.pools_[h' - 1]? = some (some q) →
          h ≠ h' ∧ m'.pools_[h' - 1]? = some (some q)) ∧
      ∀ h' q, 0 < h' → m.pools_[h' - 1]? = some (some q) →
        (∀ h m', h ≠ h' → m.Remove cfg h = .ok m' → m'.pools_[h' - 1]? = some (some q)) ∧
        (∀ h length r m', m.Alloc cfg h length = .ok (r, m') →
          ∃ q', m'.pools_[h' - 1]? = some (some q') ∧ q.SameObject q' ∧ (h ≠ h' → q' = q)) ∧
        (∀ h ptr length m', m.Free cfg h ptr length = .ok m' →
          ∃ q', m'.pools_[h' - 1]? = some (some q') ∧ q.SameObject q' ∧
            (h ≠ h' → q' = q)) := by
  have hwf := hreach.wf
  constructor
  · intro ptr length h m' hadd
    obtain ⟨pool, _, h1, h2, h3, hm'⟩ := AddressPoolManager.Add_ok cfg m ptr length h m' hadd
    refine ⟨h1, by rw [← hwf]; exact h2, ?_⟩
    intro h' q hpos hq
    have hne : h ≠ h' := by
      intro he
      subst he
      rw [h3] at hq
      cases hq
    refine ⟨hne, ?_⟩
    rw [hm']
    simp only
    rw [List.getElem?_set_ne (by omega)]
    exact hq
  · intro h' q hpos hq
    have hlt : h' - 1 < m.pools_.length := (List.getElem?_eq_some_iff.mp hq).1
    refine ⟨?_, ?_, ?_⟩
    · intro h m' hne hrem
      obtain ⟨hh, hm'⟩ := AddressPoolManager.Remove_ok cfg m h m' hrem
      rw [hm']
      simp only
      rw [List.getElem?_set_ne (by omega)]
      exact hq
    · intro h length r m' halloc
      obtain ⟨hh, p, p', hp, hfind, hm'⟩ :=
        AddressPoolManager.Alloc_ok cfg m h length r m' halloc
      by_cases he : h = h'
      · subst he
        rw [hp] at hq
        injection hq with hq
        injection hq with hq
        subst hq
        refine ⟨p', ?_, AddressPoolManager.Pool.FindChunk_sameObject cfg p length r p' hfind,
          fun hc => absurd rfl hc⟩
        rw [hm']
        simp [List.getElem?_set_self hlt]
      · refine ⟨q, ?_, ⟨rfl, rfl, rfl, rfl⟩, fun _ => rfl⟩
        rw [hm']
        simp only
        rw [List.getElem?_set_ne (by omega)]
        exact hq
    · intro h ptr length m' hfree
      obtain ⟨hh, p, p', hp, hfc, hm'⟩ :=
        AddressPoolManager.Free_ok cfg m h ptr length m' hfree
      by_cases he : h = h'
      · subst he
        rw [hp] at hq
        injection hq with hq
        injection hq with hq
        subst hq
        refine ⟨p', ?_, AddressPoolManager.Pool.FreeChunk_sameObject cfg p ptr length p' hfc,
          fun hc => absurd rfl hc⟩
        rw [hm']
        simp [List.getElem?_set_self hlt]
      · refine ⟨q, ?_, ⟨rfl, rfl, rfl, rfl⟩, fun _ => rfl⟩
        rw [hm']
        simp only
        rw [List.getElem?_set_ne (by omega)]
        exact hq

/-- C16 at the table reached by one `Add`: the second `Add` returns handle 2, which is
not the live handle 1, and handle 1 still resolves to its pool. -/
theorem handle_invariant_witness :
    AddressPoolManager.calls exampleConfig (AddressPoolManager.init exampleConfig)
        [Call.Add 2097152 8388608] =
      .ok { pools_ := [some { examplePool with alloc_bitset_ := bitset.resetAll 8 }, none] } ∧
    AddressPoolManager.Add exampleConfig
        { pools_ := [some { examplePool with alloc_bitset_ := bitset.resetAll 8 }, none] }
        16777216 4194304 =
      .ok (2, { pools_ := [some { examplePool with alloc_bitset_ := bitset.resetAll 8 },
        some examplePool2] }) ∧
    (1 ≤ 2 ∧ 2 ≤ exampleConfig.kNumPools ∧
      ∀ h' q, 0 < h' →
        [some { examplePool with alloc_bitset_ := bitset.resetAll 8 }, none][h' - 1]? =
          some (some q) →
        2 ≠ h' ∧
          [some { examplePool with alloc_bitset_ := bitset.resetAll 8 },
            some examplePool2][h' - 1]? = some (some q)) :=
  ⟨by decide, by decide,
    (handle_invariant exampleConfig
      { pools_ := [some { examplePool with alloc_bitset_ := bitset.resetAll 8 }, none] }
      ⟨[Call.Add 2097152 8388608], by decide⟩).1 16777216 4194304 2
      { pools_ := [some { examplePool with alloc_bitset_ := bitset.resetAll 8 },
          some examplePool2] }
      (by decide)⟩

/-- C17 (dispatch by handle): for a handle `h` with `0 < h ≤ kNumPools` whose entry holds
the pool `p`, `Alloc(h, length)` returns exactly what `p.FindChunk(length)` returns and
`Free(h, ptr, length)` has exactly the outcome of `p.FreeChunk(ptr, length)`, the pool
after the call is stored in entry `h - 1`, and every other entry, with the pool it holds
and its bitmap, is unchanged, so the same entries are occupied before and after. -/
theorem Alloc_Free_dispatch (cfg : Config) (m : AddressPoolManager) (h : Nat)
    (hh : 0 < h ∧ h ≤ cfg.kNumPools) (p : AddressPoolManager.Pool)
    (hp : m.pools_[h - 1]? = some (some p)) :
    (∀ length,
      (∀ f, p.FindChunk cfg length = .fatal f → m.Alloc cfg h length = .fatal f) ∧
      (p.FindChunk cfg length = .div → m.Alloc cfg h length = .div) ∧
      ∀ r p', p.FindChunk cfg length = .ok (r, p') →
        ∃ m', m.Alloc cfg h length = .ok (r, m') ∧ m'.pools_[h - 1]? = some (some p') ∧
          m'.pools_.length = m.pools_.length ∧
          (∀ k : Nat, k ≠ h - 1 → m'.pools_[k]? = m.pools_[k]?) ∧
          ∀ k : Nat, (∃ q, m'.pools_[k]? = some (some q)) ↔ ∃ q, m.pools_[k]? = some (some q)) ∧
      ∀ ptr length,
        (∀ f, p.FreeChunk cfg ptr length = .fatal f → m.Free cfg h ptr length = .fatal f) ∧
        (p.FreeChunk cfg ptr length = .div → m.Free cfg h ptr length = .div) ∧
        ∀ p', p.FreeChunk cfg ptr length = .ok p' →
          ∃ m', m.Free cfg h ptr length = .ok m' ∧ m'.pools_[h - 1]? = some (some p') ∧
            m'.pools_.length = m.pools_.length ∧
            (∀ k : Nat, k ≠ h - 1 → m'.pools_[k]? = m.pools_[k]?) ∧
            ∀ k : Nat, (∃ q, m'.pools_[k]? = some (some q)) ↔
              ∃ q, m.pools_[k]? = some (some q) := by
  have hlt : h - 1 < m.pools_.length := (List.getElem?_eq_some_iff.mp hp).1
  have hocc : ∀ (p' : AddressPoolManager.Pool) (k : Nat),
      (∃ q, (m.pools_.set (h - 1) (some p'))[k]? = some (some q)) ↔
        ∃ q, m.pools_[k]? = some (some q) := by
    intro p' k
    by_cases hk : h - 1 = k
    · subst hk
      rw [List.getElem?_set_self hlt, hp]
      exact ⟨fun _ => ⟨p, rfl⟩, fun _ => ⟨p', rfl⟩⟩
    · rw [List.getElem?_set_ne hk]
  constructor
  · intro length
    have heq := AddressPoolManager.Alloc_eq cfg m h length hh p hp
    refine ⟨?_, ?_, ?_⟩
    · intro f hf
      rw [heq, hf]
    · intro hd
      rw [heq, hd]
    · intro r p' hfind
      rw [hfind] at heq
      refine ⟨_, heq, ?_, ?_, ?_, hocc p'⟩
      · simp [List.getElem?_set_self hlt]
      · simp
      · intro k hk
        simp [List.getElem?_set_ne (Ne.symm hk)]
  · intro ptr length
    have heq := AddressPoolManager.Free_eq cfg m h ptr length hh p hp
    refine ⟨?_, ?_, ?_⟩
    · intro f hf
      rw [heq, hf]
    · intro hd
      rw [heq, hd]
    · intro p' hfree
      rw [hfree] at heq
      refine ⟨_, heq, ?_, ?_, ?_, hocc p'⟩
      · simp [List.getElem?_set_self hlt]
      · simp
      · intro k hk
        simp [List.getElem?_set_ne (Ne.symm hk)]

/-- C17 on the table `[pool, pool]`: `Alloc(1, 2 slots)` returns what `FindChunk` returns
on the first pool and leaves the second pool alone. -/
theorem Alloc_Free_dispatch_witness :
    examplePool.FindChunk exampleConfig 4194304 =
      .ok (.chunk 6291456,
        { examplePool with
          alloc_bitset_ := [false, true, true, true, false, false, false, false] }) ∧
    ∃ m', AddressPoolManager.Alloc exampleConfig
          { pools_ := [some examplePool, some examplePool2] } 1 4194304 =
        .ok (.chunk 6291456, m') ∧
      m'.pools_[1 - 1]? = some (some { examplePool with
        alloc_bitset_ := [false, true, true, true, false, false, false, false] }) ∧
      m'.pools_.length = 2 ∧
      (∀ k : Nat, k ≠ 1 - 1 → m'.pools_[k]? = [some examplePool, some examplePool2][k]?) ∧
      ∀ k : Nat, (∃ q, m'.pools_[k]? = some (some q)) ↔
        ∃ q, [some examplePool, some examplePool2][k]? = some (some q) :=
  ⟨by decide,
    ((Alloc_Free_dispatch exampleConfig { pools_ := [some examplePool, some examplePool2] } 1
      (by decide) examplePool (by decide)).1 4194304).2.2 (.chunk 6291456)
      { examplePool with
        alloc_bitset_ := [false, true, true, true, false, false, false, false] }
      (by decide)⟩

/-- C18 (invalid handles): for a handle that is `0` or above `kNumPools`, `Alloc`, `Free`
and `Remove` are stopped by their first statement, `DCHECK(0 < handle && handle <=
kNumPools)`; for a handle in range whose entry is empty, `Alloc` and `Free` are stopped
by `DCHECK(pool)`; a stopped call has touched no pool. -/
theorem invalid_handle_fatal (cfg : Config) (m : AddressPoolManager) (h : Nat) :
    ((h = 0 ∨ cfg.kNumPools < h) →
      (∀ length, m.Alloc cfg h length = .fatal .dcheck) ∧
        (∀ ptr length, m.Free cfg h ptr length = .fatal .dcheck) ∧
        m.Remove cfg h = .fatal .dcheck) ∧
      ((0 < h ∧ h ≤ cfg.kNumPools) → m.pools_[h - 1]? = some none →
        (∀ length, m.Alloc cfg h length = .fatal .dcheck) ∧
          ∀ ptr length, m.Free cfg h ptr length = .fatal .dcheck) := by
  constructor
  · intro hbad
    have hn : ¬ (0 < h ∧ h ≤ cfg.kNumPools) := by omega
    refine ⟨fun length => ?_, fun ptr length => ?_, ?_⟩
    · simp only [AddressPoolManager.Alloc, hn, not_false_eq_true, if_true]
    · simp only [AddressPoolManager.Free, hn, not_false_eq_true, if_true]
    · simp only [AddressPoolManager.Remove, hn, not_false_eq_true, if_true]
  · intro hh hnone
    refine ⟨fun length => ?_, fun ptr length => ?_⟩
    · simp only [AddressPoolManager.Alloc, hh, and_self, not_true, if_false, hnone]
    · simp only [AddressPoolManager.Free, hh, and_self, not_true, if_false, hnone]

/-- C18 on the table `[pool, empty]`: handle 0, handle 3 and the unregistered handle 2. -/
theorem invalid_handle_fatal_witness :
    (AddressPoolManager.Alloc exampleConfig { pools_ := [some examplePool, none] } 0
        2097152 = .fatal .dcheck ∧
      AddressPoolManager.Remove exampleConfig { pools_ := [some examplePool, none] } 3 =
        .fatal .dcheck) ∧
      ((∀ length, AddressPoolManager.Alloc exampleConfig
          { pools_ := [some examplePool, none] } 2 length = .fatal .dcheck) ∧
        ∀ ptr length, AddressPoolManager.Free exampleConfig
          { pools_ := [some examplePool, none] } 2 ptr length = .fatal .dcheck) :=
  ⟨⟨((invalid_handle_fatal exampleConfig { pools_ := [some examplePool, none] } 0).1
        (Or.inl rfl)).1 2097152,
      ((invalid_handle_fatal exampleConfig { pools_ := [some examplePool, none] } 3).1
        (Or.inr (by decide))).2.2⟩,
    (invalid_handle_fatal exampleConfig { pools_ := [some examplePool, none] } 2).2
      (by decide) (by decide)⟩

/-- C19 (ResetForTesting): for a table of `kNumPools ≥ 1` entries, after
`ResetForTesting()` every entry is empty (the table is the initial one), the next `Add`
with arguments the Pool constructor accepts returns handle `1`, and `kNumPools`
consecutive such `Add` calls return the handles `1 .. kNumPools`. -/
theorem ResetForTesting_empties (cfg : Config) (hpos : 0 < cfg.kNumPools)
    (m : AddressPoolManager) (hm : m.WF cfg) :
    (∀ i, i < cfg.kNumPools → m.ResetForTesting.pools_[i]? = some none) ∧
      m.ResetForTesting = AddressPoolManager.init cfg ∧
      (∀ ptr length, ptr < kWord → length < kWord →
        (∃ p, AddressPoolManager.Pool.Pool cfg ptr length = .ok p) →
        ∃ m', m.ResetForTesting.Add cfg ptr length = .ok (1, m')) ∧
      ∀ regions : List (Nat × Nat), regions.length = cfg.kNumPools →
        (∀ r ∈ regions, r.1 < kWord ∧ r.2 < kWord ∧
          ∃ p, AddressPoolManager.Pool.Pool cfg r.1 r.2 = .ok p) →
        ∃ m', AddressPoolManager.AddSeq cfg m.ResetForTesting regions =
          .ok (List.range' 1 cfg.kNumPools, m') := by
  have hinit : m.ResetForTesting = AddressPoolManager.init cfg := by
    rw [AddressPoolManager.ResetForTesting_eq, hm]
    rfl
  rw [hinit]
  refine ⟨fun i hi => AddressPoolManager.init_getElem? cfg i hi, rfl, ?_, ?_⟩
  · rintro ptr length hptr hlength ⟨pool, hctor⟩
    have h0 := AddressPoolManager.init_getElem? cfg 0 hpos
    obtain ⟨j, _, hj2, hj3, hadd⟩ := AddressPoolManager.Add_first cfg
      (AddressPoolManager.init cfg) ptr length hptr hlength pool hctor ⟨0, h0⟩
    have hj : j = 0 :=
      first_empty_unique hj2 hj3 h0 (fun k hk => absurd hk (Nat.not_lt_zero _))
    subst hj
    exact ⟨_, hadd⟩
  · intro regions hlen hvalid
    obtain ⟨m', hseq, _⟩ := AddressPoolManager.AddSeq_prefix cfg regions
      (AddressPoolManager.init cfg) 0 (by simp [AddressPoolManager.init])
      (fun i hi => absurd hi (Nat.not_lt_zero _))
      (fun i _ hi => AddressPoolManager.init_getElem? cfg i hi) (by omega) hvalid
    rw [Nat.zero_add, hlen] at hseq
    exact ⟨m', hseq⟩

/-- C19 on the full table `[pool, pool]`. -/
theorem ResetForTesting_empties_witness :
    AddressPoolManager.ResetForTesting { pools_ := [some examplePool, some examplePool2] } =
      { pools_ := [none, none] } ∧
    (∀ i, i < exampleConfig.kNumPools →
      (AddressPoolManager.ResetForTesting
        { pools_ := [some examplePool, some examplePool2] }).pools_[i]? = some none) ∧
    ∃ m', (AddressPoolManager.ResetForTesting
        { pools_ := [some examplePool, some examplePool2] }).Add exampleConfig
          2097152 8388608 = .ok (1, m') :=
  ⟨by decide,
    (ResetForTesting_empties exampleConfig (by decide)
      { pools_ := [some examplePool, some examplePool2] } (by decide)).1,
    (ResetForTesting_empties exampleConfig (by decide)
      { pools_ := [some examplePool, some examplePool2] } (by decide)).2.2.1
      2097152 8388608 (by decide) (by decide)
      ⟨{ examplePool with alloc_bitset_ := bitset.resetAll 8 }, by decide⟩⟩

/-! ## C20: rounding a size to super pages -/

/-- C20 (size rounding, as amended): for a size with
`size + kSuperPageSize - 1 < 2 ^ 64`, the slot count of `FindChunk`,
`Align(size, kSuperPageSize) >> kSuperPageShift`, and the slot count of `FreeChunk`,
`Align(size, kSuperPageSize) / kSuperPageSize`, both equal `ceil(size / kSuperPageSize)`,
and the rounded size is that many super pages; for the larger 64-bit sizes the sum
`size + kSuperPageSize - 1` wraps and both slot counts are `0`. -/
theorem need_bits_eq_ceil (cfg : Config) (hv : cfg.Valid) (size : Nat) (hsize : size < kWord) :
    (size + cfg.kSuperPageSize - 1 < kWord →
      bits.Align size cfg.kSuperPageSize >>> cfg.kSuperPageShift =
          (size + cfg.kSuperPageSize - 1) / cfg.kSuperPageSize ∧
        bits.Align size cfg.kSuperPageSize / cfg.kSuperPageSize =
          (size + cfg.kSuperPageSize - 1) / cfg.kSuperPageSize ∧
        bits.Align size cfg.kSuperPageSize =
          (size + cfg.kSuperPageSize - 1) / cfg.kSuperPageSize * cfg.kSuperPageSize) ∧
      (kWord ≤ size + cfg.kSuperPageSize - 1 →
        bits.Align size cfg.kSuperPageSize >>> cfg.kSuperPageShift = 0 ∧
          bits.Align size cfg.kSuperPageSize / cfg.kSuperPageSize = 0) := by
  have hpos := cfg.kSuperPageSize_pos
  have hS : cfg.kSuperPageSize < kWord := by
    rw [cfg.kSuperPageSize_eq]
    exact Nat.pow_lt_pow_right (by decide) hv.2
  have hshift : bits.Align size cfg.kSuperPageSize >>> cfg.kSuperPageShift =
      bits.Align size cfg.kSuperPageSize / cfg.kSuperPageSize := by
    rw [Nat.shiftRight_eq_div_pow, ← cfg.kSuperPageSize_eq]
  rw [hshift, cfg.align_eq hv]
  constructor
  · intro hlt
    rw [Nat.mod_eq_of_lt hlt, Nat.mul_div_cancel _ hpos]
    exact ⟨rfl, rfl, rfl⟩
  · intro hge
    have hK : kWord = 2 ^ 64 := rfl
    have hmod : (size + cfg.kSuperPageSize - 1) % kWord =
        size + cfg.kSuperPageSize - 1 - kWord := by
      rw [Nat.mod_eq_sub_mod hge, Nat.mod_eq_of_lt (by omega)]
    have hzero : (size + cfg.kSuperPageSize - 1) % kWord / cfg.kSuperPageSize = 0 := by
      rw [hmod]
      exact Nat.div_eq_of_lt (by omega)
    rw [hzero]
    simp

/-- C20 at 2 MiB super pages: a size one byte above two super pages needs three. -/
theorem need_bits_eq_ceil_witness :
    exampleConfig.Valid ∧ (4194305 : Nat) < kWord ∧
      4194305 + exampleConfig.kSuperPageSize - 1 < kWord ∧
      (bits.Align 4194305 exampleConfig.kSuperPageSize >>> exampleConfig.kSuperPageShift =
          (4194305 + exampleConfig.kSuperPageSize - 1) / exampleConfig.kSuperPageSize ∧
        bits.Align 4194305 exampleConfig.kSuperPageSize / exampleConfig.kSuperPageSize =
          (4194305 + exampleConfig.kSuperPageSize - 1) / exampleConfig.kSuperPageSize ∧
        bits.Align 4194305 exampleConfig.kSuperPageSize =
          (4194305 + exampleConfig.kSuperPageSize - 1) / exampleConfig.kSuperPageSize *
            exampleConfig.kSuperPageSize) ∧
      (4194305 + exampleConfig.kSuperPageSize - 1) / exampleConfig.kSuperPageSize = 3 :=
  ⟨by decide, by decide, by decide,
    (need_bits_eq_ceil exampleConfig (by decide) 4194305 (by decide)).1 (by decide),
    by decide⟩

/-- C20 as stated fails at the 64-bit size `2 ^ 64 - 1` with 2 MiB super pages:
`ceil(size / kSuperPageSize)` is `2 ^ 43`, the code computes `0` slots in `FindChunk` and
in `FreeChunk`. -/
theorem need_bits_not_ceil_at_max :
    (18446744073709551615 : Nat) < kWord ∧
      (18446744073709551615 + exampleConfig.kSuperPageSize - 1) /
        exampleConfig.kSuperPageSize = 8796093022208 ∧
      bits.Align 18446744073709551615 exampleConfig.kSuperPageSize >>>
        exampleConfig.kSuperPageShift = 0 ∧
      bits.Align 18446744073709551615 exampleConfig.kSuperPageSize /
        exampleConfig.kSuperPageSize = 0 ∧
      bits.Align 18446744073709551615 exampleConfig.kSuperPageSize >>>
          exampleConfig.kSuperPageShift ≠
        (18446744073709551615 + exampleConfig.kSuperPageSize - 1) /
          exampleConfig.kSuperPageSize := by
  refine ⟨by decide, by decide, by decide, by decide, by decide⟩

/-! ## C27, C28: the failure value and requests of no slot -/

theorem Config.align_wrap (cfg : Config) (hv : cfg.Valid) (size : Nat) (hsize : size < kWord)
    (hwrap : kWord ≤ size + cfg.kSuperPageSize - 1) :
    bits.Align size cfg.kSuperPageSize = 0 := by
  have hS : cfg.kSuperPageSize < kWord := by
    rw [cfg.kSuperPageSize_eq]
    exact Nat.pow_lt_pow_right (by decide) hv.2
  have hK : kWord = 2 ^ 64 := rfl
  have hmod : (size + cfg.kSuperPageSize - 1) % kWord =
      size + cfg.kSuperPageSize - 1 - kWord := by
    rw [Nat.mod_eq_sub_mod hwrap, Nat.mod_eq_of_lt (by omega)]
  rw [cfg.align_eq hv, hmod, Nat.div_eq_of_lt (by omega), Nat.zero_mul]

theorem Config.need_bits_eq_zero (cfg : Config) (hv : cfg.Valid) (size : Nat)
    (h : bits.Align size cfg.kSuperPageSize = 0) : cfg.need_bits size = 0 := by
  rw [← cfg.align_div hv, h, Nat.zero_div]

/-- A request that needs no slot returns `address_begin_` and changes nothing. -/
theorem AddressPoolManager.Pool.FindChunk_no_slot (cfg : Config) (hv : cfg.Valid)
    (p : AddressPoolManager.Pool) (hwf : p.WF cfg) (requested_size : Nat)
    (h : cfg.need_bits requested_size = 0) :
    p.FindChunk cfg requested_size = .ok (.chunk p.address_begin_, p) := by
  rcases FindChunk_spec cfg hv p hwf requested_size with ⟨hno, _⟩ | ⟨b, _, h2, hres⟩
  · exact absurd ⟨by omega, fun i h1 h2 => by omega⟩ (hno 0)
  · have hb : b = 0 := by
      rcases Nat.eq_zero_or_pos b with h0 | h0
      · exact h0
      · exact absurd ⟨by omega, fun i h1 h2 => by omega⟩ (h2 0 h0)
    subst hb
    rw [hres, h, Nat.zero_mul, Nat.add_zero]
    rfl

/-- Success and failure are distinguishable when the region does not start at address
`0` (the part of C27 the code satisfies): for a pool constructed from `(ptr, length)`
with `ptr ≠ 0`, in any bitmap state, `FindChunk` returns, and the value it returns is `0`
exactly when no run of `need_bits` consecutive free slots lies below `total_bits_`,
which is exactly when it returned through `return 0`. -/
theorem FindChunk_zero_iff (cfg : Config) (hv : cfg.Valid) (ptr length : Nat)
    (hptr : ptr < kWord) (hlength : length < kWord) (hne : ptr ≠ 0)
    (p0 : AddressPoolManager.Pool)
    (hctor : AddressPoolManager.Pool.Pool cfg ptr length = .ok p0) (bitmap : List Bool)
    (hbitmap : bitmap.length = cfg.kMaxBits) (requested_size : Nat) :
    ∃ r p', AddressPoolManager.Pool.FindChunk cfg { p0 with alloc_bitset_ := bitmap }
        requested_size = .ok (r, p') ∧
      (r.value = 0 ↔
        ∀ b, ¬ FreeRun bitmap p0.total_bits_
          (bits.Align requested_size cfg.kSuperPageSize >>> cfg.kSuperPageShift) b) ∧
      (r.value = 0 ↔ r = .no_chunk) := by
  obtain ⟨hwf0, _, _, hbeg, _, _, _⟩ :=
    AddressPoolManager.Pool.Pool_ok cfg ptr length hptr hlength p0 hctor
  have hwf : AddressPoolManager.Pool.WF cfg { p0 with alloc_bitset_ := bitmap } :=
    hwf0.with_bitset bitmap (by rw [hbitmap, hwf0.1])
  rcases AddressPoolManager.Pool.FindChunk_spec cfg hv _ hwf requested_size with
    ⟨hno, hres⟩ | ⟨b, hb, _, hres⟩
  · exact ⟨_, _, hres, ⟨fun _ => hno, fun _ => rfl⟩, ⟨fun _ => rfl, fun _ => rfl⟩⟩
  · refine ⟨_, _, hres, ⟨?_, ?_⟩, ⟨?_, ?_⟩⟩
    · intro hz
      simp only [FindResult.value] at hz
      omega
    · intro hno
      exact absurd hb (hno b)
    · intro hz
      simp only [FindResult.value] at hz
      omega
    · intro hc
      cases hc

/-- The pool constructed from `(0x200000, 4 * 0x200000)` with bitmap
`[free, used, free, free]`: two slots are found (value `0x600000`), three are not
(value `0`). -/
theorem FindChunk_zero_iff_witness :
    AddressPoolManager.Pool.Pool exampleConfig 2097152 8388608 =
        .ok { examplePool with alloc_bitset_ := bitset.resetAll 8 } ∧
      examplePool.FindChunk exampleConfig 4194304 =
        .ok (.chunk 6291456,
          { examplePool with
            alloc_bitset_ := [false, true, true, true, false, false, false, false] }) ∧
      examplePool.FindChunk exampleConfig 6291456 = .ok (.no_chunk, examplePool) ∧
      ∃ r p', examplePool.FindChunk exampleConfig 6291456 = .ok (r, p') ∧
        (r.value = 0 ↔
          ∀ b, ¬ FreeRun examplePool.alloc_bitset_ 4
            (bits.Align 6291456 exampleConfig.kSuperPageSize >>>
              exampleConfig.kSuperPageShift) b) ∧
        (r.value = 0 ↔ r = .no_chunk) :=
  ⟨by decide, by decide, by decide,
    FindChunk_zero_iff exampleConfig (by decide) 2097152 8388608 (by decide) (by decide)
      (by decide) { examplePool with alloc_bitset_ := bitset.resetAll 8 } (by decide)
      examplePool.alloc_bitset_ (by decide) 6291456⟩

/-- C27 (success and failure are distinguishable) at the pool constructed from
`(0, 4 * 0x200000)`: the constructor passes all its checks, slot 0 is free, and the
`FindChunk` of one slot marks slot 0 and returns through `return address` the value `0`,
the value that signals that no chunk was found. -/
theorem FindChunk_zero_at_null_region :
    AddressPoolManager.Pool.Pool exampleConfig 0 8388608 = .ok examplePoolAtZero ∧
      examplePoolAtZero.FindChunk exampleConfig 2097152 =
        .ok (.chunk 0,
          { examplePoolAtZero with
            alloc_bitset_ := [true, false, false, false, false, false, false, false] }) ∧
      (FindResult.chunk 0).value = 0 ∧
      FreeRun examplePoolAtZero.alloc_bitset_ examplePoolAtZero.total_bits_
        (bits.Align 2097152 exampleConfig.kSuperPageSize >>> exampleConfig.kSuperPageShift)
        0 := by
  refine ⟨by decide, by decide, rfl, ?_⟩
  have hneed : bits.Align 2097152 exampleConfig.kSuperPageSize >>>
      exampleConfig.kSuperPageShift = 1 := by decide
  rw [hneed]
  refine ⟨by decide, ?_⟩
  intro i h1 h2
  have : i = 0 := by omega
  subst this
  rfl

/-- C28 (zero-slot request): on a well-formed pool in any bitmap state, `FindChunk(0)`
returns `address_begin_` and leaves the pool, bitmap included, as it is; so does
`FindChunk(requested_size)` for every `requested_size` whose
`Align(requested_size, kSuperPageSize)` is `0`, which is the case for every 64-bit
`requested_size` with `requested_size + kSuperPageSize - 1 ≥ 2 ^ 64`. -/
theorem FindChunk_zero_slots (cfg : Config) (hv : cfg.Valid) (p : AddressPoolManager.Pool)
    (hwf : p.WF cfg) :
    p.FindChunk cfg 0 = .ok (.chunk p.address_begin_, p) ∧
      (∀ requested_size, bits.Align requested_size cfg.kSuperPageSize = 0 →
        p.FindChunk cfg requested_size = .ok (.chunk p.address_begin_, p)) ∧
      ∀ requested_size, requested_size < kWord →
        kWord ≤ requested_size + cfg.kSuperPageSize - 1 →
        bits.Align requested_size cfg.kSuperPageSize = 0 := by
  have hzero : bits.Align 0 cfg.kSuperPageSize = 0 := by
    have hpos := cfg.kSuperPageSize_pos
    have hS : cfg.kSuperPageSize < kWord := by
      rw [cfg.kSuperPageSize_eq]
      exact Nat.pow_lt_pow_right (by decide) hv.2
    rw [cfg.align_eq hv, Nat.zero_add, Nat.mod_eq_of_lt (by omega),
      Nat.div_eq_of_lt (by omega), Nat.zero_mul]
  refine ⟨?_, ?_, fun requested_size h1 h2 => cfg.align_wrap hv requested_size h1 h2⟩
  · exact AddressPoolManager.Pool.FindChunk_no_slot cfg hv p hwf 0
      (cfg.need_bits_eq_zero hv 0 hzero)
  · intro requested_size h
    exact AddressPoolManager.Pool.FindChunk_no_slot cfg hv p hwf requested_size
      (cfg.need_bits_eq_zero hv requested_size h)

/-- C28 at the full four-slot pool: a request of size `0` and a request of size
`2 ^ 64 - 1` both return `address_begin_` and change nothing. -/
theorem FindChunk_zero_slots_witness :
    exampleFullPool.FindChunk exampleConfig 0 = .ok (.chunk 2097152, exampleFullPool) ∧
      exampleFullPool.FindChunk exampleConfig 18446744073709551615 =
        .ok (.chunk 2097152, exampleFullPool) ∧
      bits.Align 18446744073709551615 exampleConfig.kSuperPageSize = 0 :=
  ⟨(FindChunk_zero_slots exampleConfig (by decide) exampleFullPool (by decide)).1,
    (FindChunk_zero_slots exampleConfig (by decide) exampleFullPool (by decide)).2.1
      18446744073709551615 (by decide),
    (FindChunk_zero_slots exampleConfig (by decide) exampleFullPool (by decide)).2.2
      18446744073709551615 (by decide) (by decide)⟩

/-! ## C22: the forward-only scan and the naive search -/

theorem naiveRunFree_iff (bitmap : List Bool) (b need : Nat) :
    naiveRunFree bitmap b need = true ↔
      ∀ i, b ≤ i → i < b + need → bitmap[i]? = some false := by
  simp only [naiveRunFree, List.all_eq_true, List.mem_range'_1, beq_iff_eq]
  exact ⟨fun h i h1 h2 => h i ⟨h1, h2⟩, fun h i hi => h i hi.1 hi.2⟩

theorem naiveSearch_spec (bitmap : List Bool) (total need fuel b : Nat)
    (hfuel : total + 1 ≤ fuel + b) (hbelow : ∀ b', b' < b → ¬ FreeRun bitmap total need b') :
    (naiveSearch bitmap total need fuel b = none ∧ ∀ b', ¬ FreeRun bitmap total need b') ∨
      ∃ b0, naiveSearch bitmap total need fuel b = some b0 ∧ FreeRun bitmap total need b0 ∧
        ∀ b', b' < b0 → ¬ FreeRun bitmap total need b' := by
  induction fuel generalizing b with
  | zero =>
    left
    refine ⟨rfl, ?_⟩
    intro b' hb'
    by_cases hlt : b' < b
    · exact hbelow b' hlt hb'
    · have := hb'.1
      omega
  | succ fuel ih =>
    rw [naiveSearch]
    by_cases hgt : b + need > total
    · left
      refine ⟨by simp [hgt], ?_⟩
      intro b' hb'
      by_cases hlt : b' < b
      · exact hbelow b' hlt hb'
      · have := hb'.1
        omega
    · by_cases hfree : naiveRunFree bitmap b need = true
      · right
        exact ⟨b, by simp [hgt, hfree], ⟨by omega, (naiveRunFree_iff _ _ _).mp hfree⟩, hbelow⟩
      · simp only [hgt, hfree, if_false]
        apply ih (b + 1) (by omega)
        intro b' hb' hrun
        rcases Nat.eq_or_lt_of_le (Nat.le_of_lt_succ hb') with he | hl
        · subst he
          exact hfree ((naiveRunFree_iff _ _ _).mpr hrun.2)
        · exact hbelow b' hl hrun

/-- C22 (refinement): on a well-formed pool, for every bitmap and every
`requested_size`, the forward-only scan of `FindChunk` and the naive first-fit search,
which tries the candidate starts `0, 1, 2, ...` and inspects all `need` bits of each
candidate from scratch, return the same result (the same address, or both `0`) and
produce the same final bitmap. -/
theorem FindChunk_eq_naive (cfg : Config) (hv : cfg.Valid) (p : AddressPoolManager.Pool)
    (hwf : p.WF cfg) (requested_size : Nat) :
    p.FindChunk cfg requested_size = naiveFindChunk cfg p requested_size := by
  have hn := naiveSearch_spec p.alloc_bitset_ p.total_bits_ (cfg.need_bits requested_size)
    (p.total_bits_ + 1) 0 (by omega) (fun b' hb' => absurd hb' (Nat.not_lt_zero _))
  unfold naiveFindChunk
  simp only
  rw [show bits.Align requested_size cfg.kSuperPageSize >>> cfg.kSuperPageShift =
    cfg.need_bits requested_size from rfl]
  rcases AddressPoolManager.Pool.FindChunk_spec cfg hv p hwf requested_size with
    ⟨hno, hres⟩ | ⟨b, hb, hleast, hres⟩
  · rcases hn with ⟨hnone, _⟩ | ⟨b0, _, hb0, _⟩
    · rw [hres, hnone]
    · exact absurd hb0 (hno b0)
  · rcases hn with ⟨_, hno⟩ | ⟨b0, hsome, hb0, hleast0⟩
    · exact absurd hb (hno b)
    · have heq : b = b0 := by
        rcases Nat.lt_trichotomy b b0 with h | h | h
        · exact absurd hb (hleast0 b h)
        · exact h
        · exact absurd hb0 (hleast b0 h)
      subst heq
      rw [hres, hsome]

/-- C22 at the 4-slot pool `[free, used, free, free]`: both searches find slot 2 for a
request of two slots. -/
theorem FindChunk_eq_naive_witness :
    naiveFindChunk exampleConfig examplePool 4194304 =
        .ok (.chunk 6291456,
          { examplePool with
            alloc_bitset_ := [false, true, true, true, false, false, false, false] }) ∧
      examplePool.FindChunk exampleConfig 4194304 =
        naiveFindChunk exampleConfig examplePool 4194304 :=
  ⟨by decide, FindChunk_eq_naive exampleConfig (by decide) examplePool (by decide) 4194304⟩

/-! ## The passes of the loop of FindChunk -/

theorem AddressPoolManager.Pool.FindChunk.scanT_fst (b : List Bool)
    (n curr_bit beg_bit : Nat) (found : Bool) :
    (FindChunk.scanT b n curr_bit beg_bit found).1 = FindChunk.scan b n curr_bit beg_bit found := by
  induction n generalizing curr_bit beg_bit found with
  | zero => rfl
  | succ n ih =>
    rw [FindChunk.scanT, FindChunk.scan]
    rcases bitset.test b curr_bit with (_ | _) | f | _
    · exact ih _ _ _
    · exact ih _ _ _
    · rfl
    · rfl

theorem AddressPoolManager.Pool.FindChunk.scanT_snd (b : List Bool)
    (n curr_bit beg_bit : Nat) (found : Bool) (h : curr_bit + n ≤ b.length) :
    (FindChunk.scanT b n curr_bit beg_bit found).2 = List.range' curr_bit n := by
  induction n generalizing curr_bit beg_bit found with
  | zero => rfl
  | succ n ih =>
    have hlt : curr_bit < b.length := by omega
    rw [FindChunk.scanT, List.range'_succ]
    rcases bitset.getElem?_of_lt hlt with hb | hb
    · rw [bitset.test_of_getElem? hb]
      simp only
      rw [ih _ _ _ (by omega)]
    · rw [bitset.test_of_getElem? hb]
      simp only
      rw [ih _ _ _ (by omega)]

theorem AddressPoolManager.Pool.FindChunk.markT_fst (n i : Nat) (b : List Bool) :
    (FindChunk.markT n i b).1 = FindChunk.mark n i b := by
  induction n generalizing i b with
  | zero => rfl
  | succ n ih =>
    rw [FindChunk.markT, FindChunk.mark]
    rcases bitset.test b i with (_ | _) | f | _
    · rcases bitset.set b i with b' | f | _
      · exact ih _ _
      · rfl
      · rfl
    · rfl
    · rfl
    · rfl

theorem AddressPoolManager.Pool.FindChunk.markT_snd (n i : Nat) (b : List Bool)
    (h : ∀ j, i ≤ j → j < i + n → b[j]? = some false) :
    (FindChunk.markT n i b).2 = List.range' i n := by
  induction n generalizing i b with
  | zero => rfl
  | succ n ih =>
    have hb := h i (Nat.le_refl _) (by omega)
    have hlt : i < b.length := (List.getElem?_eq_some_iff.mp hb).1
    rw [FindChunk.markT, bitset.test_of_getElem? hb, List.range'_succ]
    simp only [bitset.set, hlt, if_true]
    rw [ih]
    intro j hj1 hj2
    rw [List.getElem?_set_ne (by omega)]
    exact h j (by omega) (by omega)

/-- The loop is the iteration of its passes. -/
theorem AddressPoolManager.Pool.FindChunk.loop_pass (cfg : Config)
    (p : AddressPoolManager.Pool) (required_size need_bits fuel beg_bit curr_bit : Nat) :
    FindChunk.loop cfg p required_size need_bits (fuel + 1) beg_bit curr_bit =
      match (FindChunk.pass cfg p required_size need_bits beg_bit curr_bit).result with
      | .returned r => r
      | .next beg_bit' curr_bit' =>
        FindChunk.loop cfg p required_size need_bits fuel beg_bit' curr_bit' := by
  rw [FindChunk.loop, FindChunk.pass]
  simp only [FindChunk.scanT_fst, FindChunk.markT_fst]
  split
  · rfl
  · split
    · split
      · split <;> rfl
      · rfl
      · rfl
    · rfl
    · rfl
    · rfl

/-- What one pass does when it starts with `beg_bit ≤ curr_bit ≤ total_bits_` and the
bits of `[beg_bit, curr_bit)` free: it returns `0`, or it scans `[curr_bit, end_bit)` and
then either marks `[beg_bit, end_bit)` and returns its address, or goes on with
`beg_bit` just after the last set bit of the window and `curr_bit = end_bit`. -/
theorem AddressPoolManager.Pool.FindChunk.pass_spec (cfg : Config) (hv : cfg.Valid)
    (p : AddressPoolManager.Pool) (hwf : p.WF cfg) (required_size need : Nat)
    (hreq : need * cfg.kSuperPageSize = required_size) (hlt : required_size < kWord)
    (beg_bit curr_bit : Nat) (h1 : beg_bit ≤ curr_bit) (h2 : curr_bit ≤ p.total_bits_)
    (h3 : ∀ i, beg_bit ≤ i → i < curr_bit → p.alloc_bitset_[i]? = some false) :
    (p.total_bits_ < beg_bit + need ∧
        FindChunk.pass cfg p required_size need beg_bit curr_bit =
          { result := .returned (.ok (.no_chunk, p)), tested := [], marked := [] }) ∨
      (beg_bit + need ≤ p.total_bits_ ∧
        (FindChunk.pass cfg p required_size need beg_bit curr_bit).tested =
          List.range' curr_bit (beg_bit + need - curr_bit) ∧
        ((FreeRun p.alloc_bitset_ p.total_bits_ need beg_bit ∧
            (FindChunk.pass cfg p required_size need beg_bit curr_bit).result =
              .returned (.ok (.chunk (p.address_begin_ + beg_bit * cfg.kSuperPageSize),
                { p with alloc_bitset_ := fillRange true need beg_bit p.alloc_bitset_ })) ∧
            (FindChunk.pass cfg p required_size need beg_bit curr_bit).marked =
              List.range' beg_bit need) ∨
          ∃ q, curr_bit ≤ q ∧ q < beg_bit + need ∧ p.alloc_bitset_[q]? = some true ∧
            (∀ i, q < i → i < beg_bit + need → p.alloc_bitset_[i]? = some false) ∧
            (FindChunk.pass cfg p required_size need beg_bit curr_bit).result =
              .next (q + 1) (beg_bit + need) ∧
            (FindChunk.pass cfg p required_size need beg_bit curr_bit).marked = [])) := by
  have hS := cfg.two_le_size hv
  have htot := hwf.total_mul_lt
  obtain ⟨hlen, hmax, _, _, hend_lt, hend⟩ := hwf
  have hne2 : need * 2 ≤ need * cfg.kSuperPageSize := Nat.mul_le_mul_left _ hS
  have htot2 : p.total_bits_ * 2 ≤ p.total_bits_ * cfg.kSuperPageSize :=
    Nat.mul_le_mul_left _ hS
  have hK : kWord = 2 ^ 64 := rfl
  have hmod : (beg_bit + need) % kWord = beg_bit + need := Nat.mod_eq_of_lt (by omega)
  rw [FindChunk.pass]
  simp only [hmod, FindChunk.scanT_fst, FindChunk.markT_fst]
  by_cases hgt : beg_bit + need > p.total_bits_
  · left
    exact ⟨hgt, by simp only [hgt, if_true]⟩
  · right
    have hsnd := FindChunk.scanT_snd p.alloc_bitset_ (beg_bit + need - curr_bit) curr_bit beg_bit
      true (by omega)
    simp only [hgt, if_false, hsnd]
    refine ⟨by omega, ?_⟩
    rcases FindChunk.scan_spec p.alloc_bitset_ (beg_bit + need - curr_bit) curr_bit beg_bit
        true (by omega) with ⟨hfree, hres⟩ | ⟨j, hj1, hj2, hj3, hj4, hres⟩
    · have hrun : FreeRun p.alloc_bitset_ p.total_bits_ need beg_bit := by
        refine ⟨by omega, ?_⟩
        intro i hi1 hi2
        by_cases hic : i < curr_bit
        · exact h3 i hi1 hic
        · exact hfree i (by omega) (by omega)
      have hsub : beg_bit + need - beg_bit = need := by omega
      have hmul : (beg_bit + need) * cfg.kSuperPageSize ≤
          p.total_bits_ * cfg.kSuperPageSize := Nat.mul_le_mul_right _ (by omega)
      rw [Nat.add_mul] at hmul
      have ha : (p.address_begin_ + beg_bit * cfg.kSuperPageSize) % kWord =
          p.address_begin_ + beg_bit * cfg.kSuperPageSize := Nat.mod_eq_of_lt (by omega)
      have hb : (p.address_begin_ + beg_bit * cfg.kSuperPageSize + required_size) % kWord =
          p.address_begin_ + beg_bit * cfg.kSuperPageSize + required_size :=
        Nat.mod_eq_of_lt (by omega)
      have hle : p.address_begin_ + beg_bit * cfg.kSuperPageSize + required_size ≤
          p.address_end_ := by omega
      simp only [hres, hsub, FindChunk.mark_spec need beg_bit p.alloc_bitset_ hrun.2, ha, hb,
        hle, not_true, if_false, FindChunk.markT_snd need beg_bit p.alloc_bitset_ hrun.2]
      exact ⟨trivial, Or.inl ⟨hrun, trivial, trivial⟩⟩
    · have hcl : curr_bit < beg_bit + need := by omega
      simp only [hres, hcl, if_true]
      refine ⟨trivial, Or.inr ⟨j, hj1, by omega, hj3, ?_, rfl, trivial⟩⟩
      intro i hi1 hi2
      exact hj4 i hi1 (by omega)

/-- At the head of every pass: `beg_bit ≤ curr_bit ≤ total_bits_`, the bits of
`[beg_bit, curr_bit)` are free, no free run starts below `beg_bit`, every pass so far
raised `beg_bit`, and the scans so far have tested exactly the indices below `curr_bit`,
each once and in increasing order. -/
theorem AddressPoolManager.Pool.FindChunk.Head.invariant {cfg : Config} (hv : cfg.Valid)
    {p : AddressPoolManager.Pool} (hwf : p.WF cfg) {required_size need : Nat}
    (hreq : need * cfg.kSuperPageSize = required_size) (hlt : required_size < kWord)
    {k beg_bit curr_bit : Nat} {log : List Nat}
    (h : FindChunk.Head cfg p required_size need k beg_bit curr_bit log) :
    beg_bit ≤ curr_bit ∧ curr_bit ≤ p.total_bits_ ∧
      (∀ i, beg_bit ≤ i → i < curr_bit → p.alloc_bitset_[i]? = some false) ∧
      (∀ b, b < beg_bit → ¬ FreeRun p.alloc_bitset_ p.total_bits_ need b) ∧
      k ≤ beg_bit ∧ log = List.range curr_bit := by
  induction h with
  | start =>
    exact ⟨Nat.le_refl _, Nat.zero_le _, fun i _ hi => absurd hi (Nat.not_lt_zero _),
      fun b hb => absurd hb (Nat.not_lt_zero _), Nat.le_refl _, rfl⟩
  | step hhead hnext ih =>
    rename_i k b c log b' c'
    obtain ⟨h1, h2, h3, h4, h5, h6⟩ := ih
    rcases FindChunk.pass_spec cfg hv p hwf required_size need hreq hlt b c h1 h2 h3 with
      ⟨_, hp⟩ | ⟨hle, htested, ⟨_, hres, _⟩ | ⟨q, hq1, hq2, hq3, hq4, hres, _⟩⟩
    · rw [hp] at hnext
      cases hnext
    · rw [hres] at hnext
      cases hnext
    · rw [hres] at hnext
      injection hnext with hb' hc'
      subst hb' hc'
      refine ⟨by omega, hle, fun i hi1 hi2 => hq4 i (by omega) hi2, ?_, by omega, ?_⟩
      · intro b0 hb0 hrun
        by_cases hbb : b0 < b
        · exact h4 b0 hbb hrun
        · have := hrun.2 q (by omega) (by have := hrun.1; omega)
          rw [hq3] at this
          cases this
      · rw [h6, htested, List.range_eq_range', List.range_eq_range']
        have := List.range'_append_1 0 c (b + need - c)
        rw [Nat.zero_add] at this
        rw [this]
        congr 1
        omega

/-- The call is the loop continued from any of its heads. -/
theorem AddressPoolManager.Pool.FindChunk.Head.loop_eq {cfg : Config}
    {p : AddressPoolManager.Pool} {required_size need : Nat}
    {k beg_bit curr_bit : Nat} {log : List Nat}
    (h : FindChunk.Head cfg p required_size need k beg_bit curr_bit log) (fuel : Nat) :
    FindChunk.loop cfg p required_size need (fuel + k) 0 0 =
      FindChunk.loop cfg p required_size need fuel beg_bit curr_bit := by
  induction h generalizing fuel with
  | start => rfl
  | step hhead hnext ih =>
    rename_i k b c log b' c'
    have := ih (fuel + 1)
    rw [show fuel + (k + 1) = fuel + 1 + k by omega, this, FindChunk.loop_pass, hnext]

/-- With the invariant of the heads, the result of the loop does not depend on the
number of passes it is allowed, once that number exceeds `total_bits_ - curr_bit`. -/
theorem AddressPoolManager.Pool.FindChunk.loop_fuel (cfg : Config) (hv : cfg.Valid)
    (p : AddressPoolManager.Pool) (hwf : p.WF cfg) (required_size need : Nat)
    (hreq : need * cfg.kSuperPageSize = required_size) (hlt : required_size < kWord)
    (fuel fuel' beg_bit curr_bit : Nat) (h1 : beg_bit ≤ curr_bit)
    (h2 : curr_bit ≤ p.total_bits_)
    (h3 : ∀ i, beg_bit ≤ i → i < curr_bit → p.alloc_bitset_[i]? = some false)
    (h4 : ∀ b, b < beg_bit → ¬ FreeRun p.alloc_bitset_ p.total_bits_ need b)
    (h5 : p.total_bits_ - curr_bit < fuel) (h5' : p.total_bits_ - curr_bit < fuel') :
    FindChunk.loop cfg p required_size need fuel beg_bit curr_bit =
      FindChunk.loop cfg p required_size need fuel' beg_bit curr_bit := by
  rcases FindChunk.loop_spec cfg hv p hwf required_size need hreq hlt fuel beg_bit curr_bit
      h1 h2 h3 h4 h5 with ⟨hno, hres⟩ | ⟨b, hb, hleast, hres⟩
  · rcases FindChunk.loop_spec cfg hv p hwf required_size need hreq hlt fuel' beg_bit curr_bit
        h1 h2 h3 h4 h5' with ⟨_, hres'⟩ | ⟨b', hb', _, _⟩
    · rw [hres, hres']
    · exact absurd hb' (hno b')
  · rcases FindChunk.loop_spec cfg hv p hwf required_size need hreq hlt fuel' beg_bit curr_bit
        h1 h2 h3 h4 h5' with ⟨hno', _⟩ | ⟨b', hb', hleast', hres'⟩
    · exact absurd hb (hno' b)
    · have heq : b = b' := by
        rcases Nat.lt_trichotomy b b' with h | h | h
        · exact absurd hb (hleast' b h)
        · exact h
        · exact absurd hb' (hleast b' h)
      subst heq
      rw [hres, hres']

/-! ## C23, C24, C25: termination, the cursor, the assertions -/

/-- C23 (termination): on a well-formed pool, for every bitmap and every
`requested_size`, `FindChunk` ends with a definite result, `return 0` or
`return address`; allowing the `while (true)` loop more than `total_bits_ + 1` passes
does not change the result; at the head of a pass at most `total_bits_` passes have been
made, and the call is the loop continued from that head; and a pass that does not return
strictly increases `beg_bit`. -/
theorem FindChunk_terminates (cfg : Config) (hv : cfg.Valid) (p : AddressPoolManager.Pool)
    (hwf : p.WF cfg) (requested_size : Nat) :
    (∃ r p', p.FindChunk cfg requested_size = .ok (r, p') ∧
        (r = .no_chunk ∨ ∃ a, r = .chunk a)) ∧
      (∀ fuel, p.total_bits_ + 1 ≤ fuel →
        AddressPoolManager.Pool.FindChunk.loop cfg p
            (bits.Align requested_size cfg.kSuperPageSize) (cfg.need_bits requested_size)
            fuel 0 0 =
          p.FindChunk cfg requested_size) ∧
      ∀ k beg_bit curr_bit log,
        AddressPoolManager.Pool.FindChunk.Head cfg p
            (bits.Align requested_size cfg.kSuperPageSize) (cfg.need_bits requested_size)
            k beg_bit curr_bit log →
          k ≤ p.total_bits_ ∧
          p.FindChunk cfg requested_size =
            AddressPoolManager.Pool.FindChunk.loop cfg p
              (bits.Align requested_size cfg.kSuperPageSize) (cfg.need_bits requested_size)
              (p.total_bits_ + 1 - k) beg_bit curr_bit ∧
          ∀ beg_bit' curr_bit',
            (AddressPoolManager.Pool.FindChunk.pass cfg p
                (bits.Align requested_size cfg.kSuperPageSize)
                (cfg.need_bits requested_size) beg_bit curr_bit).result =
              .next beg_bit' curr_bit' →
            beg_bit < beg_bit' := by
  have hreq := cfg.need_bits_mul hv requested_size
  have hlt := cfg.align_lt hv requested_size
  refine ⟨?_, ?_, ?_⟩
  · rcases AddressPoolManager.Pool.FindChunk_spec cfg hv p hwf requested_size with
      ⟨_, hres⟩ | ⟨b, _, _, hres⟩
    · exact ⟨_, _, hres, Or.inl rfl⟩
    · exact ⟨_, _, hres, Or.inr ⟨_, rfl⟩⟩
  · intro fuel hfuel
    exact AddressPoolManager.Pool.FindChunk.loop_fuel cfg hv p hwf _ _ hreq hlt fuel
      (p.total_bits_ + 1) 0 0 (Nat.le_refl _) (Nat.zero_le _)
      (fun i _ hi => absurd hi (Nat.not_lt_zero _))
      (fun b hb => absurd hb (Nat.not_lt_zero _)) (by omega) (by omega)
  · intro k b c log hhead
    obtain ⟨h1, h2, h3, h4, h5, _⟩ := hhead.invariant hv hwf hreq hlt
    refine ⟨by omega, ?_, ?_⟩
    · have := hhead.loop_eq (p.total_bits_ + 1 - k)
      rw [show p.total_bits_ + 1 - k + k = p.total_bits_ + 1 by omega] at this
      exact this
    · intro b' c' hnext
      rcases AddressPoolManager.Pool.FindChunk.pass_spec cfg hv p hwf _ _ hreq hlt b c h1 h2
          h3 with ⟨_, hp⟩ | ⟨_, _, ⟨_, hres, _⟩ | ⟨q, hq1, _, _, _, hres, _⟩⟩
      · rw [hp] at hnext
        cases hnext
      · rw [hres] at hnext
        cases hnext
      · rw [hres] at hnext
        injection hnext with hb' _
        omega

/-- C23 at the 4-slot pool `[free, used, free, free]` and a request of two slots: the
first pass moves `beg_bit` from 0 to 2, the second pass returns. -/
theorem FindChunk_terminates_witness :
    (AddressPoolManager.Pool.FindChunk.pass exampleConfig examplePool
        (bits.Align 4194304 exampleConfig.kSuperPageSize)
        (exampleConfig.need_bits 4194304) 0 0).result = .next 2 2 ∧
      (∃ r p', examplePool.FindChunk exampleConfig 4194304 = .ok (r, p') ∧
        (r = .no_chunk ∨ ∃ a, r = .chunk a)) ∧
      (0 : Nat) < 2 :=
  ⟨by decide,
    (FindChunk_terminates exampleConfig (by decide) examplePool (by decide) 4194304).1,
    ((FindChunk_terminates exampleConfig (by decide) examplePool (by decide) 4194304).2.2
      0 0 0 [] .start).2.2 2 2 (by decide)⟩

/-- C24 (forward-only cursor): on a well-formed pool, at the head of every pass of the
loop of `FindChunk`, `beg_bit ≤ curr_bit`, every bit of `[beg_bit, curr_bit)` is free, and
the scans so far have tested exactly the indices `0 .. curr_bit - 1` once each, in
increasing order; the scan of the pass tests only indices from `curr_bit` on, so no index
is tested twice; and a pass that does not return leaves `curr_bit' ≥ curr_bit`, has
tested `curr_bit .. curr_bit' - 1`, and sets `beg_bit' = q + 1` for the last set bit `q`
of that window. -/
theorem FindChunk_cursor_discipline (cfg : Config) (hv : cfg.Valid)
    (p : AddressPoolManager.Pool) (hwf : p.WF cfg) (requested_size : Nat)
    (k beg_bit curr_bit : Nat) (log : List Nat)
    (hhead : AddressPoolManager.Pool.FindChunk.Head cfg p
      (bits.Align requested_size cfg.kSuperPageSize) (cfg.need_bits requested_size)
      k beg_bit curr_bit log) :
    beg_bit ≤ curr_bit ∧
      (∀ i, beg_bit ≤ i → i < curr_bit → p.alloc_bitset_[i]? = some false) ∧
      log = List.range curr_bit ∧
      (log ++ (AddressPoolManager.Pool.FindChunk.pass cfg p
        (bits.Align requested_size cfg.kSuperPageSize) (cfg.need_bits requested_size)
        beg_bit curr_bit).tested).Nodup ∧
      ∀ beg_bit' curr_bit',
        (AddressPoolManager.Pool.FindChunk.pass cfg p
            (bits.Align requested_size cfg.kSuperPageSize) (cfg.need_bits requested_size)
            beg_bit curr_bit).result = .next beg_bit' curr_bit' →
          curr_bit ≤ curr_bit' ∧
          (AddressPoolManager.Pool.FindChunk.pass cfg p
              (bits.Align requested_size cfg.kSuperPageSize)
              (cfg.need_bits requested_size) beg_bit curr_bit).tested =
            List.range' curr_bit (curr_bit' - curr_bit) ∧
          ∃ q, curr_bit ≤ q ∧ q < curr_bit' ∧ p.alloc_bitset_[q]? = some true ∧
            (∀ i, q < i → i < curr_bit' → p.alloc_bitset_[i]? = some false) ∧
            beg_bit' = q + 1 := by
  have hreq := cfg.need_bits_mul hv requested_size
  have hlt := cfg.align_lt hv requested_size
  obtain ⟨h1, h2, h3, _, _, h6⟩ := hhead.invariant hv hwf hreq hlt
  have hspec := AddressPoolManager.Pool.FindChunk.pass_spec cfg hv p hwf _ _ hreq hlt
    beg_bit curr_bit h1 h2 h3
  refine ⟨h1, h3, h6, ?_, ?_⟩
  · rcases hspec with ⟨_, hp⟩ | ⟨_, htested, _⟩
    · rw [hp, h6]
      simp only [List.append_nil]
      exact List.nodup_range _
    · rw [htested, h6, List.range_eq_range']
      have := List.range'_append_1 0 curr_bit
        (beg_bit + cfg.need_bits requested_size - curr_bit)
      rw [Nat.zero_add] at this
      rw [this]
      exact List.nodup_range' _ _
  · intro b' c' hnext
    rcases hspec with ⟨_, hp⟩ | ⟨_, htested, ⟨_, hres, _⟩ | ⟨q, hq1, hq2, hq3, hq4, hres, _⟩⟩
    · rw [hp] at hnext
      cases hnext
    · rw [hres] at hnext
      cases hnext
    · rw [hres] at hnext
      injection hnext with hb' hc'
      subst hb' hc'
      exact ⟨by omega, htested, q, hq1, hq2, hq3, hq4, rfl⟩

/-- C24 at the 4-slot pool `[free, used, free, free]` and a request of two slots, at the
head of the second pass: `beg_bit = curr_bit = 2` after the set bit 1, indices 0 and 1
tested. -/
theorem FindChunk_cursor_discipline_witness :
    (AddressPoolManager.Pool.FindChunk.pass exampleConfig examplePool
        (bits.Align 4194304 exampleConfig.kSuperPageSize)
        (exampleConfig.need_bits 4194304) 0 0).tested = [0, 1] ∧
      (2 : Nat) ≤ 2 ∧
      ([] ++ (AddressPoolManager.Pool.FindChunk.pass exampleConfig examplePool
        (bits.Align 4194304 exampleConfig.kSuperPageSize)
        (exampleConfig.need_bits 4194304) 0 0).tested) = List.range 2 :=
  ⟨by decide,
    (FindChunk_cursor_discipline exampleConfig (by decide) examplePool (by decide) 4194304
      1 2 2 _ (.step .start (by decide))).1,
    (FindChunk_cursor_discipline exampleConfig (by decide) examplePool (by decide) 4194304
      1 2 2 _ (.step .start (by decide))).2.2.1⟩

/-- C25 (assertion validity): on a well-formed pool (so `total_bits_ ≤ kMaxBits`, the
capacity of the bitset), for every bitmap and every `requested_size`, `FindChunk` is
never stopped: in particular `DCHECK(!alloc_bitset_.test(i))` never fails; and at every
pass of the loop, the indices tested by the scans so far, the indices tested by the scan
of the pass and the indices tested and set by its marking loop are all below
`total_bits_`, the marked ones being free in the bitmap before the call. -/
theorem FindChunk_assertions_hold (cfg : Config) (hv : cfg.Valid)
    (p : AddressPoolManager.Pool) (hwf : p.WF cfg) (requested_size : Nat) :
    (∃ r p', p.FindChunk cfg requested_size = .ok (r, p')) ∧
      (∀ f, p.FindChunk cfg requested_size ≠ .fatal f) ∧
      p.total_bits_ ≤ cfg.kMaxBits ∧ p.alloc_bitset_.length = cfg.kMaxBits ∧
      ∀ k beg_bit curr_bit log,
        AddressPoolManager.Pool.FindChunk.Head cfg p
            (bits.Align requested_size cfg.kSuperPageSize) (cfg.need_bits requested_size)
            k beg_bit curr_bit log →
          (∀ i ∈ log, i < p.total_bits_) ∧
          (∀ i ∈ (AddressPoolManager.Pool.FindChunk.pass cfg p
              (bits.Align requested_size cfg.kSuperPageSize)
              (cfg.need_bits requested_size) beg_bit curr_bit).tested, i < p.total_bits_) ∧
          ∀ i ∈ (AddressPoolManager.Pool.FindChunk.pass cfg p
              (bits.Align requested_size cfg.kSuperPageSize)
              (cfg.need_bits requested_size) beg_bit curr_bit).marked,
            i < p.total_bits_ ∧ p.alloc_bitset_[i]? = some false := by
  have hreq := cfg.need_bits_mul hv requested_size
  have hlt := cfg.align_lt hv requested_size
  have hok : ∃ r p', p.FindChunk cfg requested_size = .ok (r, p') := by
    rcases AddressPoolManager.Pool.FindChunk_spec cfg hv p hwf requested_size with
      ⟨_, hres⟩ | ⟨b, _, _, hres⟩
    · exact ⟨_, _, hres⟩
    · exact ⟨_, _, hres⟩
  refine ⟨hok, ?_, hwf.2.1, hwf.1, ?_⟩
  · intro f hf
    obtain ⟨r, p', hres⟩ := hok
    rw [hres] at hf
    cases hf
  · intro k b c log hhead
    obtain ⟨h1, h2, h3, _, _, h6⟩ := hhead.invariant hv hwf hreq hlt
    refine ⟨?_, ?_, ?_⟩
    · intro i hi
      rw [h6, List.mem_range] at hi
      omega
    · intro i hi
      rcases AddressPoolManager.Pool.FindChunk.pass_spec cfg hv p hwf _ _ hreq hlt b c h1 h2
          h3 with ⟨_, hp⟩ | ⟨hle, htested, _⟩
      · rw [hp] at hi
        cases hi
      · rw [htested, List.mem_range'_1] at hi
        omega
    · intro i hi
      rcases AddressPoolManager.Pool.FindChunk.pass_spec cfg hv p hwf _ _ hreq hlt b c h1 h2
          h3 with ⟨_, hp⟩ | ⟨hle, _, ⟨hrun, _, hmarked⟩ | ⟨q, _, _, _, _, _, hmarked⟩⟩
      · rw [hp] at hi
        cases hi
      · rw [hmarked, List.mem_range'_1] at hi
        exact ⟨by omega, hrun.2 i hi.1 hi.2⟩
      · rw [hmarked] at hi
        cases hi

/-- C25 at the 4-slot pool `[free, used, free, free]` and a request of two slots: the
second pass tests and marks the indices 2 and 3. -/
theorem FindChunk_assertions_hold_witness :
    (AddressPoolManager.Pool.FindChunk.pass exampleConfig examplePool
        (bits.Align 4194304 exampleConfig.kSuperPageSize)
        (exampleConfig.need_bits 4194304) 2 2).marked = [2, 3] ∧
      (∃ r p', examplePool.FindChunk exampleConfig 4194304 = .ok (r, p')) ∧
      ∀ i ∈ (AddressPoolManager.Pool.FindChunk.pass exampleConfig examplePool
          (bits.Align 4194304 exampleConfig.kSuperPageSize)
          (exampleConfig.need_bits 4194304) 2 2).marked,
        i < examplePool.total_bits_ ∧ examplePool.alloc_bitset_[i]? = some false :=
  ⟨by decide,
    (FindChunk_assertions_hold exampleConfig (by decide) examplePool (by decide) 4194304).1,
    ((FindChunk_assertions_hold exampleConfig (by decide) examplePool (by decide)
      4194304).2.2.2.2 1 2 2 _ (.step .start (by decide))).2.2⟩

/-! ## C29: occupancy stays inside the pool -/

theorem AddressPoolManager.Pool.WF.of_sameObject {cfg : Config}
    {p p' : AddressPoolManager.Pool} (hwf : p.WF cfg) (h : p.SameObject p') : p'.WF cfg := by
  obtain ⟨h1, h2, h3, h4, h5, h6⟩ := hwf
  obtain ⟨ht, hb, he, hl⟩ := h
  exact ⟨by rw [hl, h1], by rw [ht]; exact h2, by rw [hb]; exact h3, by rw [hb, he]; exact h4,
    by rw [he]; exact h5, by rw [he, hb, ht]; exact h6⟩

/-- The clearing loop sets no bit. -/
theorem AddressPoolManager.Pool.FreeChunk.clear_mono (n i : Nat) (b b' : List Bool)
    (h : FreeChunk.clear n i b = .ok b') (j : Nat) (hj : b'[j]? = some true) :
    b[j]? = some true := by
  induction n generalizing i b with
  | zero =>
    rw [FreeChunk.clear] at h
    injection h with h
    rw [h]
    exact hj
  | succ n ih =>
    rw [FreeChunk.clear] at h
    rcases ht : bitset.test b i with (_ | _) | f | _
    · rw [ht] at h
      cases h
    · rw [ht] at h
      by_cases hlt : i < b.length
      · simp only [bitset.reset, hlt, if_true] at h
        have hset := ih (i + 1) _ h
        by_cases hij : i = j
        · subst hij
          rw [List.getElem?_set_self hlt] at hset
          cases hset
        · rw [List.getElem?_set_ne hij] at hset
          exact hset
      · simp only [bitset.reset, hlt, if_false] at h
        cases h
    · rw [ht] at h
      cases h
    · rw [ht] at h
      cases h

theorem AddressPoolManager.Pool.FreeChunk_mono (cfg : Config)
    (p : AddressPoolManager.Pool) (address free_size : Nat) (p' : AddressPoolManager.Pool)
    (h : p.FreeChunk cfg address free_size = .ok p') (j : Nat)
    (hj : p'.alloc_bitset_[j]? = some true) : p.alloc_bitset_[j]? = some true := by
  unfold AddressPoolManager.Pool.FreeChunk at h
  simp only at h
  split at h
  · cases h
  · split at h
    · cases h
    · split at h
      · cases h
      · split at h
        · rename_i b hb
          injection h with h
          subst h
          exact FreeChunk.clear_mono _ _ _ _ hb j hj
        · cases h
        · cases h

theorem AddressPoolManager.Pool.TailClear.of_mono {p p' : AddressPoolManager.Pool}
    (htail : p.TailClear) (hsame : p.SameObject p')
    (hmono : ∀ j, p.total_bits_ ≤ j → p'.alloc_bitset_[j]? = some true →
      p.alloc_bitset_[j]? = some true) : p'.TailClear := by
  intro i hi hti
  rw [hsame.1] at hti
  rcases bitset.getElem?_of_lt hi with hc | hc
  · have h1 := hmono i hti hc
    rw [hsame.2.2.2] at hi
    rw [htail i hi hti] at h1
    cases h1
  · exact hc

theorem AddressPoolManager.Pool.call_inv (cfg : Config) (hv : cfg.Valid)
    (p p' : AddressPoolManager.Pool) (c : PoolCall) (hwf : p.WF cfg) (htail : p.TailClear)
    (h : p.call cfg c = .ok p') : p'.WF cfg ∧ p'.TailClear ∧ p.SameObject p' := by
  cases c with
  | FindChunk requested_size =>
    simp only [AddressPoolManager.Pool.call] at h
    split at h
    · rename_i r p1 hfind
      injection h with h
      subst h
      have hsame := AddressPoolManager.Pool.FindChunk_sameObject cfg p requested_size r p1 hfind
      refine ⟨hwf.of_sameObject hsame, htail.of_mono hsame ?_, hsame⟩
      intro j hj hset
      rcases AddressPoolManager.Pool.FindChunk_spec cfg hv p hwf requested_size with
        ⟨_, hres⟩ | ⟨b, hb, _, hres⟩
      · rw [hres] at hfind
        injection hfind with hfind
        injection hfind with _ hp
        rw [← hp] at hset
        exact hset
      · rw [hres] at hfind
        injection hfind with hfind
        injection hfind with _ hp
        rw [← hp] at hset
        simp only at hset
        rw [fillRange_getElem?, if_neg (by have := hb.1; omega)] at hset
        exact hset
    · cases h
    · cases h
  | FreeChunk address free_size =>
    simp only [AddressPoolManager.Pool.call] at h
    have hsame := AddressPoolManager.Pool.FreeChunk_sameObject cfg p address free_size p' h
    exact ⟨hwf.of_sameObject hsame, htail.of_mono hsame
      (fun j _ hset => AddressPoolManager.Pool.FreeChunk_mono cfg p address free_size p' h j
        hset), hsame⟩

theorem AddressPoolManager.Pool.calls_inv (cfg : Config) (hv : cfg.Valid) (cs : List PoolCall) :
    ∀ (p p' : AddressPoolManager.Pool), p.WF cfg → p.TailClear →
      AddressPoolManager.Pool.calls cfg p cs = .ok p' →
      p'.WF cfg ∧ p'.TailClear ∧ p.SameObject p' := by
  induction cs with
  | nil =>
    intro p p' hwf htail h
    rw [AddressPoolManager.Pool.calls] at h
    injection h with h
    subst h
    exact ⟨hwf, htail, rfl, rfl, rfl, rfl⟩
  | cons c rest ih =>
    intro p p' hwf htail h
    rw [AddressPoolManager.Pool.calls] at h
    split at h
    · rename_i p1 hc
      obtain ⟨hwf1, htail1, hs1⟩ := AddressPoolManager.Pool.call_inv cfg hv p p1 c hwf htail hc
      obtain ⟨hwf', htail', hs'⟩ := ih p1 p' hwf1 htail1 h
      exact ⟨hwf', htail', hs'.1.trans hs1.1, hs'.2.1.trans hs1.2.1,
        hs'.2.2.1.trans hs1.2.2.1, hs'.2.2.2.trans hs1.2.2.2⟩
    · cases h
    · cases h

theorem AddressPoolManager.Pool.Reachable.tail_clear {cfg : Config} (hv : cfg.Valid)
    {ptr length : Nat} (hptr : ptr < kWord) (hlength : length < kWord)
    {p : AddressPoolManager.Pool} (h : p.Reachable cfg ptr length) :
    p.WF cfg ∧ p.TailClear ∧ p.total_bits_ = length / cfg.kSuperPageSize ∧
      p.address_begin_ = ptr := by
  obtain ⟨p0, cs, hctor, hcs⟩ := h
  obtain ⟨hwf0, _, htot0, hbeg0, _⟩ :=
    AddressPoolManager.Pool.Pool_ok cfg ptr length hptr hlength p0 hctor
  have hfree0 := AddressPoolManager.Pool.Pool_allFree cfg ptr length hptr hlength p0 hctor
  have htail0 : p0.TailClear := fun i hi _ => hfree0 i hi
  obtain ⟨hwf, htail, hsame⟩ :=
    AddressPoolManager.Pool.calls_inv cfg hv cs p0 p hwf0 htail0 hcs
  exact ⟨hwf, htail, hsame.1.trans htot0, hsame.2.1.trans hbeg0⟩

/-- C29 (occupancy stays inside the pool): in every pool state reachable from the pool
constructed for a region `(ptr, length)` by calls of `FindChunk` and `FreeChunk` that
returned, every set bit of `alloc_bitset_` has an index below `total_bits_`: the bits
of `[total_bits_, kMaxBits)` are all clear. -/
theorem occupancy_inside_pool (cfg : Config) (hv : cfg.Valid) (ptr length : Nat)
    (hptr : ptr < kWord) (hlength : length < kWord) (p : AddressPoolManager.Pool)
    (hreach : p.Reachable cfg ptr length) :
    (∀ i : Nat, p.alloc_bitset_[i]? = some true → i < p.total_bits_) ∧
      (∀ i, p.total_bits_ ≤ i → i < cfg.kMaxBits → p.alloc_bitset_[i]? = some false) ∧
      p.total_bits_ = length / cfg.kSuperPageSize := by
  obtain ⟨hwf, htail, htot, _⟩ := hreach.tail_clear hv hptr hlength
  refine ⟨?_, ?_, htot⟩
  · intro i hi
    by_contra hge
    have hlt : i < p.alloc_bitset_.length := (List.getElem?_eq_some_iff.mp hi).1
    rw [htail i hlt (Nat.le_of_not_lt hge)] at hi
    cases hi
  · intro i h1 h2
    exact htail i (by rw [hwf.1]; exact h2) h1

/-- C29 at the pool constructed for `(0x200000, 4 * 0x200000)` after allocating three
slots and one slot and freeing the first two slots. -/
theorem occupancy_inside_pool_witness :
    AddressPoolManager.Pool.calls exampleConfig
        { examplePool with alloc_bitset_ := bitset.resetAll 8 }
        [.FindChunk 6291456, .FindChunk 2097152, .FreeChunk 2097152 4194304] =
      .ok { examplePool with
        alloc_bitset_ := [false, false, true, true, false, false, false, false] } ∧
    (∀ i : Nat, [false, false, true, true, false, false, false, false][i]? = some true →
      i < 4) :=
  ⟨by decide,
    (occupancy_inside_pool exampleConfig (by decide) 2097152 8388608 (by decide) (by decide)
      { examplePool with
        alloc_bitset_ := [false, false, true, true, false, false, false, false] }
      ⟨{ examplePool with alloc_bitset_ := bitset.resetAll 8 },
        [.FindChunk 6291456, .FindChunk 2097152, .FreeChunk 2097152 4194304],
        by decide, by decide⟩).1⟩

/-! ## C26: outstanding allocations do not overlap -/

/-- A clearing loop that returned found all its bits set. -/
theorem AddressPoolManager.Pool.FreeChunk.clear_used (n i : Nat) (b b' : List Bool)
    (h : FreeChunk.clear n i b = .ok b') : UsedRun b n i := by
  intro j hj1 hj2
  by_contra hne
  obtain ⟨f, hf⟩ := FreeChunk.clear_fatal n i b j hj1 hj2 hne
  rw [hf] at h
  cases h

/-- A `FreeChunk` that returned on a well-formed pool with no bit set at or above
`total_bits_` was called on the run of a slot `b`, entirely occupied and below
`total_bits_`, and cleared exactly that run. -/
theorem AddressPoolManager.Pool.FreeChunk_ok (cfg : Config) (hv : cfg.Valid)
    (p : AddressPoolManager.Pool) (hwf : p.WF cfg) (htail : p.TailClear)
    (address free_size : Nat) (haddr : address < kWord) (p' : AddressPoolManager.Pool)
    (h : p.FreeChunk cfg address free_size = .ok p') :
    ∃ b, address = p.address_begin_ + b * cfg.kSuperPageSize ∧
      b + cfg.need_bits free_size ≤ p.total_bits_ ∧
      UsedRun p.alloc_bitset_ (cfg.need_bits free_size) b ∧
      p' = { p with alloc_bitset_ :=
              fillRange false (cfg.need_bits free_size) b p.alloc_bitset_ } := by
  have hpre : ¬ (address &&& cfg.kSuperPageOffsetMask ≠ 0 ∨ address < p.address_begin_ ∨
      address + bits.Align free_size cfg.kSuperPageSize > p.address_end_) := by
    intro hviol
    obtain ⟨f, hf⟩ := AddressPoolManager.Pool.FreeChunk_violation cfg hv p hwf htail address
      free_size haddr hviol
    rw [hf] at h
    cases h
  have ha : address &&& cfg.kSuperPageOffsetMask = 0 := by
    by_contra hc
    exact hpre (Or.inl hc)
  have hb : p.address_begin_ ≤ address := by
    by_contra hc
    exact hpre (Or.inr (Or.inl (Nat.lt_of_not_le hc)))
  have he : address + bits.Align free_size cfg.kSuperPageSize ≤ p.address_end_ := by
    by_contra hc
    exact hpre (Or.inr (Or.inr (Nat.lt_of_not_le hc)))
  obtain ⟨h1, h2⟩ :=
    AddressPoolManager.Pool.slot_of_address cfg hv p hwf address free_size ha hb he
  obtain ⟨h3, h4⟩ := hwf.range_ok hv _ free_size h2
  refine ⟨_, h1, h2, ?_⟩
  rw [h1, AddressPoolManager.Pool.FreeChunk_unfold cfg hv p hwf _ free_size h3 h4] at h
  split at h
  · rename_i bitmap hclear
    have hused := FreeChunk.clear_used _ _ _ _ hclear
    rw [FreeChunk.clear_spec _ _ _ hused] at hclear
    injection hclear with hclear
    injection h with h
    subst hclear
    exact ⟨hused, h.symm⟩
  · cases h
  · cases h

/-- C30 (freed space is reusable at or below where it was): on a well-formed pool with no
bit set at or above `total_bits_`, for every `uintptr_t address` and every `size` for
which `FreeChunk(address, size)` returns, the `FindChunk(size)` that follows returns
through `return address` an address `a ≤ address`; this holds in particular when
`Align(size, kSuperPageSize) ≥ kSuperPageSize`. -/
theorem FreeChunk_then_FindChunk (cfg : Config) (hv : cfg.Valid)
    (p : AddressPoolManager.Pool) (hwf : p.WF cfg) (htail : p.TailClear)
    (address size : Nat) (haddr : address < kWord) (p' : AddressPoolManager.Pool)
    (hfree : p.FreeChunk cfg address size = .ok p') :
    ∃ a p'', p'.FindChunk cfg size = .ok (.chunk a, p'') ∧ a ≤ address := by
  obtain ⟨b, h1, h2, _, h4⟩ := AddressPoolManager.Pool.FreeChunk_ok cfg hv p hwf htail
    address size haddr p' hfree
  have hlen := hwf.1
  have hmax := hwf.2.1
  have hwf' : p'.WF cfg := by
    rw [h4]
    exact hwf.with_bitset _ (fillRange_length _ _ _ _)
  have hrun : FreeRun p'.alloc_bitset_ p'.total_bits_ (cfg.need_bits size) b := by
    rw [h4]
    refine ⟨h2, ?_⟩
    intro i hi1 hi2
    show (fillRange false _ b p.alloc_bitset_)[i]? = some false
    rw [fillRange_getElem?, if_pos ⟨hi1, hi2, by omega⟩]
  rcases AddressPoolManager.Pool.FindChunk_spec cfg hv p' hwf' size with
    ⟨hno, _⟩ | ⟨b0, _, hleast, hres⟩
  · exact absurd hrun (hno b)
  · refine ⟨_, _, hres, ?_⟩
    have hb0 : b0 ≤ b := by
      by_contra hc
      exact hleast b (Nat.lt_of_not_le hc) hrun
    have hbeg : p'.address_begin_ = p.address_begin_ := by rw [h4]
    rw [h1, hbeg]
    exact Nat.add_le_add_left (Nat.mul_le_mul_right _ hb0) _

/-- C30 at the pool `[free, free, used, used]`: the two slots freed at `0x600000` are
allocated again two slots lower, at `0x200000`. -/
theorem FreeChunk_then_FindChunk_witness :
    AddressPoolManager.Pool.FreeChunk exampleConfig
        { examplePool with
          alloc_bitset_ := [false, false, true, true, false, false, false, false] }
        6291456 4194304 = .ok { examplePool with alloc_bitset_ := bitset.resetAll 8 } ∧
      AddressPoolManager.Pool.FindChunk exampleConfig
          { examplePool with alloc_bitset_ := bitset.resetAll 8 } 4194304 =
        .ok (.chunk 2097152,
          { examplePool with
            alloc_bitset_ := [true, true, false, false, false, false, false, false] }) ∧
      ∃ a p'', AddressPoolManager.Pool.FindChunk exampleConfig
          { examplePool with alloc_bitset_ := bitset.resetAll 8 } 4194304 =
            .ok (.chunk a, p'') ∧
        a ≤ 6291456 :=
  ⟨by decide, by decide,
    FreeChunk_then_FindChunk exampleConfig (by decide)
      { examplePool with
        alloc_bitset_ := [false, false, true, true, false, false, false, false] }
      (by decide) (by decide) 6291456 4194304 (by decide)
      { examplePool with alloc_bitset_ := bitset.resetAll 8 } (by decide)⟩

/-! ## C32: the alignment checks of Add and of the Pool constructor -/

/-- The sum `ptr + length` as a word is a multiple of the super page size exactly when
the sum itself is. -/
theorem Config.and_mask_word (cfg : Config) (hv : cfg.Valid) (x : Nat) :
    (x % kWord) &&& cfg.kSuperPageOffsetMask = x % cfg.kSuperPageSize := by
  rw [cfg.and_mask]
  exact Nat.mod_mod_of_dvd x ⟨2 ^ (64 - cfg.kSuperPageShift), by
    rw [cfg.kWord_eq hv, Nat.mul_comm]⟩

/-- With `ptr` on a super page boundary, `ptr + length` as a word is on one exactly when
`length` is. -/
theorem Config.and_mask_sum (cfg : Config) (hv : cfg.Valid) (ptr length : Nat)
    (h : ptr &&& cfg.kSuperPageOffsetMask = 0) :
    ((ptr + length) % kWord) &&& cfg.kSuperPageOffsetMask = 0 ↔
      length &&& cfg.kSuperPageOffsetMask = 0 := by
  rw [cfg.and_mask] at h
  rw [cfg.and_mask_word hv, cfg.and_mask, Nat.add_mod, h, Nat.zero_add, Nat.mod_mod]

/-- A failed `CHECK` in the loop of `Add` is a failed `CHECK` of the Pool constructor. -/
theorem AddressPoolManager.Add.loop_check (cfg : Config) (ptr length : Nat)
    (pools_ : List (Option AddressPoolManager.Pool)) (n i : Nat)
    (h : AddressPoolManager.Add.loop cfg ptr length pools_ n i = .fatal .check) :
    AddressPoolManager.Pool.Pool cfg ptr length = .fatal .check := by
  induction n generalizing i with
  | zero => simp [AddressPoolManager.Add.loop] at h
  | succ n ih =>
    rw [AddressPoolManager.Add.loop] at h
    split at h
    · split at h
      · simp at h
      · next f hf => rw [hf, Result.fatal.inj h]
      · simp at h
    · exact ih _ h
    · simp at h

/-- C32: `Add` and the Pool constructor agree on alignment.  For every `ptr` and `length`,
with the sum taken modulo `2 ^ 64`, the conditions of the two `DCHECK`s of `Add`
(lines 30-31: `ptr` and `ptr + length` have no bit of `kSuperPageOffsetMask`) hold if and
only if the conditions of the two alignment `CHECK`s of the constructor (lines 76-77:
`ptr` and `length` have no bit of `kSuperPageOffsetMask`) hold.  Hence, for arguments that
pass the checks of `Add`, a `CHECK` that stops the constructor is
`CHECK_LE(total_bits_, kMaxBits)`, and a `CHECK` that stops a call of `Add` on any table
is that one too: the alignment checks of the constructor never fail under `Add`. -/
theorem Add_alignment_agrees (cfg : Config) (hv : cfg.Valid) (ptr length : Nat) :
    ((ptr &&& cfg.kSuperPageOffsetMask = 0 ∧
        ((ptr + length) % kWord) &&& cfg.kSuperPageOffsetMask = 0) ↔
      (ptr &&& cfg.kSuperPageOffsetMask = 0 ∧ length &&& cfg.kSuperPageOffsetMask = 0)) ∧
    (ptr &&& cfg.kSuperPageOffsetMask = 0 →
      ((ptr + length) % kWord) &&& cfg.kSuperPageOffsetMask = 0 →
      AddressPoolManager.Pool.Pool cfg ptr length = .fatal .check →
      cfg.kMaxBits < length / cfg.kSuperPageSize) ∧
    (∀ m : AddressPoolManager, m.Add cfg ptr length = .fatal .check →
      cfg.kMaxBits < length / cfg.kSuperPageSize) := by
  have hiff : (ptr &&& cfg.kSuperPageOffsetMask = 0 ∧
        ((ptr + length) % kWord) &&& cfg.kSuperPageOffsetMask = 0) ↔
      (ptr &&& cfg.kSuperPageOffsetMask = 0 ∧ length &&& cfg.kSuperPageOffsetMask = 0) :=
    ⟨fun h => ⟨h.1, (cfg.and_mask_sum hv ptr length h.1).1 h.2⟩,
      fun h => ⟨h.1, (cfg.and_mask_sum hv ptr length h.1).2 h.2⟩⟩
  have hctor : ptr &&& cfg.kSuperPageOffsetMask = 0 →
      ((ptr + length) % kWord) &&& cfg.kSuperPageOffsetMask = 0 →
      AddressPoolManager.Pool.Pool cfg ptr length = .fatal .check →
      cfg.kMaxBits < length / cfg.kSuperPageSize := by
    intro h1 h2 hc
    have h3 := (hiff.1 ⟨h1, h2⟩).2
    by_contra hle
    have hle' : length / cfg.kSuperPageSize ≤ cfg.kMaxBits := Nat.le_of_not_lt hle
    simp only [AddressPoolManager.Pool.Pool, hle', h1, h3, not_true, ne_eq, if_false] at hc
    split at hc <;> simp at hc
  refine ⟨hiff, hctor, ?_⟩
  intro m hm
  by_cases h1 : ptr &&& cfg.kSuperPageOffsetMask = 0
  · by_cases h2 : ((ptr + length) % kWord) &&& cfg.kSuperPageOffsetMask = 0
    · simp only [AddressPoolManager.Add, h1, h2, ne_eq, not_true, if_false] at hm
      exact hctor h1 h2 (AddressPoolManager.Add.loop_check cfg ptr length _ _ _ hm)
    · simp [AddressPoolManager.Add, h1, h2] at hm
  · simp [AddressPoolManager.Add, h1] at hm

/-- C32 at a region of nine super pages at `0x200000`, one more than `kMaxBits`: the
checks of `Add` pass and the constructor is stopped by `CHECK_LE`. -/
theorem Add_alignment_agrees_witness :
    exampleConfig.Valid ∧
    (((2097152 &&& exampleConfig.kSuperPageOffsetMask = 0 ∧
        ((2097152 + 18874368) % kWord) &&& exampleConfig.kSuperPageOffsetMask = 0) ↔
      (2097152 &&& exampleConfig.kSuperPageOffsetMask = 0 ∧
        18874368 &&& exampleConfig.kSuperPageOffsetMask = 0)) ∧
    (2097152 &&& exampleConfig.kSuperPageOffsetMask = 0 →
      ((2097152 + 18874368) % kWord) &&& exampleConfig.kSuperPageOffsetMask = 0 →
      AddressPoolManager.Pool.Pool exampleConfig 2097152 18874368 = .fatal .check →
      exampleConfig.kMaxBits < 18874368 / exampleConfig.kSuperPageSize) ∧
    (∀ m : AddressPoolManager, m.Add exampleConfig 2097152 18874368 = .fatal .check →
      exampleConfig.kMaxBits < 18874368 / exampleConfig.kSuperPageSize)) :=
  ⟨by decide, Add_alignment_agrees exampleConfig (by decide) 2097152 18874368⟩

end base.internal

namespace base

/-! ## C31: StringFromMemData -/

/-- The conversion of a range of `uint8_t` values to a string keeps every byte. -/
theorem std_string_ofRange_id (bytes : List Nat) (hbytes : ∀ b ∈ bytes, b < 2 ^ 8) :
    std.string.ofRange bytes = bytes := by
  induction bytes with
  | nil => rfl
  | cons b bs ih =>
    have hb : b % 2 ^ 8 = b := Nat.mod_eq_of_lt (hbytes b (List.mem_cons_self _ _))
    have hbs : std.string.ofRange bs = bs :=
      ih (fun x hx => hbytes x (List.mem_cons_of_mem _ hx))
    simp only [std.string.ofRange, List.map_cons] at hbs ⊢
    rw [hb, hbs]

/-- A buffer of no bytes gives the empty string and the VMO is not read. -/
theorem StringFromMemBuffer_empty (vmo : zx.vmo) :
    StringFromMemBuffer { vmo := vmo, size := 0 } = { value := some [], effects := [] } := by
  simp [StringFromMemBuffer]

/-- A buffer with bytes is read once, from offset 0 and for `size` bytes, into a string of
`size` zero bytes; the result is the string after the read when the status is `ZX_OK`,
and `nullopt` after a line in the error log otherwise. -/
theorem StringFromMemBuffer_read (buffer : fuchsia.mem.Buffer) (hsize : buffer.size ≠ 0) :
    StringFromMemBuffer buffer =
      if (buffer.vmo.read (List.replicate buffer.size 0) 0 buffer.size).1 = ZX_OK then
        { value := some (buffer.vmo.read (List.replicate buffer.size 0) 0 buffer.size).2
          effects := [.vmo_read 0 buffer.size] }
      else
        { value := none
          effects := [.vmo_read 0 buffer.size,
            .log_error (buffer.vmo.read (List.replicate buffer.size 0) 0 buffer.size).1] } := by
  simp [StringFromMemBuffer, hsize, std.string.resize]

/-- The string of a buffer over a VMO that holds `content`, with `size` the length of the
content, is the content. -/
theorem StringFromMemBuffer_exampleVmo (content : List Nat) :
    (StringFromMemBuffer { vmo := exampleVmo content, size := content.length }).value =
      some content := by
  by_cases h : content.length = 0
  · rw [List.length_eq_zero.mp h]
    simp [StringFromMemBuffer]
  · simp [StringFromMemBuffer, h, exampleVmo, ZX_OK]

/-- C31: `StringFromMemData` dispatches on the variant of its argument.  For `kBytes` with
a vector of `uint8_t` values it returns a present string whose bytes are the vector, in
order and of the same length, and an empty vector gives a present empty string; for
`kBuffer` it returns what `StringFromMemBuffer` returns for the buffer, and does what it
does, which for a buffer of `size == 0` is a present empty string with no read of the VMO;
for `kUnknown` and `Invalid` it returns `nullopt`.  The cases of `kBytes`, `kUnknown` and
`Invalid` touch no VMO and write no log. -/
theorem StringFromMemData_dispatch (bytes : List Nat) (hbytes : ∀ b ∈ bytes, b < 2 ^ 8)
    (buffer : fuchsia.mem.Buffer) (vmo : zx.vmo) (ordinal : Nat) (unknown_bytes : List Nat) :
    StringFromMemData (.kBytes bytes) = { value := some bytes, effects := [] } ∧
    (StringFromMemData (.kBytes bytes)).value.map List.length = some bytes.length ∧
    StringFromMemData (.kBytes []) = { value := some [], effects := [] } ∧
    StringFromMemData (.kBuffer buffer) = StringFromMemBuffer buffer ∧
    StringFromMemData (.kBuffer { vmo := vmo, size := 0 }) =
      { value := some [], effects := [] } ∧
    StringFromMemBuffer { vmo := vmo, size := 0 } = { value := some [], effects := [] } ∧
    StringFromMemData (.kUnknown ordinal unknown_bytes) = { value := none, effects := [] } ∧
    StringFromMemData .Invalid = { value := none, effects := [] } := by
  have h1 : StringFromMemData (.kBytes bytes) = { value := some bytes, effects := [] } := by
    simp only [StringFromMemData, std_string_ofRange_id bytes hbytes]
  refine ⟨h1, ?_, rfl, rfl, ?_, StringFromMemBuffer_empty vmo, rfl, rfl⟩
  · rw [h1]; rfl
  · exact StringFromMemBuffer_empty vmo

/-- C31 at the vector `[104, 105]`, at a buffer of two bytes over a VMO that holds them,
at that VMO, and at an unknown member of ordinal 3. -/
theorem StringFromMemData_dispatch_witness :
    (∀ b ∈ [104, 105], b < 2 ^ 8) ∧
    StringFromMemData (.kBytes [104, 105]) = { value := some [104, 105], effects := [] } ∧
    (StringFromMemData (.kBytes [104, 105])).value.map List.length = some 2 ∧
    StringFromMemData (.kBytes []) = { value := some [], effects := [] } ∧
    StringFromMemData (.kBuffer { vmo := exampleVmo [104, 105], size := 2 }) =
      StringFromMemBuffer { vmo := exampleVmo [104, 105], size := 2 } ∧
    StringFromMemData (.kBuffer { vmo := exampleVmo [104, 105], size := 0 }) =
      { value := some [], effects := [] } ∧
    StringFromMemBuffer { vmo := exampleVmo [104, 105], size := 0 } =
      { value := some [], effects := [] } ∧
    StringFromMemData (.kUnknown 3 [1]) = { value := none, effects := [] } ∧
    StringFromMemData .Invalid = { value := none, effects := [] } :=
  ⟨by decide, StringFromMemData_dispatch [104, 105] (by decide)
    { vmo := exampleVmo [104, 105], size := 2 } (exampleVmo [104, 105]) 3 [1]⟩

end base
